import Mathlib

/-!
# 2-SAT solver of `content/graph/2sat.h`

A shallow embedding of `struct TwoSat` and a verification of its contract.

Modelling conventions.

* `int` indices are natural numbers; a `vector` is a `List` in index order, so
  `push_back` appends at the end and `back()` is the last element.
* Indexing a vector out of range, calling `back()`/`front()` on an empty
  vector and reading the never-assigned `comp_id` of a node are undefined in
  C++; every operation that can do so returns `Option`, with `none` for the
  undefined run.
* `dfs1` and `dfs2` are recursive; they take a recursion-depth budget and
  return `none` when it is exhausted. `solve` supplies `nodes.size() + 1`,
  which is proved to be enough.
* The helper names of the surrounding template are read as usual:
  `vi = vector<int>`, `sz(x) = (int)x.size()`,
  `rep(i,a,b) = for (int i = a; i < b; ++i)`.
* `char`/`bool` values are `0`/`1`; `int` arithmetic is assumed not to
  overflow (`2*N + 1` fits in an `int`).
-/

namespace Kactl

/-! ## The program -/

/-- A `TwoSat::Node`: incoming and outgoing edges, component id (`none` while
never assigned, the constructor leaves it indeterminate) and visit flag. -/
structure Node where
  ins : List Nat
  outs : List Nat
  comp_id : Option Nat
  vis : Nat
deriving DecidableEq

/-- A `TwoSat::Comp`: member nodes in insertion order and the selected flag. -/
structure Comp where
  nodes : List Nat
  value : Bool
deriving DecidableEq

/-- The solver object `struct TwoSat`. -/
structure TwoSat where
  values : List Nat
  N : Nat
  nodes : List Node
  comp : List Comp
  st : List Nat
deriving DecidableEq

/-- The value `Node()`: no edges, `vis(0)`, `comp_id` not assigned. -/
def Node.new : Node := { ins := [], outs := [], comp_id := none, vis := 0 }

/-- The value `Comp()`: no nodes, `value(0)`. -/
def Comp.new : Comp := { nodes := [], value := false }

/-- Run `f x` for each `x` of a list in order, threading the state; stops with
`none` as soon as one run is undefined. Embeds `for (x : xs) f(x);`. -/
def loopM {α σ : Type} (f : α → σ → Option σ) : List α → σ → Option σ
  | [], s => some s
  | x :: xs, s =>
    match f x s with
    | none => none
    | some t => loopM f xs t

/-- Constructor `TwoSat(int n)`: `values(n), N(n), nodes(2*n)`. -/
def create (n : Nat) : TwoSat :=
  { values := List.replicate n 0, N := n, nodes := List.replicate (2 * n) Node.new,
    comp := [], st := [] }

/-- Method `add_var`: returns the old `N` and the new state. -/
def add_var (s : TwoSat) : Nat × TwoSat :=
  (s.N, { s with values := s.values ++ [0], nodes := s.nodes ++ [Node.new] ++ [Node.new],
                 N := s.N + 1 })

/-- The statement `nodes[u].outs.push_back(v)`. -/
def push_outs (nodes : List Node) (u v : Nat) : Option (List Node) :=
  match nodes[u]? with
  | none => none
  | some n => some (nodes.set u { n with outs := n.outs ++ [v] })

/-- The statement `nodes[u].ins.push_back(v)`. -/
def push_ins (nodes : List Node) (u v : Nat) : Option (List Node) :=
  match nodes[u]? with
  | none => none
  | some n => some (nodes.set u { n with ins := n.ins ++ [v] })

/-- Method `add_clause`. -/
def add_clause (s : TwoSat) (a_index : Nat) (a_value : Bool) (b_index : Nat) (b_value : Bool) :
    Option TwoSat :=
  let a := 2 * a_index + a_value.toNat
  let b := 2 * b_index + b_value.toNat
  (push_outs s.nodes (a ^^^ 1) b).bind fun n1 =>
  (push_ins n1 b (a ^^^ 1)).bind fun n2 =>
  (push_outs n2 (b ^^^ 1) a).bind fun n3 =>
  (push_ins n3 a (b ^^^ 1)).bind fun n4 =>
  some { s with nodes := n4 }

/-- Method `set_value`. -/
def set_value (s : TwoSat) (index : Nat) (value : Bool) : Option TwoSat :=
  add_clause s index value index value

/-- The loop `rep(i,2,sz(li))` of `at_most_one`, run over the elements
`li[2], li[3], ...`; returns the final `cur`. -/
def at_most_one_loop (val : Bool) : List Nat → Nat → TwoSat → Option (Nat × TwoSat)
  | [], cur, s => some (cur, s)
  | x :: xs, cur, s =>
    let next := (add_var s).1
    (add_clause (add_var s).2 cur (!val) x (!val)).bind fun s2 =>
    (add_clause s2 cur (!val) next val).bind fun s3 =>
    (add_clause s3 x (!val) next val).bind fun s4 =>
    at_most_one_loop val xs next s4

/-- Method `at_most_one`. -/
def at_most_one (s : TwoSat) (li : List Nat) (val : Bool) : Option TwoSat :=
  match li with
  | [] => some s
  | [_] => some s
  | l0 :: l1 :: rest =>
    (at_most_one_loop val rest l0 s).bind fun r =>
    add_clause r.2 r.1 (!val) l1 (!val)

/-- Method `dfs1`, with a recursion-depth budget. -/
def dfs1 : Nat → Nat → TwoSat → Option TwoSat
  | 0, _, _ => none
  | fuel + 1, v, s =>
    match s.nodes[v]? with
    | none => none
    | some n =>
      if n.vis ≠ 0 then some s
      else
        match loopM (dfs1 fuel) n.outs { s with nodes := s.nodes.set v { n with vis := 1 } } with
        | none => none
        | some t => some { t with st := t.st ++ [v] }

/-- The loop body `if (!nodes[e].vis) dfs2(e)` of `dfs2`, given `dfs2`. -/
def visit2 (rec2 : Nat → TwoSat → Option TwoSat) (e : Nat) (t : TwoSat) : Option TwoSat :=
  match t.nodes[e]? with
  | none => none
  | some m => if m.vis = 0 then rec2 e t else some t

/-- Method `dfs2`, with a recursion-depth budget. -/
def dfs2 : Nat → Nat → TwoSat → Option TwoSat
  | 0, _, _ => none
  | fuel + 1, v, s =>
    match s.nodes[v]?, s.comp.getLast? with
    | some n, some c =>
      loopM (visit2 (dfs2 fuel)) n.ins
        { s with
          nodes := s.nodes.set v { n with vis := 1, comp_id := some (s.comp.length - 1) }
          comp := s.comp.dropLast ++ [{ c with nodes := c.nodes ++ [v] }] }
    | _, _ => none

/-- The statement `nodes[i].vis = 0`. -/
def reset_vis (i : Nat) (s : TwoSat) : Option TwoSat :=
  match s.nodes[i]? with
  | none => none
  | some n => some { s with nodes := s.nodes.set i { n with vis := 0 } }

/-- The loop `while (!st.empty())` of `solve`; `k` bounds the number of
iterations, `fuel` is the budget handed to `dfs2`. -/
def pass2 (fuel : Nat) : Nat → TwoSat → Option TwoSat
  | 0, _ => none
  | k + 1, s =>
    match s.st.getLast? with
    | none => some s
    | some v =>
      match s.nodes[v]? with
      | none => none
      | some n =>
        if n.vis = 0 then
          match dfs2 fuel v { s with comp := s.comp ++ [Comp.new] } with
          | none => none
          | some t => pass2 fuel k { t with st := t.st.dropLast }
        else pass2 fuel k { s with st := s.st.dropLast }

/-- The first part of `solve`: pass 1, the reset of the flags, and pass 2. -/
def decompose (s : TwoSat) : Option TwoSat :=
  (loopM (dfs1 (s.nodes.length + 1)) (List.range (2 * s.N)) s).bind fun s1 =>
  (loopM reset_vis (List.range (2 * s1.N)) s1).bind fun s2 =>
  pass2 (s2.nodes.length + 1) (s2.st.length + 1) s2

/-- The loop `for (int e : d.nodes) values[e/2] = !(e%2);`. -/
def assign : List Nat → List Nat → Option (List Nat)
  | [], values => some values
  | e :: es, values =>
    if e / 2 < values.length then
      assign es (values.set (e / 2) (if e % 2 = 0 then 1 else 0))
    else none

/-- The loop `for (Comp& d : comp)` of `solve`, over the remaining indices;
returns the result of `solve` and the final state. -/
def resolve : List Nat → TwoSat → Option (Bool × TwoSat)
  | [], s => some (true, s)
  | i :: rest, s =>
    match s.comp[i]? with
    | none => none
    | some d =>
      if d.value then resolve rest s
      else
        match d.nodes.head? with
        | none => none
        | some x =>
          match s.nodes[x ^^^ 1]? with
          | none => none
          | some nx =>
            match nx.comp_id with
            | none => none
            | some k =>
              match s.comp[k]? with
              | none => none
              | some c =>
                if k = i then some (false, s)
                else
                  match assign d.nodes s.values with
                  | none => none
                  | some vals =>
                    resolve rest
                      { s with comp := s.comp.set k { c with value := true }, values := vals }

/-- Method `solve`. -/
def solve (s : TwoSat) : Option (Bool × TwoSat) :=
  (decompose s).bind fun t => resolve (List.range t.comp.length) t

/-- A call of the construction API. -/
inductive Op where
  | add_var
  | add_clause (a_index : Nat) (a_value : Bool) (b_index : Nat) (b_value : Bool)
  | set_value (index : Nat) (value : Bool)
  | at_most_one (li : List Nat) (val : Bool)
deriving DecidableEq

/-- Perform one construction call. -/
def Op.apply (s : TwoSat) : Op → Option TwoSat
  | .add_var => some (Kactl.add_var s).2
  | .add_clause a av b bv => Kactl.add_clause s a av b bv
  | .set_value i v => Kactl.set_value s i v
  | .at_most_one li val => Kactl.at_most_one s li val

/-- Perform a sequence of construction calls. -/
def run : List Op → TwoSat → Option TwoSat := loopM (fun op s => op.apply s)

/-- The solver `TwoSat(n)` after the calls `ops`. -/
def build (n : Nat) (ops : List Op) : Option TwoSat := run ops (create n)

/-! ## Vocabulary of the specification and of the proofs -/

/-- One edge `a → b` of the graph `g` with both ends in the node list `S`. -/
def StepIn (g : Nat → List Nat) (S : List Nat) (a b : Nat) : Prop :=
  a ∈ S ∧ b ∈ g a ∧ b ∈ S

/-- The node `y` is reachable from `x` in the graph `g` restricted to `S`. -/
def ReachIn (g : Nat → List Nat) (S : List Nat) : Nat → Nat → Prop :=
  Relation.ReflTransGen (StepIn g S)

/-- The node `y` is reachable from `x` along edges of `g`. -/
def Reach (g : Nat → List Nat) : Nat → Nat → Prop :=
  Relation.ReflTransGen (fun a b => b ∈ g a)

/-- Mutual reachability: `x` and `y` lie in the same strongly connected
component of `g`. -/
def SCC (g : Nat → List Nat) (x y : Nat) : Prop := Reach g x y ∧ Reach g y x

/-- In the vector `L`, the element `b` is at or below the element `a`: every
prefix of `L` holding `a` holds `b`. -/
def Above (L : List Nat) (a b : Nat) : Prop :=
  ∀ p, p <+: L → a ∈ p → b ∈ p

/-- The finish-order property of the stack of pass 1: whatever a stacked node
reaches inside the stack lies at or below some node of its own component. -/
def WStack (g : Nat → List Nat) (L : List Nat) : Prop :=
  ∀ x ∈ L, ∀ y, ReachIn g L x y →
    ∃ x', ReachIn g L x x' ∧ ReachIn g L x' x ∧ Above L x' y

/-- The list `nodes[x].outs` (empty outside the vector). -/
def outsOf (s : TwoSat) (x : Nat) : List Nat :=
  match s.nodes[x]? with
  | some n => n.outs
  | none => []

/-- The list `nodes[x].ins` (empty outside the vector). -/
def insOf (s : TwoSat) (x : Nat) : List Nat :=
  match s.nodes[x]? with
  | some n => n.ins
  | none => []

/-- The field `nodes[x].comp_id`, when it has been assigned. -/
def cidOf (s : TwoSat) (x : Nat) : Option Nat :=
  match s.nodes[x]? with
  | some n => n.comp_id
  | none => none

/-- The flag `nodes[x].vis` is set. -/
def visited (s : TwoSat) (x : Nat) : Prop :=
  ∃ n, s.nodes[x]? = some n ∧ n.vis ≠ 0

/-- Number of nodes whose flag `vis` is clear. -/
def unvis (s : TwoSat) : Nat :=
  s.nodes.countP (fun n => decide (n.vis = 0))

/-- What a terminated run of pass-1 code adds: the nodes `new` were clear, are
now set and pushed on `st`; nothing else changes. -/
structure Ext1 (new : List Nat) (s s' : TwoSat) : Prop where
  hN : s'.N = s.N
  hvalues : s'.values = s.values
  hcomp : s'.comp = s.comp
  hlen : s'.nodes.length = s.nodes.length
  houts : outsOf s' = outsOf s
  hins : insOf s' = insOf s
  hst : s'.st = s.st ++ new
  hvis : ∀ x, visited s' x ↔ visited s x ∨ x ∈ new
  hnew : ∀ x ∈ new, ¬ visited s x
  hnodup : new.Nodup
  hunvis : unvis s' ≤ unvis s

/-- Invariant of pass 1: stacked nodes are marked, their out-edges lead to
marked nodes, and the stack has the finish-order property. -/
def Inv1 (g : Nat → List Nat) (s : TwoSat) : Prop :=
  (∀ x ∈ s.st, visited s x) ∧ (∀ x ∈ s.st, ∀ y ∈ g x, visited s y) ∧ WStack g s.st

/-- Contract of a call `dfs1(v)` that has budget `fuel`. -/
def Dfs1Spec (g : Nat → List Nat) (fuel : Nat) (f : Nat → TwoSat → Option TwoSat) : Prop :=
  ∀ v s, outsOf s = g → (∀ x, ∀ y ∈ g x, y < s.nodes.length) → v < s.nodes.length →
    unvis s < fuel → Inv1 g s →
    ∃ s' new, f v s = some s' ∧ Ext1 new s s' ∧ visited s' v ∧ Inv1 g s' ∧
      ∀ x ∈ new, ReachIn g new v x

/-- What a terminated run of pass-2 code adds: the nodes `new` were clear, are
now set, carry the id of the last component and are appended to its nodes;
nothing else changes. -/
structure Ext2 (new : List Nat) (s s' : TwoSat) : Prop where
  hN : s'.N = s.N
  hvalues : s'.values = s.values
  hst : s'.st = s.st
  hlen : s'.nodes.length = s.nodes.length
  houts : outsOf s' = outsOf s
  hins : insOf s' = insOf s
  hcomp : ∀ pre ns b, s.comp = pre ++ [⟨ns, b⟩] → s'.comp = pre ++ [⟨ns ++ new, b⟩]
  hcomplen : s'.comp.length = s.comp.length
  hcid : ∀ x, cidOf s' x = if x ∈ new then some (s.comp.length - 1) else cidOf s x
  hvis : ∀ x, visited s' x ↔ visited s x ∨ x ∈ new
  hnew : ∀ x ∈ new, ¬ visited s x
  hnodup : new.Nodup
  hunvis : unvis s' ≤ unvis s

/-- Contract of a call `dfs2(v)` on an unmarked node with budget `fuel`. -/
def Dfs2Spec (gi : Nat → List Nat) (fuel : Nat) (f : Nat → TwoSat → Option TwoSat) : Prop :=
  ∀ v s, insOf s = gi → (∀ x, ∀ y ∈ gi x, y < s.nodes.length) → v < s.nodes.length →
    ¬ visited s v → unvis s < fuel → s.comp ≠ [] →
    ∃ s' new, f v s = some s' ∧ Ext2 new s s' ∧ new.head? = some v ∧
      (∀ x ∈ new, ∀ u ∈ gi x, visited s' u) ∧ ∀ x ∈ new, ReachIn gi new v x

/-- Invariant of the loop `while (!st.empty())`. The stack is a prefix of the
stack `L0` left by pass 1, the popped nodes are marked, the marked nodes are a
union of strongly connected components, each of them is one `Comp`, and ids
do not decrease along edges. -/
structure P2Inv (g gi : Nat → List Nat) (L0 : List Nat) (s0 t : TwoSat) : Prop where
  hN : t.N = s0.N
  hvalues : t.values = s0.values
  hlen : t.nodes.length = s0.nodes.length
  houts : outsOf t = g
  hins : insOf t = gi
  hpre : t.st <+: L0
  hpop : ∀ x ∈ L0, x ∉ t.st → visited t x
  hcid : ∀ x, visited t x → ∃ k, cidOf t x = some k ∧ k < t.comp.length
  hcomp : ∀ k c, t.comp[k]? = some c → c.value = false ∧ c.nodes ≠ [] ∧ c.nodes.Nodup ∧
    ∀ x, x ∈ c.nodes ↔ (visited t x ∧ cidOf t x = some k)
  hscc : ∀ x, visited t x → ∀ y, SCC g x y ↔ (visited t y ∧ cidOf t y = cidOf t x)
  hedge : ∀ u v, v ∈ g u → visited t v →
    visited t u ∧ ∃ ku kv, cidOf t u = some ku ∧ cidOf t v = some kv ∧ ku ≤ kv

/-- A solver on which `solve` may be called: sizes agree with `N`, all flags
are clear, no component and no stack entry exists yet, every edge stays inside
the node vector, and `ins` mirrors `outs`. -/
structure Ready (s : TwoSat) : Prop where
  hlen : s.nodes.length = 2 * s.N
  hvalues : s.values.length = s.N
  hvis : ∀ x, ¬ visited s x
  hcomp : s.comp = []
  hst : s.st = []
  hout : ∀ x, ∀ y ∈ outsOf s x, y < s.nodes.length
  hin : ∀ x, ∀ y ∈ insOf s x, y < s.nodes.length
  hagree : ∀ u v, u ∈ insOf s v ↔ v ∈ outsOf s u

/-- The state after the two passes: every node has a component id, component
`k` lists exactly the nodes with id `k`, equal ids mean mutual reachability,
and ids do not decrease along edges. -/
structure Decomposed (s t : TwoSat) : Prop where
  hN : t.N = s.N
  hvalues : t.values = s.values
  hlen : t.nodes.length = s.nodes.length
  houts : outsOf t = outsOf s
  hins : insOf t = insOf s
  hst : t.st = []
  hcid : ∀ x, x < 2 * s.N → ∃ k, cidOf t x = some k ∧ k < t.comp.length
  hcomp : ∀ k c, t.comp[k]? = some c → c.value = false ∧ c.nodes ≠ [] ∧ c.nodes.Nodup ∧
    ∀ x, x ∈ c.nodes ↔ (x < 2 * s.N ∧ cidOf t x = some k)
  hscc : ∀ x y, x < 2 * s.N → y < 2 * s.N →
    (cidOf t x = cidOf t y ↔ SCC (outsOf s) x y)
  hedge : ∀ u v, v ∈ outsOf s u →
    ∃ ku kv, cidOf t u = some ku ∧ cidOf t v = some kv ∧ ku ≤ kv

/-- What the resolution loop needs from the decomposed state `t0`: `cid`
gives the component id of every node, component `k` lists the nodes of id `k`,
and complementing two nodes of one component gives nodes of one component. -/
structure ResCtx (t0 : TwoSat) (cid : Nat → Nat) : Prop where
  hlen : t0.nodes.length = 2 * t0.N
  hcid : ∀ x, x < 2 * t0.N → cidOf t0 x = some (cid x) ∧ cid x < t0.comp.length
  hcomp : ∀ k c, t0.comp[k]? = some c →
    c.nodes ≠ [] ∧ ∀ x, x ∈ c.nodes ↔ (x < 2 * t0.N ∧ cid x = k)
  hbar : ∀ x y, x < 2 * t0.N → y < 2 * t0.N → cid x = cid y →
    cid (x ^^^ 1) = cid (y ^^^ 1)

/-- Invariant before the iteration for component `i`: only `value` flags and
`values` have changed; a component is selected iff its complement was handled
before it; the components handled so far differ from their complements, and
the literals of the earlier component of each handled pair are false. -/
structure RInv (t0 : TwoSat) (cid : Nat → Nat) (i : Nat) (u : TwoSat) : Prop where
  hnodes : u.nodes = t0.nodes
  hN : u.N = t0.N
  hst : u.st = t0.st
  hvlen : u.values.length = t0.N
  hclen : u.comp.length = t0.comp.length
  hcnodes : ∀ (k : Nat) (c : Comp), u.comp[k]? = some c →
    ∃ c0 : Comp, t0.comp[k]? = some c0 ∧ c.nodes = c0.nodes
  hflag : ∀ y, y < 2 * t0.N → ∀ c, u.comp[cid y]? = some c →
    (c.value = true ↔ cid (y ^^^ 1) < i ∧ cid (y ^^^ 1) < cid y)
  hok : ∀ x, x < 2 * t0.N → cid x < i → cid x ≠ cid (x ^^^ 1)
  hdone : ∀ x, x < 2 * t0.N → cid x < i → cid x < cid (x ^^^ 1) →
    u.values[x / 2]? = some (if x % 2 = 0 then 1 else 0)

/-- The component id of node `x` as a number (`0` while not assigned). -/
def cidN (s : TwoSat) (x : Nat) : Nat := (cidOf s x).getD 0

/-- The literal of node `x` is true under `values`: variable `x/2` has the
value `x%2`. -/
def litHolds (values : List Nat) (x : Nat) : Prop := values[x / 2]? = some (x % 2)

/-- The `outs` graph holds with every edge `u → v` its contrapositive
`v^1 → u^1`. -/
def Skew (s : TwoSat) : Prop :=
  ∀ u v, v ∈ outsOf s u → (u ^^^ 1) ∈ outsOf s (v ^^^ 1)

/-- The node `2*index + value` of a literal. -/
def lit (index : Nat) (value : Bool) : Nat := 2 * index + value.toNat

/-- A submitted clause `(a_index, a_value, b_index, b_value)`: variable
`a_index` has value `a_value` or variable `b_index` has value `b_value`. -/
structure Clause where
  a_index : Nat
  a_value : Bool
  b_index : Nat
  b_value : Bool
deriving DecidableEq

/-- The clause is satisfied by the vector `values`:
`values[a_index] == a_value || values[b_index] == b_value`. -/
def Clause.holds (values : List Nat) (c : Clause) : Prop :=
  values[c.a_index]? = some c.a_value.toNat ∨ values[c.b_index]? = some c.b_value.toNat

/-- The clause is satisfied by the assignment `f` of the variables. -/
def Clause.sat (f : Nat → Bool) (c : Clause) : Prop :=
  f c.a_index = c.a_value ∨ f c.b_index = c.b_value

/-- The edge `u → v` is one of the two implications `¬a → b`, `¬b → a` that
`add_clause` stores for the clause. -/
def Clause.edge (c : Clause) (u v : Nat) : Prop :=
  (u = lit c.a_index c.a_value ^^^ 1 ∧ v = lit c.b_index c.b_value) ∨
  (u = lit c.b_index c.b_value ^^^ 1 ∧ v = lit c.a_index c.a_value)

/-- The clauses that the loop of `at_most_one` passes to `add_clause`, when it
starts with `cur` and `N` variables. -/
def at_most_one_loop_clauses (val : Bool) : List Nat → Nat → Nat → List Clause
  | [], _, _ => []
  | x :: xs, cur, N =>
    ⟨cur, !val, x, !val⟩ :: ⟨cur, !val, N, val⟩ :: ⟨x, !val, N, val⟩ ::
      at_most_one_loop_clauses val xs N (N + 1)

/-- The value of `cur` after the loop of `at_most_one`. -/
def at_most_one_cur : List Nat → Nat → Nat → Nat
  | [], cur, _ => cur
  | _ :: xs, _, N => at_most_one_cur xs N (N + 1)

/-- The clauses that `at_most_one(li, val)` passes to `add_clause` on a solver
with `N` variables. -/
def at_most_one_clauses (N : Nat) (li : List Nat) (val : Bool) : List Clause :=
  match li with
  | [] => []
  | [_] => []
  | l0 :: l1 :: rest =>
    at_most_one_loop_clauses val rest l0 N ++ [⟨at_most_one_cur rest l0 N, !val, l1, !val⟩]

/-- The clauses one construction call submits on a solver with `N` variables. -/
def Op.clauses (N : Nat) : Op → List Clause
  | .add_var => []
  | .add_clause a av b bv => [⟨a, av, b, bv⟩]
  | .set_value i v => [⟨i, v, i, v⟩]
  | .at_most_one li val => at_most_one_clauses N li val

/-- The variable indices of the call are below the current `N`. -/
def Op.inRange (N : Nat) : Op → Bool
  | .add_var => true
  | .add_clause a _ b _ => decide (a < N) && decide (b < N)
  | .set_value i _ => decide (i < N)
  | .at_most_one li _ => li.all (fun x => decide (x < N))

/-- The number of variables after the call. -/
def Op.newN (N : Nat) : Op → Nat
  | .add_var => N + 1
  | .add_clause _ _ _ _ => N
  | .set_value _ _ => N
  | .at_most_one li _ => N + (li.length - 2)

/-- Every call of the sequence has its variable indices below the value of
`N` at the time of the call. -/
def opsInRange : Nat → List Op → Bool
  | _, [] => true
  | N, op :: ops => op.inRange N && opsInRange (op.newN N) ops

/-- All clauses submitted by the calls `ops`, started on a solver with `N`
variables. -/
def submitted : Nat → List Op → List Clause
  | _, [] => []
  | N, op :: ops => op.clauses N ++ submitted (op.newN N) ops

/-- The number of variables after the calls `ops`. -/
def finalN : Nat → List Op → Nat
  | N, [] => N
  | N, op :: ops => finalN (op.newN N) ops

/-- Invariant of the construction phase, for the list `cs` of the clauses
submitted so far. -/
structure Built (cs : List Clause) (s : TwoSat) : Prop where
  hlen : s.nodes.length = 2 * s.N
  hvalues : s.values.length = s.N
  hvis : ∀ x, ¬ visited s x
  hcomp : s.comp = []
  hst : s.st = []
  hagree : ∀ u v, u ∈ insOf s v ↔ v ∈ outsOf s u
  hrange : ∀ c ∈ cs, c.a_index < s.N ∧ c.b_index < s.N
  hedge : ∀ u v, v ∈ outsOf s u ↔ ∃ c ∈ cs, c.edge u v

/-- The literal of node `x` is true under the assignment `f`. -/
def LitF (f : Nat → Bool) (x : Nat) : Prop := f (x / 2) = true ↔ x % 2 = 1

/-- No two distinct positions of `li` hold elements with property `P`. -/
def AtMostOnePos (P : Nat → Prop) (li : List Nat) : Prop :=
  ∀ (i j x y : Nat), i ≠ j → li[i]? = some x → li[j]? = some y → ¬ (P x ∧ P y)

/-- Values for the auxiliary variables of the loop of `at_most_one`: the
variable created for `x` gets `val` exactly when `cur` or `x` has it. -/
def at_most_one_extend (val : Bool) : List Nat → Nat → Nat → (Nat → Bool) → (Nat → Bool)
  | [], _, _, f => f
  | x :: xs, cur, N, f =>
    at_most_one_extend val xs N (N + 1)
      (fun i => if i = N then (if f cur = val ∨ f x = val then val else !val) else f i)

/-- The `outs` graph holds every edge `u → v` as often as its contrapositive
`v^1 → u^1`. -/
def Mirror (s : TwoSat) : Prop :=
  ∀ u v, (outsOf s u).count v = (outsOf s (v ^^^ 1)).count (u ^^^ 1)

/-- The `ins` lists hold every edge as often as the `outs` lists. -/
def InsMirror (s : TwoSat) : Prop :=
  ∀ u v, (outsOf s u).count v = (insOf s v).count u

/-- Pass 1 of `solve`: the loop `rep(i, 0, 2*N) dfs1(i)`, the first step of
`decompose`. -/
def pass1 (s : TwoSat) : Option TwoSat :=
  loopM (dfs1 (s.nodes.length + 1)) (List.range (2 * s.N)) s

/-- Method `dfs1` run with a clock, to speak about finish times. The state is
the solver, the clock and the list of the pairs (node, finish time) in the
order of finishing. The clock ticks when a node is marked and when it is
pushed on `st`; the finish time of a node is the clock value at its push.
Dropping the clock and the list gives `dfs1` (see `dfs1T_erase`). -/
def dfs1T : Nat → Nat → TwoSat × Nat × List (Nat × Nat) →
    Option (TwoSat × Nat × List (Nat × Nat))
  | 0, _, _ => none
  | fuel + 1, v, σ =>
    match σ.1.nodes[v]? with
    | none => none
    | some n =>
      if n.vis ≠ 0 then some σ
      else
        match loopM (dfs1T fuel) n.outs
            ({ σ.1 with nodes := σ.1.nodes.set v { n with vis := 1 } }, σ.2.1 + 1, σ.2.2) with
        | none => none
        | some τ => some ({ τ.1 with st := τ.1.st ++ [v] }, τ.2.1 + 1, τ.2.2 ++ [(v, τ.2.1)])

/-- Pass 1 of `solve` run with the clock, started at time 0. -/
def pass1T (s : TwoSat) : Option (TwoSat × Nat × List (Nat × Nat)) :=
  loopM (dfs1T (s.nodes.length + 1)) (List.range (2 * s.N)) (s, 0, [])

/-- What a run of timed pass-1 code adds: the clock does not go back, and the
new finish records carry strictly increasing times between the old and the
new clock value, for exactly the nodes pushed on `st`, in the same order. -/
def TimedExt (σ τ : TwoSat × Nat × List (Nat × Nat)) : Prop :=
  σ.2.1 ≤ τ.2.1 ∧ ∃ new : List (Nat × Nat), τ.2.2 = σ.2.2 ++ new ∧
    τ.1.st = σ.1.st ++ new.map Prod.fst ∧
    (∀ p ∈ new, σ.2.1 ≤ p.2 ∧ p.2 < τ.2.1) ∧ new.Pairwise (fun p q => p.2 < q.2)

/-! ## Graphs given by adjacency lists -/

theorem ReachIn.mono {g : Nat → List Nat} {S T : List Nat} (h : ∀ a ∈ S, a ∈ T) {x y : Nat}
    (hr : ReachIn g S x y) : ReachIn g T x y :=
  Relation.ReflTransGen.mono (fun _ _ hab => ⟨h _ hab.1, hab.2.1, h _ hab.2.2⟩) hr

theorem ReachIn.mem_right {g : Nat → List Nat} {S : List Nat} {x y : Nat}
    (hr : ReachIn g S x y) (hx : x ∈ S) : y ∈ S := by
  induction hr with
  | refl => exact hx
  | tail _ hstep _ => exact hstep.2.2

theorem ReachIn.mem_left {g : Nat → List Nat} {S : List Nat} {x y : Nat}
    (hr : ReachIn g S x y) (hy : y ∈ S) : x ∈ S := by
  induction hr using Relation.ReflTransGen.head_induction_on with
  | refl => exact hy
  | head hstep _ _ => exact hstep.1

theorem ReachIn.to_reach {g : Nat → List Nat} {S : List Nat} {x y : Nat}
    (hr : ReachIn g S x y) : Reach g x y :=
  Relation.ReflTransGen.mono (fun _ _ hab => hab.2.1) hr

/-- A path that never meets the top element `v` stays below it. -/
theorem ReachIn.avoid {g : Nat → List Nat} {L : List Nat} {v x y : Nat}
    (hr : ReachIn g (L ++ [v]) x y) (hv : ¬ ReachIn g (L ++ [v]) x v) : ReachIn g L x y := by
  induction hr with
  | refl => exact Relation.ReflTransGen.refl
  | @tail z w hxz hstep ih =>
    refine Relation.ReflTransGen.tail ih ⟨?_, hstep.2.1, ?_⟩
    · have hz : z ≠ v := fun h => hv (by rw [h] at hxz; exact hxz)
      have := hstep.1
      simp only [List.mem_append, List.mem_singleton] at this
      tauto
    · have hw : w ≠ v := fun h => hv (by
        have t := Relation.ReflTransGen.tail hxz hstep
        rw [h] at t; exact t)
      have := hstep.2.2
      simp only [List.mem_append, List.mem_singleton] at this
      tauto

/-- A set whose out-edges inside `S` lead back into it is never left. -/
theorem ReachIn.stay {g : Nat → List Nat} {L S : List Nat} {x y : Nat}
    (hcl : ∀ a ∈ L, ∀ b ∈ g a, b ∈ S → b ∈ L) (hr : ReachIn g S x y) (hx : x ∈ L) : y ∈ L := by
  induction hr with
  | refl => exact hx
  | tail _ hstep ih => exact hcl _ ih _ hstep.2.1 hstep.2.2

theorem Above.mem {L : List Nat} {a b : Nat} (h : Above L a b) (ha : a ∈ L) : b ∈ L :=
  h L (List.prefix_refl L) ha

theorem Above.append {L : List Nat} {a b : Nat} (h : Above L a b) (ha : a ∈ L) (M : List Nat) :
    Above (L ++ M) a b := by
  intro p hp hap
  rcases List.prefix_or_prefix_of_prefix hp (List.prefix_append L M) with h1 | h1
  · exact h p h1 hap
  · exact h1.subset (h.mem ha)

theorem Above.top {L : List Nat} {v b : Nat} (hv : v ∉ L) (hb : b ∈ L ++ [v]) :
    Above (L ++ [v]) v b := by
  intro p hp hvp
  rcases List.prefix_or_prefix_of_prefix hp (List.prefix_append L [v]) with h1 | h1
  · exact absurd (h1.subset hvp) hv
  · obtain ⟨t, rfl⟩ := h1
    obtain ⟨r, hr⟩ := hp
    rw [List.append_assoc, List.append_cancel_left_eq] at hr
    cases t with
    | nil => simp at hvp; exact absurd hvp hv
    | cons c t =>
      have : t = [] ∧ r = [] ∧ c = v := by
        cases t <;> simp_all
      obtain ⟨rfl, -, rfl⟩ := this
      exact hb

/-- Pushing a node that is reached back by everything reaching it keeps the
finish-order property. -/
theorem WStack.push {g : Nat → List Nat} {L : List Nat} {v : Nat} (hW : WStack g L)
    (hv : v ∉ L)
    (hback : ∀ x ∈ L, ReachIn g (L ++ [v]) x v → ReachIn g (L ++ [v]) v x) :
    WStack g (L ++ [v]) := by
  intro x hx y hxy
  have hyin : y ∈ L ++ [v] := hxy.mem_right hx
  by_cases hxv : ReachIn g (L ++ [v]) x v
  · refine ⟨v, hxv, ?_, Above.top hv hyin⟩
    by_cases hxe : x = v
    · subst hxe; exact Relation.ReflTransGen.refl
    · have hxL : x ∈ L := by
        simp only [List.mem_append, List.mem_singleton] at hx; tauto
      exact hback x hxL hxv
  · have hxe : x ≠ v := fun h => hxv (h ▸ Relation.ReflTransGen.refl)
    have hxL : x ∈ L := by
      simp only [List.mem_append, List.mem_singleton] at hx; tauto
    obtain ⟨x', h1, h2, h3⟩ := hW x hxL y (hxy.avoid hxv)
    have hsub : ∀ a ∈ L, a ∈ L ++ [v] := fun a ha => List.mem_append_left _ ha
    exact ⟨x', h1.mono hsub, h2.mono hsub, h3.append (h1.mem_right hxL) [v]⟩

/-! ## The two depth-first searches meet their contracts -/

theorem countP_set_lt {α : Type} (p : α → Bool) :
    ∀ (l : List α) (v : Nat) (n n' : α), l[v]? = some n → p n = true → p n' = false →
      (l.set v n').countP p + 1 = l.countP p := by
  intro l
  induction l with
  | nil => intro v n n' h; simp at h
  | cons a l ih =>
    intro v n n' h hp hp'
    cases v with
    | zero =>
      simp at h
      subst h
      simp [List.countP_cons, hp, hp']
    | succ v =>
      simp at h
      have := ih v n n' h hp hp'
      simp only [List.set_cons_succ, List.countP_cons]
      omega

theorem countP_set_le {α : Type} (p : α → Bool) :
    ∀ (l : List α) (v : Nat) (n n' : α), l[v]? = some n → (p n' = true → p n = true) →
      (l.set v n').countP p ≤ l.countP p := by
  intro l
  induction l with
  | nil => intro v n n' h; simp at h
  | cons a l ih =>
    intro v n n' h hp
    cases v with
    | zero =>
      simp at h
      subst h
      simp only [List.set_cons_zero, List.countP_cons]
      by_cases h1 : p n' = true
      · simp [h1, hp h1]
      · simp [h1]
    | succ v =>
      simp at h
      have := ih v n n' h hp
      simp only [List.set_cons_succ, List.countP_cons]
      omega

theorem unvis_le (s : TwoSat) : unvis s ≤ s.nodes.length := List.countP_le_length _

/-- Effect of `n.vis = 1` on a node whose flag was clear. -/
theorem mark_props (s : TwoSat) (v : Nat) (n : Node) (hn : s.nodes[v]? = some n)
    (h0 : n.vis = 0) (t : TwoSat) (n' : Node) (hn' : n'.vis = 1) (hi : n'.ins = n.ins)
    (ho : n'.outs = n.outs) (ht : t.nodes = s.nodes.set v n') :
    t.nodes.length = s.nodes.length ∧ outsOf t = outsOf s ∧ insOf t = insOf s ∧
    (∀ x, visited t x ↔ visited s x ∨ x = v) ∧ unvis t + 1 = unvis s ∧
    (∀ x, x ≠ v → cidOf t x = cidOf s x) ∧ cidOf t v = n'.comp_id := by
  have hv : v < s.nodes.length := by
    rcases Nat.lt_or_ge v s.nodes.length with h | h
    · exact h
    · rw [List.getElem?_eq_none h] at hn; cases hn
  refine ⟨by simp [ht], ?_, ?_, ?_, ?_, ?_, ?_⟩
  · funext x
    simp only [outsOf, ht, List.getElem?_set]
    by_cases hx : v = x
    · subst hx; simp [hv, hn, ho]
    · simp [hx]
  · funext x
    simp only [insOf, ht, List.getElem?_set]
    by_cases hx : v = x
    · subst hx; simp [hv, hn, hi]
    · simp [hx]
  · intro x
    simp only [visited, ht, List.getElem?_set]
    by_cases hx : v = x
    · subst hx; simp [hv, hn', hn]
    · simp [hx]; intro h; exact absurd h.symm hx
  · simp only [unvis, ht]
    exact countP_set_lt _ _ _ n n' hn (by simp [h0]) (by simp [hn'])
  · intro x hx
    simp only [cidOf, ht, List.getElem?_set]
    simp [Ne.symm hx]
  · simp [cidOf, ht, List.getElem?_set, hv]

theorem Ext1.ext1_refl (s : TwoSat) : Ext1 [] s s :=
  ⟨rfl, rfl, rfl, rfl, rfl, rfl, by simp, by simp, by simp, List.nodup_nil, le_rfl⟩

theorem Ext1.ext1_trans {n1 n2 : List Nat} {s s' s'' : TwoSat} (h1 : Ext1 n1 s s')
    (h2 : Ext1 n2 s' s'') : Ext1 (n1 ++ n2) s s'' where
  hN := h2.hN.trans h1.hN
  hvalues := h2.hvalues.trans h1.hvalues
  hcomp := h2.hcomp.trans h1.hcomp
  hlen := h2.hlen.trans h1.hlen
  houts := h2.houts.trans h1.houts
  hins := h2.hins.trans h1.hins
  hst := by rw [h2.hst, h1.hst, List.append_assoc]
  hvis := by
    intro x
    rw [h2.hvis, h1.hvis, List.mem_append, or_assoc]
  hnew := by
    intro x hx hv
    rcases List.mem_append.1 hx with h | h
    · exact h1.hnew x h hv
    · exact h2.hnew x h ((h1.hvis x).2 (Or.inl hv))
  hnodup := by
    rw [List.nodup_append]
    refine ⟨h1.hnodup, h2.hnodup, ?_⟩
    intro x hx1 hx2
    exact h2.hnew x hx2 ((h1.hvis x).2 (Or.inr hx1))
  hunvis := le_trans h2.hunvis h1.hunvis

/-- Contract of the loop `for (int e : es) dfs1(e)`. -/
theorem loop1_spec {g : Nat → List Nat} {fuel : Nat} {f : Nat → TwoSat → Option TwoSat}
    (hf : Dfs1Spec g fuel f) :
    ∀ es s, (∀ e ∈ es, e < s.nodes.length) → outsOf s = g →
      (∀ x, ∀ y ∈ g x, y < s.nodes.length) → unvis s < fuel → Inv1 g s →
      ∃ s' new, loopM f es s = some s' ∧ Ext1 new s s' ∧ (∀ e ∈ es, visited s' e) ∧
        Inv1 g s' ∧ ∀ x ∈ new, ∃ e ∈ es, ReachIn g new e x := by
  intro es
  induction es with
  | nil =>
    intro s _ _ _ _ hinv
    exact ⟨s, [], rfl, Ext1.ext1_refl s, by simp, hinv, by simp⟩
  | cons e es ih =>
    intro s hes hg hrange hfuel hinv
    obtain ⟨s1, n1, hcall, hext1, hvis1, hinv1, hreach1⟩ :=
      hf e s hg hrange (hes e (List.mem_cons_self _ _)) hfuel hinv
    obtain ⟨s2, n2, hloop, hext2, hvis2, hinv2, hreach2⟩ :=
      ih s1 (fun x hx => by rw [hext1.hlen]; exact hes x (List.mem_cons_of_mem _ hx))
        (hext1.houts.trans hg) (by rw [hext1.hlen]; exact hrange)
        (lt_of_le_of_lt hext1.hunvis hfuel) hinv1
    refine ⟨s2, n1 ++ n2, ?_, hext1.ext1_trans hext2, ?_, hinv2, ?_⟩
    · simp [loopM, hcall, hloop]
    · intro x hx
      rcases List.mem_cons.1 hx with h | h
      · subst h; exact (hext2.hvis x).2 (Or.inl hvis1)
      · exact hvis2 x h
    · intro x hx
      rcases List.mem_append.1 hx with h | h
      · exact ⟨e, List.mem_cons_self _ _,
          (hreach1 x h).mono (fun a ha => List.mem_append_left _ ha)⟩
      · obtain ⟨e', he', hr⟩ := hreach2 x h
        exact ⟨e', List.mem_cons_of_mem _ he', hr.mono (fun a ha => List.mem_append_right _ ha)⟩

/-- Method `dfs1` meets its contract whenever the budget exceeds the number
of unmarked nodes. -/
theorem dfs1_spec (g : Nat → List Nat) : ∀ fuel, Dfs1Spec g fuel (dfs1 fuel) := by
  intro fuel
  induction fuel with
  | zero => intro v s _ _ _ h; exact absurd h (Nat.not_lt_zero _)
  | succ fuel ih =>
    intro v s hg hrange hv hfuel hinv
    obtain ⟨n, hn⟩ : ∃ n, s.nodes[v]? = some n := ⟨s.nodes[v], List.getElem?_eq_getElem hv⟩
    by_cases hvis : n.vis ≠ 0
    · refine ⟨s, [], ?_, Ext1.ext1_refl s, ⟨n, hn, hvis⟩, hinv, by simp⟩
      simp [dfs1, hn, hvis]
    · have h0 : n.vis = 0 := not_not.1 hvis
      have hnv : ¬ visited s v := by
        rintro ⟨m, hm, hmv⟩
        rw [hn] at hm; cases hm; exact hmv h0
      obtain ⟨mlen, mouts, mins, mvis, munvis, -, -⟩ :=
        mark_props s v n hn h0 { s with nodes := s.nodes.set v { n with vis := 1 } }
          { n with vis := 1 } rfl rfl rfl rfl
      have hgv : g v = n.outs := by rw [← hg]; simp [outsOf, hn]
      obtain ⟨t, new', hloop, hext, hall, hinvt, hreach⟩ :=
        loop1_spec ih n.outs { s with nodes := s.nodes.set v { n with vis := 1 } }
          (fun e he => by rw [mlen]; exact hrange v e (hgv ▸ he))
          (mouts.trans hg) (by rw [mlen]; exact hrange) (by omega)
          ⟨fun x hx => (mvis x).2 (Or.inl (hinv.1 x hx)),
           fun x hx y hy => (mvis y).2 (Or.inl (hinv.2.1 x hx y hy)), hinv.2.2⟩
      have hst : t.st = s.st ++ new' := hext.hst
      have hvt : visited t v := (hext.hvis v).2 (Or.inl ((mvis v).2 (Or.inr rfl)))
      have hvnew : v ∉ new' := fun h => hext.hnew v h ((mvis v).2 (Or.inr rfl))
      have hvst : v ∉ s.st := fun h => hnv (hinv.1 v h)
      have hvt_st : v ∉ t.st := by
        rw [hst, List.mem_append]; tauto
      have hnew_reach : ∀ S : List Nat, v ∈ S → (∀ a ∈ new', a ∈ S) →
          ∀ x ∈ new', ReachIn g S v x := by
        intro S hvS hsub x hx
        obtain ⟨e, he, hr⟩ := hreach x hx
        have heS : e ∈ new' := hr.mem_left hx
        exact Relation.ReflTransGen.head ⟨hvS, hgv ▸ he, hsub e heS⟩ (hr.mono hsub)
      refine ⟨{ t with st := t.st ++ [v] }, new' ++ [v], ?_, ?_, hvt, ?_, ?_⟩
      · simp [dfs1, hn, h0, hloop]
      · exact
          { hN := hext.hN
            hvalues := hext.hvalues
            hcomp := hext.hcomp
            hlen := hext.hlen.trans mlen
            houts := hext.houts.trans mouts
            hins := hext.hins.trans mins
            hst := by show t.st ++ [v] = s.st ++ (new' ++ [v]); rw [hst, List.append_assoc]
            hvis := by
              intro x
              show visited t x ↔ _
              rw [hext.hvis, mvis, List.mem_append, List.mem_singleton]
              tauto
            hnew := by
              intro x hx hvx
              rcases List.mem_append.1 hx with h | h
              · exact hext.hnew x h ((mvis x).2 (Or.inl hvx))
              · rw [List.mem_singleton] at h; subst h; exact hnv hvx
            hnodup := by
              rw [List.nodup_append]
              refine ⟨hext.hnodup, List.nodup_singleton v, ?_⟩
              intro x hx1 hx2
              rw [List.mem_singleton] at hx2; subst hx2; exact hvnew hx1
            hunvis := by
              show unvis t ≤ unvis s
              have := hext.hunvis; omega }
      · refine ⟨?_, ?_, ?_⟩
        · intro x hx
          show visited t x
          rcases List.mem_append.1 hx with h | h
          · exact hinvt.1 x h
          · rw [List.mem_singleton] at h; subst h; exact hvt
        · intro x hx y hy
          show visited t y
          rcases List.mem_append.1 hx with h | h
          · exact hinvt.2.1 x h y hy
          · rw [List.mem_singleton] at h; subst h; exact hall y (hgv ▸ hy)
        · show WStack g (t.st ++ [v])
          refine WStack.push hinvt.2.2 hvt_st ?_
          intro x hx hxv
          rw [hst] at hx
          rcases List.mem_append.1 hx with h | h
          · exfalso
            refine hvst (ReachIn.stay ?_ hxv h)
            intro a ha b hb hbS
            have hvb : visited s b := hinv.2.1 a ha b hb
            rw [hst] at hbS
            simp only [List.mem_append, List.mem_singleton] at hbS
            rcases hbS with (h1 | h1) | h1
            · exact h1
            · exact absurd ((mvis b).2 (Or.inl hvb)) (hext.hnew b h1)
            · subst h1; exact absurd hvb hnv
          · refine hnew_reach (t.st ++ [v]) (by simp) ?_ x h
            intro a ha
            rw [hst]; simp [ha]
      · intro x hx
        rcases List.mem_append.1 hx with h | h
        · exact hnew_reach (new' ++ [v]) (by simp) (fun a ha => by simp [ha]) x h
        · rw [List.mem_singleton] at h; subst h; exact Relation.ReflTransGen.refl

theorem Ext2.ext2_refl (s : TwoSat) : Ext2 [] s s :=
  ⟨rfl, rfl, rfl, rfl, rfl, rfl, by simp, rfl, by simp, by simp, by simp, List.nodup_nil,
    le_rfl⟩

theorem Ext2.ext2_trans {n1 n2 : List Nat} {s s' s'' : TwoSat} (h1 : Ext2 n1 s s')
    (h2 : Ext2 n2 s' s'') : Ext2 (n1 ++ n2) s s'' where
  hN := h2.hN.trans h1.hN
  hvalues := h2.hvalues.trans h1.hvalues
  hst := h2.hst.trans h1.hst
  hlen := h2.hlen.trans h1.hlen
  houts := h2.houts.trans h1.houts
  hins := h2.hins.trans h1.hins
  hcomp := by
    intro pre ns b h
    rw [h2.hcomp pre (ns ++ n1) b (h1.hcomp pre ns b h), List.append_assoc]
  hcomplen := h2.hcomplen.trans h1.hcomplen
  hcid := by
    intro x
    rw [h2.hcid, h1.hcid, h1.hcomplen]
    by_cases hx1 : x ∈ n1 <;> by_cases hx2 : x ∈ n2 <;> simp [hx1, hx2]
  hvis := by
    intro x
    rw [h2.hvis, h1.hvis, List.mem_append, or_assoc]
  hnew := by
    intro x hx hv
    rcases List.mem_append.1 hx with h | h
    · exact h1.hnew x h hv
    · exact h2.hnew x h ((h1.hvis x).2 (Or.inl hv))
  hnodup := by
    rw [List.nodup_append]
    refine ⟨h1.hnodup, h2.hnodup, ?_⟩
    intro x hx1 hx2
    exact h2.hnew x hx2 ((h1.hvis x).2 (Or.inr hx1))
  hunvis := le_trans h2.hunvis h1.hunvis

/-- Contract of the loop `for (int e : es) if (!nodes[e].vis) dfs2(e)`. -/
theorem loop2_spec {gi : Nat → List Nat} {fuel : Nat} {f : Nat → TwoSat → Option TwoSat}
    (hf : Dfs2Spec gi fuel f) :
    ∀ es s, (∀ e ∈ es, e < s.nodes.length) → insOf s = gi →
      (∀ x, ∀ y ∈ gi x, y < s.nodes.length) → unvis s < fuel → s.comp ≠ [] →
      ∃ s' new, loopM (visit2 f) es s = some s' ∧ Ext2 new s s' ∧ (∀ e ∈ es, visited s' e) ∧
        (∀ x ∈ new, ∀ u ∈ gi x, visited s' u) ∧ ∀ x ∈ new, ∃ e ∈ es, ReachIn gi new e x := by
  intro es
  induction es with
  | nil =>
    intro s _ _ _ _ _
    exact ⟨s, [], rfl, Ext2.ext2_refl s, by simp, by simp, by simp⟩
  | cons e es ih =>
    intro s hes hg hrange hfuel hcomp
    have he : e < s.nodes.length := hes e (List.mem_cons_self _ _)
    obtain ⟨m, hm⟩ : ∃ m, s.nodes[e]? = some m := ⟨s.nodes[e], List.getElem?_eq_getElem he⟩
    -- the body of the loop for `e`
    have hbody : ∃ s1 n1, visit2 f e s = some s1 ∧ Ext2 n1 s s1 ∧ visited s1 e ∧
        (∀ x ∈ n1, ∀ u ∈ gi x, visited s1 u) ∧ ∀ x ∈ n1, ReachIn gi n1 e x := by
      by_cases hv : m.vis = 0
      · have hnv : ¬ visited s e := by
          rintro ⟨m', hm', hmv⟩
          rw [hm] at hm'; cases hm'; exact hmv hv
        obtain ⟨s1, n1, hcall, hext, hhead, hcl, hreach⟩ := hf e s hg hrange he hnv hfuel hcomp
        refine ⟨s1, n1, by simp [visit2, hm, hv, hcall], hext, ?_, hcl, hreach⟩
        exact (hext.hvis e).2 (Or.inr (List.mem_of_mem_head? hhead))
      · exact ⟨s, [], by simp [visit2, hm, hv], Ext2.ext2_refl s, ⟨m, hm, hv⟩, by simp, by simp⟩
    obtain ⟨s1, n1, hcall, hext1, hvis1, hcl1, hreach1⟩ := hbody
    obtain ⟨s2, n2, hloop, hext2, hvis2, hcl2, hreach2⟩ :=
      ih s1 (fun x hx => by rw [hext1.hlen]; exact hes x (List.mem_cons_of_mem _ hx))
        (hext1.hins.trans hg) (by rw [hext1.hlen]; exact hrange)
        (lt_of_le_of_lt hext1.hunvis hfuel)
        (by
          intro h
          have := hext1.hcomplen
          rw [h] at this
          exact hcomp (List.length_eq_zero.1 this.symm))
    refine ⟨s2, n1 ++ n2, ?_, hext1.ext2_trans hext2, ?_, ?_, ?_⟩
    · simp [loopM, hcall, hloop]
    · intro x hx
      rcases List.mem_cons.1 hx with h | h
      · subst h; exact (hext2.hvis x).2 (Or.inl hvis1)
      · exact hvis2 x h
    · intro x hx u hu
      rcases List.mem_append.1 hx with h | h
      · exact (hext2.hvis u).2 (Or.inl (hcl1 x h u hu))
      · exact hcl2 x h u hu
    · intro x hx
      rcases List.mem_append.1 hx with h | h
      · exact ⟨e, List.mem_cons_self _ _,
          (hreach1 x h).mono (fun a ha => List.mem_append_left _ ha)⟩
      · obtain ⟨e', he', hr⟩ := hreach2 x h
        exact ⟨e', List.mem_cons_of_mem _ he', hr.mono (fun a ha => List.mem_append_right _ ha)⟩

/-- Method `dfs2` meets its contract whenever the budget exceeds the number
of unmarked nodes. -/
theorem dfs2_spec (gi : Nat → List Nat) : ∀ fuel, Dfs2Spec gi fuel (dfs2 fuel) := by
  intro fuel
  induction fuel with
  | zero => intro v s _ _ _ _ h; exact absurd h (Nat.not_lt_zero _)
  | succ fuel ih =>
    intro v s hg hrange hv hnv hfuel hcomp
    obtain ⟨n, hn⟩ : ∃ n, s.nodes[v]? = some n := ⟨s.nodes[v], List.getElem?_eq_getElem hv⟩
    have h0 : n.vis = 0 := by
      by_contra h
      exact hnv ⟨n, hn, h⟩
    obtain ⟨c, hc⟩ : ∃ c, s.comp.getLast? = some c := by
      cases h : s.comp.getLast? with
      | none => exact absurd (List.getLast?_eq_none_iff.1 h) hcomp
      | some c => exact ⟨c, rfl⟩
    have hdecomp : s.comp = s.comp.dropLast ++ [c] := by
      have := List.dropLast_append_getLast? c hc
      exact this.symm
    obtain ⟨mlen, mouts, mins, mvis, munvis, mcid, mcidv⟩ :=
      mark_props s v n hn h0
        { s with
          nodes := s.nodes.set v { n with vis := 1, comp_id := some (s.comp.length - 1) }
          comp := s.comp.dropLast ++ [{ c with nodes := c.nodes ++ [v] }] }
        { n with vis := 1, comp_id := some (s.comp.length - 1) } rfl rfl rfl rfl
    have hgv : gi v = n.ins := by rw [← hg]; simp [insOf, hn]
    have hext0 : Ext2 [v] s
        { s with
          nodes := s.nodes.set v { n with vis := 1, comp_id := some (s.comp.length - 1) }
          comp := s.comp.dropLast ++ [{ c with nodes := c.nodes ++ [v] }] } :=
      { hN := rfl
        hvalues := rfl
        hst := rfl
        hlen := mlen
        houts := mouts
        hins := mins
        hcomp := by
          intro pre ns b h
          have h1 : s.comp.getLast? = some ⟨ns, b⟩ := by rw [h]; simp
          rw [hc] at h1
          cases h1
          show s.comp.dropLast ++ _ = _
          rw [h]; simp
        hcomplen := by
          show (s.comp.dropLast ++ [_]).length = s.comp.length
          conv_rhs => rw [hdecomp]
          simp
        hcid := by
          intro x
          by_cases hx : x = v
          · subst hx; simp [mcidv]
          · simp [hx, mcid x hx]
        hvis := by
          intro x; rw [mvis, List.mem_singleton]
        hnew := by
          intro x hx; rw [List.mem_singleton] at hx; subst hx; exact hnv
        hnodup := List.nodup_singleton v
        hunvis := by omega }
    obtain ⟨t, new', hloop, hext, hall, hcl, hreach⟩ :=
      loop2_spec ih n.ins
        { s with
          nodes := s.nodes.set v { n with vis := 1, comp_id := some (s.comp.length - 1) }
          comp := s.comp.dropLast ++ [{ c with nodes := c.nodes ++ [v] }] }
        (fun e he => by rw [mlen]; exact hrange v e (hgv ▸ he))
        (mins.trans hg) (by rw [mlen]; exact hrange) (by omega) (by simp)
    have hnew_reach : ∀ x ∈ new', ReachIn gi ([v] ++ new') v x := by
      intro x hx
      obtain ⟨e, he, hr⟩ := hreach x hx
      have heS : e ∈ new' := hr.mem_left hx
      exact Relation.ReflTransGen.head ⟨by simp, hgv ▸ he, by simp [heS]⟩
        (hr.mono (fun a ha => by simp [ha]))
    refine ⟨t, [v] ++ new', ?_, hext0.ext2_trans hext, by simp, ?_, ?_⟩
    · simp only [dfs2, hn, hc]; exact hloop
    · intro x hx u hu
      rcases List.mem_append.1 hx with h | h
      · rw [List.mem_singleton] at h; subst h; exact hall u (hgv ▸ hu)
      · exact hcl x h u hu
    · intro x hx
      rcases List.mem_append.1 hx with h | h
      · rw [List.mem_singleton] at h; subst h; exact Relation.ReflTransGen.refl
      · exact hnew_reach x h

/-! ## Pass 2 builds the strongly connected components -/

theorem Reach.to_reachIn {g : Nat → List Nat} {L : List Nat} {len : Nat}
    (hmem : ∀ x, x ∈ L ↔ x < len) (hrange : ∀ x, ∀ y ∈ g x, y < len) {x y : Nat}
    (hx : x < len) (hr : Reach g x y) : ReachIn g L x y := by
  induction hr with
  | refl => exact Relation.ReflTransGen.refl
  | @tail z w _ hstep ih =>
    have hz : z ∈ L := ih.mem_right ((hmem x).2 hx)
    exact Relation.ReflTransGen.tail ih ⟨hz, hstep, (hmem w).2 (hrange z w hstep)⟩

theorem Reach.lt {g : Nat → List Nat} {len : Nat} (hrange : ∀ x, ∀ y ∈ g x, y < len)
    {x y : Nat} (hx : x < len) (hr : Reach g x y) : y < len := by
  induction hr with
  | refl => exact hx
  | tail _ hstep _ => exact hrange _ _ hstep

/-- A path along `ins` edges is a path along `outs` edges backwards. -/
theorem ReachIn.reverse {g gi : Nat → List Nat} (hagree : ∀ u v, u ∈ gi v ↔ v ∈ g u)
    {S : List Nat} {v x : Nat} (hr : ReachIn gi S v x) : Reach g x v := by
  induction hr with
  | refl => exact Relation.ReflTransGen.refl
  | @tail z w _ hstep ih =>
    exact Relation.ReflTransGen.head ((hagree w z).1 hstep.2.1) ih

theorem SCC.scc_refl (g : Nat → List Nat) (x : Nat) : SCC g x x :=
  ⟨Relation.ReflTransGen.refl, Relation.ReflTransGen.refl⟩

theorem SCC.scc_symm {g : Nat → List Nat} {x y : Nat} (h : SCC g x y) : SCC g y x := ⟨h.2, h.1⟩

theorem SCC.scc_trans {g : Nat → List Nat} {x y z : Nat} (h1 : SCC g x y) (h2 : SCC g y z) :
    SCC g x z := ⟨h1.1.trans h2.1, h2.2.trans h1.2⟩

theorem visited_lt {s : TwoSat} {x : Nat} (h : visited s x) : x < s.nodes.length := by
  obtain ⟨n, hn, -⟩ := h
  rcases Nat.lt_or_ge x s.nodes.length with h | h
  · exact h
  · rw [List.getElem?_eq_none h] at hn; cases hn

/-- The nodes collected from the topmost unmarked node of the stack are
exactly its strongly connected component (the heart of the two-pass
algorithm). -/
theorem pass2_component {g gi : Nat → List Nat} {L0 : List Nat} {s0 t : TwoSat}
    (hL0 : L0.Nodup) (hmem : ∀ x, x ∈ L0 ↔ x < s0.nodes.length) (hW : WStack g L0)
    (hrange : ∀ x, ∀ y ∈ g x, y < s0.nodes.length) (hagree : ∀ u v, u ∈ gi v ↔ v ∈ g u)
    (hinv : P2Inv g gi L0 s0 t) {p : List Nat} {r : Nat} (hst : t.st = p ++ [r])
    (hr : ¬ visited t r) {new : List Nat} (hnew : ∀ x ∈ new, ¬ visited t x) (hrnew : r ∈ new)
    (hcl : ∀ x ∈ new, ∀ u ∈ gi x, visited t u ∨ u ∈ new)
    (hreach : ∀ x ∈ new, ReachIn gi new r x) :
    ∀ x, x ∈ new ↔ SCC g r x := by
  have hrL : r ∈ L0 := hinv.hpre.subset (by rw [hst]; simp)
  have hrlt : r < s0.nodes.length := (hmem r).1 hrL
  have hpnd : (p ++ [r]).Nodup := by
    rw [← hst]; exact List.Nodup.sublist hinv.hpre.sublist hL0
  have hrp : r ∉ p := by
    intro h
    have := List.disjoint_of_nodup_append hpnd h
    exact this (List.mem_singleton_self r)
  have hpL : p <+: L0 := (List.prefix_append p [r]).trans (hst ▸ hinv.hpre)
  intro x
  constructor
  · intro hx
    have hxr : Reach g x r := (hreach x hx).reverse hagree
    have hxlt : x < s0.nodes.length := by
      by_contra hcon
      have hxr' := hxr
      rcases Relation.ReflTransGen.cases_head hxr' with h | ⟨z, hz, -⟩
      · exact hcon (h ▸ hrlt)
      · -- `x` has an out-edge, so it lies inside the vector
        have : g x ≠ [] := List.ne_nil_of_mem hz
        rw [← hinv.houts] at this
        simp only [outsOf] at this
        cases hxn : t.nodes[x]? with
        | none => rw [hxn] at this; exact this rfl
        | some n =>
          have hlt : x < t.nodes.length := by
            rcases Nat.lt_or_ge x t.nodes.length with h | h
            · exact h
            · rw [List.getElem?_eq_none h] at hxn; cases hxn
          exact hcon (hinv.hlen ▸ hlt)
    obtain ⟨x', h1, h2, h3⟩ :=
      hW x ((hmem x).2 hxlt) r (hxr.to_reachIn hmem hrange hxlt)
    have hx'L : x' ∈ L0 := h1.mem_right ((hmem x).2 hxlt)
    have hsx : SCC g x x' := ⟨h1.to_reach, h2.to_reach⟩
    have hx'nv : ¬ visited t x' := by
      intro hv
      exact hnew x hx (((hinv.hscc x' hv) x).1 hsx.scc_symm).1
    have hx'st : x' ∈ t.st := by
      by_contra hcon
      exact hx'nv (hinv.hpop x' hx'L hcon)
    have hx'r : x' = r := by
      rw [hst] at hx'st
      rcases List.mem_append.1 hx'st with h | h
      · exact absurd (h3 p hpL h) hrp
      · exact List.mem_singleton.1 h
    subst hx'r
    exact hsx.scc_symm
  · intro hs
    have key : ∀ y, Reach g y r → SCC g r y → y ∈ new := by
      intro y hyr
      induction hyr using Relation.ReflTransGen.head_induction_on with
      | refl => intro _; exact hrnew
      | @head a b hab hbr ih =>
        intro hsa
        have hsb : SCC g r b := ⟨hsa.1.trans (Relation.ReflTransGen.single hab), hbr⟩
        have hb : b ∈ new := ih hsb
        have hanv : ¬ visited t a := by
          intro hv
          exact hr (((hinv.hscc a hv) r).1 hsa.scc_symm).1
        rcases hcl b hb a ((hagree a b).2 hab) with h | h
        · exact absurd h hanv
        · exact h
    exact key x hs.2 hs

theorem P2Inv.pop_visited {g gi : Nat → List Nat} {L0 : List Nat} {s0 t : TwoSat}
    (hinv : P2Inv g gi L0 s0 t) {p : List Nat} {r : Nat} (hst : t.st = p ++ [r])
    (hv : visited t r) : P2Inv g gi L0 s0 { t with st := p } where
  hN := hinv.hN
  hvalues := hinv.hvalues
  hlen := hinv.hlen
  houts := hinv.houts
  hins := hinv.hins
  hpre := (List.prefix_append p [r]).trans (hst ▸ hinv.hpre)
  hpop := by
    intro x hx hxp
    show visited t x
    by_cases hxr : x = r
    · subst hxr; exact hv
    · refine hinv.hpop x hx ?_
      rw [hst]; simp [hxr]; exact hxp
  hcid := hinv.hcid
  hcomp := hinv.hcomp
  hscc := hinv.hscc
  hedge := hinv.hedge

theorem P2Inv.pop_new {g gi : Nat → List Nat} {L0 : List Nat} {s0 t t' : TwoSat}
    (hL0 : L0.Nodup) (hmem : ∀ x, x ∈ L0 ↔ x < s0.nodes.length) (hW : WStack g L0)
    (hrange : ∀ x, ∀ y ∈ g x, y < s0.nodes.length) (hagree : ∀ u v, u ∈ gi v ↔ v ∈ g u)
    (hinv : P2Inv g gi L0 s0 t) {p : List Nat} {r : Nat} (hst : t.st = p ++ [r])
    (hr : ¬ visited t r) {new : List Nat}
    (hext : Ext2 new { t with comp := t.comp ++ [Comp.new] } t')
    (hhead : new.head? = some r) (hcl : ∀ x ∈ new, ∀ u ∈ gi x, visited t' u)
    (hreach : ∀ x ∈ new, ReachIn gi new r x) :
    P2Inv g gi L0 s0 { t' with st := p } := by
  have hvis : ∀ x, visited t' x ↔ visited t x ∨ x ∈ new := hext.hvis
  have hcid : ∀ x, cidOf t' x = if x ∈ new then some t.comp.length else cidOf t x := by
    intro x
    have := hext.hcid x
    simpa using this
  have hcomp : t'.comp = t.comp ++ [⟨new, false⟩] := by
    have := hext.hcomp t.comp [] false rfl
    simpa using this
  have hnew : ∀ x ∈ new, ¬ visited t x := hext.hnew
  have hrnew : r ∈ new := List.mem_of_mem_head? hhead
  have hsccnew : ∀ x, x ∈ new ↔ SCC g r x :=
    pass2_component hL0 hmem hW hrange hagree hinv hst hr hnew hrnew
      (fun x hx u hu => (hvis u).1 (hcl x hx u hu)) hreach
  have hold : ∀ x, visited t x → x ∉ new := fun x hv hx => hnew x hx hv
  have hcid_old : ∀ x, visited t x → cidOf t' x = cidOf t x := by
    intro x hv; rw [hcid, if_neg (hold x hv)]
  have hcid_new : ∀ x, x ∈ new → cidOf t' x = some t.comp.length := by
    intro x hx; rw [hcid, if_pos hx]
  have hnew_of : ∀ x, visited t' x → cidOf t' x = some t.comp.length → x ∈ new := by
    intro x hv hc
    by_contra hx
    have hvt : visited t x := by
      rcases (hvis x).1 hv with h | h
      · exact h
      · exact absurd h hx
    obtain ⟨k, hk, hklt⟩ := hinv.hcid x hvt
    rw [hcid_old x hvt, hk] at hc
    cases hc
    exact absurd hklt (lt_irrefl _)
  have hold_of : ∀ x k, visited t' x → cidOf t' x = some k → k < t.comp.length →
      visited t x := by
    intro x k hv hc hk
    rcases (hvis x).1 hv with h | h
    · exact h
    · rw [hcid_new x h] at hc
      cases hc
      exact absurd hk (lt_irrefl _)
  exact
    { hN := hext.hN.trans hinv.hN
      hvalues := hext.hvalues.trans hinv.hvalues
      hlen := hext.hlen.trans hinv.hlen
      houts := hext.houts.trans hinv.houts
      hins := hext.hins.trans hinv.hins
      hpre := (List.prefix_append p [r]).trans (hst ▸ hinv.hpre)
      hpop := by
        intro x hx hxp
        show visited t' x
        by_cases hxr : x = r
        · subst hxr; exact (hvis x).2 (Or.inr hrnew)
        · refine (hvis x).2 (Or.inl (hinv.hpop x hx ?_))
          rw [hst]; simp [hxr]; exact hxp
      hcid := by
        intro x hv
        show ∃ k, cidOf t' x = some k ∧ k < t'.comp.length
        rw [hcomp]
        rcases (hvis x).1 hv with h | h
        · obtain ⟨k, hk, hklt⟩ := hinv.hcid x h
          exact ⟨k, by rw [hcid_old x h, hk], by simp; omega⟩
        · exact ⟨t.comp.length, hcid_new x h, by simp⟩
      hcomp := by
        intro k c hk
        show _ ∧ _ ∧ _ ∧ ∀ x, x ∈ c.nodes ↔ (visited t' x ∧ cidOf t' x = some k)
        have hk' : (t.comp ++ [(⟨new, false⟩ : Comp)])[k]? = some c := by
          rw [← hcomp]; exact hk
        rcases Nat.lt_or_ge k t.comp.length with hlt | hge
        · rw [List.getElem?_append_left hlt] at hk'
          obtain ⟨h1, h2, h3, h4⟩ := hinv.hcomp k c hk'
          refine ⟨h1, h2, h3, ?_⟩
          intro x
          rw [h4]
          constructor
          · rintro ⟨hv, hc⟩
            exact ⟨(hvis x).2 (Or.inl hv), by rw [hcid_old x hv, hc]⟩
          · rintro ⟨hv, hc⟩
            have hvt := hold_of x k hv hc hlt
            exact ⟨hvt, by rw [← hcid_old x hvt, hc]⟩
        · rw [List.getElem?_append_right hge] at hk'
          have hk0 : k - t.comp.length = 0 := by
            by_contra hne
            obtain ⟨j, hj⟩ := Nat.exists_eq_succ_of_ne_zero hne
            rw [hj] at hk'
            simp at hk'
          rw [hk0] at hk'
          simp at hk'
          subst hk'
          have hkeq : k = t.comp.length := by omega
          subst hkeq
          refine ⟨rfl, List.ne_nil_of_mem hrnew, hext.hnodup, ?_⟩
          intro x
          constructor
          · intro hx
            exact ⟨(hvis x).2 (Or.inr hx), hcid_new x hx⟩
          · rintro ⟨hv, hc⟩
            exact hnew_of x hv hc
      hscc := by
        intro x hv y
        show SCC g x y ↔ (visited t' y ∧ cidOf t' y = cidOf t' x)
        rcases (hvis x).1 hv with h | h
        · rw [hcid_old x h]
          obtain ⟨k, hk, hklt⟩ := hinv.hcid x h
          rw [hinv.hscc x h y, hk]
          constructor
          · rintro ⟨hvy, hc⟩
            exact ⟨(hvis y).2 (Or.inl hvy), by rw [hcid_old y hvy, hc]⟩
          · rintro ⟨hvy, hc⟩
            have hvt := hold_of y k hvy hc hklt
            exact ⟨hvt, by rw [← hcid_old y hvt, hc]⟩
        · rw [hcid_new x h]
          have hrx : SCC g r x := (hsccnew x).1 h
          constructor
          · intro hxy
            have hy : y ∈ new := (hsccnew y).2 (hrx.scc_trans hxy)
            exact ⟨(hvis y).2 (Or.inr hy), hcid_new y hy⟩
          · rintro ⟨hvy, hc⟩
            have hy : y ∈ new := hnew_of y hvy hc
            exact hrx.scc_symm.scc_trans ((hsccnew y).1 hy)
      hedge := by
        intro u v huv hv
        show visited t' u ∧ ∃ ku kv, cidOf t' u = some ku ∧ cidOf t' v = some kv ∧ ku ≤ kv
        rcases (hvis v).1 hv with h | h
        · obtain ⟨hu, ku, kv, h1, h2, h3⟩ := hinv.hedge u v huv h
          exact ⟨(hvis u).2 (Or.inl hu), ku, kv, by rw [hcid_old u hu, h1],
            by rw [hcid_old v h, h2], h3⟩
        · have hu : visited t' u := hcl v h u ((hagree u v).2 huv)
          refine ⟨hu, ?_⟩
          rcases (hvis u).1 hu with h' | h'
          · obtain ⟨k, hk, hklt⟩ := hinv.hcid u h'
            exact ⟨k, t.comp.length, by rw [hcid_old u h', hk], hcid_new v h, le_of_lt hklt⟩
          · exact ⟨t.comp.length, t.comp.length, hcid_new u h', hcid_new v h, le_rfl⟩ }

/-- The loop `while (!st.empty())` terminates within `st.size()` iterations,
keeps its invariant and empties the stack. -/
theorem pass2_spec {g gi : Nat → List Nat} {L0 : List Nat} {s0 : TwoSat} {fuel : Nat}
    (hL0 : L0.Nodup) (hmem : ∀ x, x ∈ L0 ↔ x < s0.nodes.length) (hW : WStack g L0)
    (hrange : ∀ x, ∀ y ∈ g x, y < s0.nodes.length)
    (hrangei : ∀ x, ∀ y ∈ gi x, y < s0.nodes.length)
    (hagree : ∀ u v, u ∈ gi v ↔ v ∈ g u) (hfuel : s0.nodes.length < fuel) :
    ∀ k t, P2Inv g gi L0 s0 t → t.st.length < k →
      ∃ t', pass2 fuel k t = some t' ∧ P2Inv g gi L0 s0 t' ∧ t'.st = [] := by
  intro k
  induction k with
  | zero => intro t _ h; exact absurd h (Nat.not_lt_zero _)
  | succ k ih =>
    intro t hinv hk
    cases hlast : t.st.getLast? with
    | none =>
      have hnil : t.st = [] := List.getLast?_eq_none_iff.1 hlast
      exact ⟨t, by simp [pass2, hlast], hinv, hnil⟩
    | some r =>
      have hst : t.st = t.st.dropLast ++ [r] := (List.dropLast_append_getLast? r hlast).symm
      have hplen : t.st.dropLast.length < k := by
        rw [List.length_dropLast]
        have : 0 < t.st.length := by
          rw [hst]; simp
        omega
      have hrL : r ∈ L0 := hinv.hpre.subset (by rw [hst]; simp)
      have hrlt : r < t.nodes.length := by rw [hinv.hlen]; exact (hmem r).1 hrL
      obtain ⟨n, hn⟩ : ∃ n, t.nodes[r]? = some n := ⟨t.nodes[r], List.getElem?_eq_getElem hrlt⟩
      by_cases hv : n.vis = 0
      · have hnv : ¬ visited t r := by
          rintro ⟨m, hm, hmv⟩
          rw [hn] at hm; cases hm; exact hmv hv
        obtain ⟨t', new, hcall, hext, hhead, hcl, hreach⟩ :=
          dfs2_spec gi fuel r { t with comp := t.comp ++ [Comp.new] } hinv.hins
            (by
              show ∀ x, ∀ y ∈ gi x, y < t.nodes.length
              rw [hinv.hlen]; exact hrangei)
            hrlt hnv
            (by
              show unvis t < fuel
              have := unvis_le t
              rw [hinv.hlen] at this
              omega)
            (by simp)
        have hinv' := P2Inv.pop_new hL0 hmem hW hrange hagree hinv hst hnv hext hhead hcl hreach
        have hst' : t'.st.dropLast = t.st.dropLast := by rw [hext.hst]
        obtain ⟨t'', h1, h2, h3⟩ := ih { t' with st := t.st.dropLast } hinv' hplen
        refine ⟨t'', ?_, h2, h3⟩
        simp only [pass2, hlast, hn, hv, if_true, hcall, hst']
        exact h1
      · have hvr : visited t r := ⟨n, hn, hv⟩
        have hinv' := P2Inv.pop_visited hinv hst hvr
        obtain ⟨t'', h1, h2, h3⟩ := ih { t with st := t.st.dropLast } hinv' hplen
        refine ⟨t'', ?_, h2, h3⟩
        simp only [pass2, hlast, hn, hv, if_false]
        exact h1

/-! ## The decomposition as a whole -/

/-- Effect of `nodes[v].vis = 0`. -/
theorem clear_props (s : TwoSat) (v : Nat) (n : Node) (hn : s.nodes[v]? = some n)
    (t : TwoSat) (ht : t.nodes = s.nodes.set v { n with vis := 0 }) :
    t.nodes.length = s.nodes.length ∧ outsOf t = outsOf s ∧ insOf t = insOf s ∧
    (∀ x, visited t x → visited s x ∧ x ≠ v) := by
  have hv : v < s.nodes.length := by
    rcases Nat.lt_or_ge v s.nodes.length with h | h
    · exact h
    · rw [List.getElem?_eq_none h] at hn; cases hn
  refine ⟨by simp [ht], ?_, ?_, ?_⟩
  · funext x
    simp only [outsOf, ht, List.getElem?_set]
    by_cases hx : v = x
    · subst hx; simp [hv, hn]
    · simp [hx]
  · funext x
    simp only [insOf, ht, List.getElem?_set]
    by_cases hx : v = x
    · subst hx; simp [hv, hn]
    · simp [hx]
  · intro x
    simp only [visited, ht, List.getElem?_set]
    by_cases hx : v = x
    · subst hx; simp [hv]
    · simp [hx]; intro m hm hmv; exact ⟨⟨m, hm, hmv⟩, fun h => hx h.symm⟩

/-- The loop `rep(i, 0, 2*N) nodes[i].vis = 0` clears the flags it is run on
and changes nothing else. -/
theorem reset_spec : ∀ es s, (∀ e ∈ es, e < s.nodes.length) →
    ∃ t, loopM reset_vis es s = some t ∧ t.N = s.N ∧ t.values = s.values ∧ t.comp = s.comp ∧
      t.st = s.st ∧ t.nodes.length = s.nodes.length ∧ outsOf t = outsOf s ∧
      insOf t = insOf s ∧ ∀ x, visited t x → visited s x ∧ x ∉ es := by
  intro es
  induction es with
  | nil =>
    intro s _
    exact ⟨s, rfl, rfl, rfl, rfl, rfl, rfl, rfl, rfl, fun x h => ⟨h, by simp⟩⟩
  | cons e es ih =>
    intro s hes
    have he : e < s.nodes.length := hes e (List.mem_cons_self _ _)
    obtain ⟨n, hn⟩ : ∃ n, s.nodes[e]? = some n := ⟨s.nodes[e], List.getElem?_eq_getElem he⟩
    obtain ⟨clen, couts, cins, cvis⟩ :=
      clear_props s e n hn { s with nodes := s.nodes.set e { n with vis := 0 } } rfl
    obtain ⟨t, h1, h2, h3, h4, h5, h6, h7, h8, h9⟩ :=
      ih { s with nodes := s.nodes.set e { n with vis := 0 } }
        (fun x hx => by rw [clen]; exact hes x (List.mem_cons_of_mem _ hx))
    refine ⟨t, ?_, h2, h3, h4, h5, h6.trans clen, h7.trans couts, h8.trans cins, ?_⟩
    · simp only [loopM, reset_vis, hn]; exact h1
    · intro x hx
      obtain ⟨hx1, hx2⟩ := h9 x hx
      obtain ⟨hx3, hx4⟩ := cvis x hx1
      exact ⟨hx3, by simp [hx4, hx2]⟩

/-- On a ready solver the two passes run to completion and compute the
strongly connected components of the `outs` graph. -/
theorem decompose_spec (s : TwoSat) (h : Ready s) :
    ∃ t, decompose s = some t ∧ Decomposed s t := by
  -- pass 1
  obtain ⟨s1, L0, hp1, hext1, hall1, hinv1, -⟩ :=
    loop1_spec (dfs1_spec (outsOf s) (s.nodes.length + 1)) (List.range (2 * s.N)) s
      (fun e he => by rw [h.hlen]; exact List.mem_range.1 he) rfl h.hout (by
        have := unvis_le s; omega)
      ⟨by simp [h.hst], by simp [h.hst], by
        rw [h.hst]; intro x hx; simp at hx⟩
  have hst1 : s1.st = L0 := by rw [hext1.hst, h.hst]; simp
  have hvis1 : ∀ x, visited s1 x ↔ x ∈ L0 := by
    intro x
    rw [hext1.hvis]
    constructor
    · rintro (hx | hx)
      · exact absurd hx (h.hvis x)
      · exact hx
    · exact Or.inr
  have hmem : ∀ x, x ∈ L0 ↔ x < s.nodes.length := by
    intro x
    constructor
    · intro hx
      have := visited_lt ((hvis1 x).2 hx)
      rwa [hext1.hlen] at this
    · intro hx
      exact (hvis1 x).1 (hall1 x (List.mem_range.2 (h.hlen ▸ hx)))
  have hW : WStack (outsOf s) L0 := hst1 ▸ hinv1.2.2
  -- reset of the flags
  obtain ⟨s2, hp2, r2, r3, r4, r5, r6, r7, r8, r9⟩ :=
    reset_spec (List.range (2 * s1.N)) s1
      (fun e he => by rw [hext1.hlen, h.hlen, ← hext1.hN]; exact List.mem_range.1 he)
  have hvis2 : ∀ x, ¬ visited s2 x := by
    intro x hx
    have hlt := visited_lt hx
    rw [r6, hext1.hlen, h.hlen, ← hext1.hN] at hlt
    exact (r9 x hx).2 (List.mem_range.2 hlt)
  have hlen2 : s2.nodes.length = s.nodes.length := r6.trans hext1.hlen
  -- pass 2
  have hinit : P2Inv (outsOf s) (insOf s) L0 s s2 :=
    { hN := r2.trans hext1.hN
      hvalues := r3.trans hext1.hvalues
      hlen := hlen2
      houts := r7.trans hext1.houts
      hins := r8.trans hext1.hins
      hpre := by rw [r5, hst1]
      hpop := by
        intro x hx hx'
        rw [r5, hst1] at hx'
        exact absurd hx hx'
      hcid := fun x hx => absurd hx (hvis2 x)
      hcomp := by
        intro k c hk
        rw [r4, hext1.hcomp, h.hcomp] at hk
        simp at hk
      hscc := fun x hx => absurd hx (hvis2 x)
      hedge := fun u v _ hv => absurd hv (hvis2 v) }
  obtain ⟨t, hp3, hinv, hst3⟩ :=
    pass2_spec hext1.hnodup hmem hW h.hout h.hin h.hagree (Nat.lt_succ_self _)
      (s2.st.length + 1) s2 hinit (Nat.lt_succ_self _)
  have hvisall : ∀ x, x < 2 * s.N → visited t x := by
    intro x hx
    refine hinv.hpop x ((hmem x).2 (h.hlen ▸ hx)) ?_
    rw [hst3]; simp
  have hvislt : ∀ x, visited t x → x < 2 * s.N := by
    intro x hx
    have := visited_lt hx
    rwa [hinv.hlen, h.hlen] at this
  refine ⟨t, ?_, ?_⟩
  · simp only [decompose, hp1, Option.bind, hp2, hlen2]
    exact hp3
  · exact
      { hN := hinv.hN
        hvalues := hinv.hvalues
        hlen := hinv.hlen
        houts := hinv.houts
        hins := hinv.hins
        hst := hst3
        hcid := fun x hx => hinv.hcid x (hvisall x hx)
        hcomp := by
          intro k c hk
          obtain ⟨h1, h2, h3, h4⟩ := hinv.hcomp k c hk
          refine ⟨h1, h2, h3, ?_⟩
          intro x
          rw [h4]
          constructor
          · rintro ⟨hv, hc⟩; exact ⟨hvislt x hv, hc⟩
          · rintro ⟨hv, hc⟩; exact ⟨hvisall x hv, hc⟩
        hscc := by
          intro x y hx hy
          rw [hinv.hscc x (hvisall x hx) y]
          constructor
          · intro hc; exact ⟨hvisall y hy, hc.symm⟩
          · rintro ⟨-, hc⟩; exact hc.symm
        hedge := by
          intro u v huv
          have hv : v < 2 * s.N := h.hlen ▸ h.hout u v huv
          exact (hinv.hedge u v huv (hvisall v hv)).2 }

/-! ## Complement of a literal node -/

theorem xor1_eq (x : Nat) : x ^^^ 1 = if x % 2 = 0 then x + 1 else x - 1 := by
  have h1 : (x ^^^ 1) % 2 = (x + 1) % 2 := Nat.xor_mod_two_eq
  have h2 : (x ^^^ 1) / 2 = x / 2 := by
    rw [Nat.xor_div_two]; simp
  split <;> omega

theorem xor1_lt {x n : Nat} (h : x < 2 * n) : x ^^^ 1 < 2 * n := by
  rw [xor1_eq]; split <;> omega

theorem xor1_lt_iff {x n : Nat} : x ^^^ 1 < 2 * n ↔ x < 2 * n := by
  rw [xor1_eq]; split <;> omega

theorem xor1_xor1 (x : Nat) : (x ^^^ 1) ^^^ 1 = x := by
  rw [xor1_eq (x ^^^ 1), xor1_eq x]; split <;> split <;> omega

theorem xor1_ne (x : Nat) : x ^^^ 1 ≠ x := by
  rw [xor1_eq]; split <;> omega

theorem xor1_half (x : Nat) : (x ^^^ 1) / 2 = x / 2 := by
  rw [xor1_eq]; split <;> omega

theorem xor1_mod (x : Nat) : (x ^^^ 1) % 2 = 1 - x % 2 := by
  rw [xor1_eq]; split <;> omega

theorem half_eq {e x : Nat} (h : e / 2 = x / 2) : e = x ∨ e = x ^^^ 1 := by
  rw [xor1_eq]; split <;> omega

theorem xor1_lit (i : Nat) (b : Bool) : (2 * i + b.toNat) ^^^ 1 = 2 * i + (!b).toNat := by
  rw [xor1_eq]
  cases b with
  | false => simp
  | true => simp; omega

/-! ## The resolution loop -/

/-- The loop `for (int e : d.nodes) values[e/2] = !(e%2)` runs through when
every `e/2` is a valid index; it leaves the other slots alone and writes
`!(e%2)` for every `e` whose slot no other listed node shares. -/
theorem assign_spec : ∀ (es : List Nat) (vals : List Nat), (∀ e ∈ es, e / 2 < vals.length) →
    ∃ vals', assign es vals = some vals' ∧ vals'.length = vals.length ∧
      (∀ j, (∀ e ∈ es, e / 2 ≠ j) → vals'[j]? = vals[j]?) ∧
      (∀ e ∈ es, (∀ e' ∈ es, e' / 2 = e / 2 → e' = e) →
        vals'[e / 2]? = some (if e % 2 = 0 then 1 else 0)) := by
  intro es
  induction es with
  | nil => intro vals _; exact ⟨vals, rfl, rfl, fun _ _ => rfl, by simp⟩
  | cons e es ih =>
    intro vals hes
    have he : e / 2 < vals.length := hes e (List.mem_cons_self _ _)
    obtain ⟨vals', h1, h2, h3, h4⟩ := ih (vals.set (e / 2) (if e % 2 = 0 then 1 else 0))
      (fun x hx => by simpa using hes x (List.mem_cons_of_mem _ hx))
    refine ⟨vals', by simp [assign, he, h1], by simpa using h2, ?_, ?_⟩
    · intro j hj
      rw [h3 j (fun x hx => hj x (List.mem_cons_of_mem _ hx))]
      rw [List.getElem?_set_ne (hj e (List.mem_cons_self _ _))]
    · intro a ha huniq
      by_cases hmem : a ∈ es
      · exact h4 a hmem (fun e' he' => huniq e' (List.mem_cons_of_mem _ he'))
      · have hae : a = e := by
          rcases List.mem_cons.1 ha with h | h
          · exact h
          · exact absurd h hmem
        subst hae
        rw [h3 (a / 2) (fun x hx hxe => hmem (huniq x (List.mem_cons_of_mem _ hx) hxe ▸ hx))]
        simp [he]

theorem RInv.skip {t0 : TwoSat} {cid : Nat → Nat} {i : Nat} {u : TwoSat}
    (hinv : RInv t0 cid i u) {d : Comp} (hd : u.comp[i]? = some d)
    (hval : d.value = true) : RInv t0 cid (i + 1) u := by
  have hsel : ∀ x, x < 2 * t0.N → cid x = i → cid (x ^^^ 1) < i := by
    intro x hx hxi
    have := (hinv.hflag x hx d (hxi ▸ hd)).1 hval
    exact this.1
  exact
    { hnodes := hinv.hnodes
      hN := hinv.hN
      hst := hinv.hst
      hvlen := hinv.hvlen
      hclen := hinv.hclen
      hcnodes := hinv.hcnodes
      hflag := by
        intro y hy c hc
        rw [hinv.hflag y hy c hc]
        constructor
        · rintro ⟨h1, h2⟩; exact ⟨by omega, h2⟩
        · rintro ⟨h1, h2⟩
          refine ⟨?_, h2⟩
          by_contra hcon
          have hyi : cid (y ^^^ 1) = i := by omega
          have := hsel (y ^^^ 1) (xor1_lt hy) hyi
          rw [xor1_xor1] at this
          omega
      hok := by
        intro x hx hxi
        by_cases h : cid x < i
        · exact hinv.hok x hx h
        · have := hsel x hx (by omega)
          omega
      hdone := by
        intro x hx hxi hlt
        by_cases h : cid x < i
        · exact hinv.hdone x hx h hlt
        · have := hsel x hx (by omega)
          omega }

theorem RInv.select {t0 : TwoSat} {cid : Nat → Nat} (ctx : ResCtx t0 cid) {i : Nat}
    {u : TwoSat} (hinv : RInv t0 cid i u) {d c : Comp} (hd : u.comp[i]? = some d)
    (hval : d.value = false) {x0 : Nat} (hx0 : x0 ∈ d.nodes) (hk : cid (x0 ^^^ 1) ≠ i)
    (hc : u.comp[cid (x0 ^^^ 1)]? = some c) {vals : List Nat}
    (hassign : assign d.nodes u.values = some vals) :
    RInv t0 cid (i + 1)
      { u with comp := u.comp.set (cid (x0 ^^^ 1)) { c with value := true }, values := vals } := by
  obtain ⟨c0, hc0, hdn⟩ := hinv.hcnodes i d hd
  have hdmem : ∀ x, x ∈ d.nodes ↔ (x < 2 * t0.N ∧ cid x = i) := by
    intro x; rw [hdn]; exact (ctx.hcomp i c0 hc0).2 x
  have hx0lt : x0 < 2 * t0.N := ((hdmem x0).1 hx0).1
  have hx0i : cid x0 = i := ((hdmem x0).1 hx0).2
  have hbar : ∀ x, x < 2 * t0.N → cid x = i → cid (x ^^^ 1) = cid (x0 ^^^ 1) :=
    fun x hx hxi => ctx.hbar x x0 hx hx0lt (hxi.trans hx0i.symm)
  have hbar' : ∀ y, y < 2 * t0.N → cid (y ^^^ 1) = i → cid y = cid (x0 ^^^ 1) := by
    intro y hy hyi
    have := hbar (y ^^^ 1) (xor1_lt hy) hyi
    rwa [xor1_xor1] at this
  have hbar'' : ∀ y, y < 2 * t0.N → cid y = cid (x0 ^^^ 1) → cid (y ^^^ 1) = i := by
    intro y hy hyk
    have := ctx.hbar y (x0 ^^^ 1) hy (xor1_lt hx0lt) hyk
    rw [xor1_xor1] at this
    rw [this, hx0i]
  have hkgt : i < cid (x0 ^^^ 1) := by
    have h1 := hinv.hflag x0 hx0lt d (hx0i ▸ hd)
    rw [hval] at h1
    simp only [Bool.false_eq_true, false_iff, not_and, not_lt] at h1
    rcases Nat.lt_or_ge (cid (x0 ^^^ 1)) i with h | h
    · have := h1 h; omega
    · omega
  have hklt : cid (x0 ^^^ 1) < u.comp.length := by
    rw [hinv.hclen]; exact (ctx.hcid _ (xor1_lt hx0lt)).2
  obtain ⟨vals', ha1, ha2, ha3, ha4⟩ := assign_spec d.nodes u.values (by
    intro e he
    have := ((hdmem e).1 he).1
    rw [hinv.hvlen]; omega)
  rw [hassign] at ha1
  cases ha1
  exact
    { hnodes := hinv.hnodes
      hN := hinv.hN
      hst := hinv.hst
      hvlen := ha2.trans hinv.hvlen
      hclen := by simp [hinv.hclen]
      hcnodes := by
        intro k c' hk'
        simp only [List.getElem?_set] at hk'
        by_cases hkk : cid (x0 ^^^ 1) = k
        · rw [if_pos hkk, if_pos hklt] at hk'
          cases hk'
          exact hinv.hcnodes k c (hkk ▸ hc)
        · rw [if_neg hkk] at hk'
          exact hinv.hcnodes k c' hk'
      hflag := by
        intro y hy c' hc'
        simp only [List.getElem?_set] at hc'
        by_cases hkk : cid (x0 ^^^ 1) = cid y
        · rw [if_pos hkk, if_pos hklt] at hc'
          cases hc'
          have := hbar'' y hy hkk.symm
          simp only [true_iff]
          omega
        · rw [if_neg hkk] at hc'
          rw [hinv.hflag y hy c' hc']
          constructor
          · rintro ⟨h1, h2⟩; exact ⟨by omega, h2⟩
          · rintro ⟨h1, h2⟩
            refine ⟨?_, h2⟩
            by_contra hcon
            exact hkk (hbar' y hy (by omega)).symm
      hok := by
        intro x hx hxi
        by_cases h : cid x < i
        · exact hinv.hok x hx h
        · have hxi' : cid x = i := by omega
          rw [hbar x hx hxi', hxi']
          exact fun h => hk h.symm
      hdone := by
        intro x hx hxi hlt
        show vals[x / 2]? = _
        by_cases h : cid x < i
        · rw [ha3 (x / 2), hinv.hdone x hx h hlt]
          intro e he hex
          have hei := ((hdmem e).1 he).2
          rcases half_eq hex with h1 | h1
          · subst h1; omega
          · subst h1
            have h2 := hinv.hflag (x ^^^ 1) (xor1_lt hx) d (hei ▸ hd)
            rw [hval, xor1_xor1] at h2
            simp only [Bool.false_eq_true, false_iff, not_and, not_lt] at h2
            have := h2 h
            omega
        · have hxi' : cid x = i := by omega
          refine ha4 x ((hdmem x).2 ⟨hx, hxi'⟩) ?_
          intro e he hex
          have hei := ((hdmem e).1 he).2
          rcases half_eq hex with h1 | h1
          · exact h1
          · subst h1
            have := hbar x hx hxi'
            omega }

theorem cidOf_some {s : TwoSat} {x k : Nat} (h : cidOf s x = some k) :
    ∃ n, s.nodes[x]? = some n ∧ n.comp_id = some k := by
  unfold cidOf at h
  cases hn : s.nodes[x]? with
  | none => rw [hn] at h; cases h
  | some n => rw [hn] at h; exact ⟨n, rfl, h⟩

/-- The loop `for (Comp& d : comp)` runs through. It answers `false` only if
some node shares its component with its complement; when it answers `true`,
no node does, and for every node whose component precedes the component of its
complement the variable got the value that makes the node's literal false. -/
theorem resolve_spec {t0 : TwoSat} {cid : Nat → Nat} (ctx : ResCtx t0 cid) :
    ∀ m i u, i + m = t0.comp.length → RInv t0 cid i u →
      ∃ b u', resolve (List.range' i m) u = some (b, u') ∧ u'.nodes = t0.nodes ∧
        u'.N = t0.N ∧ u'.st = t0.st ∧ u'.values.length = t0.N ∧
        (b = false → ∃ x, x < 2 * t0.N ∧ cid x = cid (x ^^^ 1)) ∧
        (b = true → (∀ x, x < 2 * t0.N → cid x ≠ cid (x ^^^ 1)) ∧
          ∀ x, x < 2 * t0.N → cid x < cid (x ^^^ 1) →
            u'.values[x / 2]? = some (if x % 2 = 0 then 1 else 0)) := by
  intro m
  induction m with
  | zero =>
    intro i u hi hinv
    refine ⟨true, u, rfl, hinv.hnodes, hinv.hN, hinv.hst, hinv.hvlen, by simp, fun _ => ⟨?_, ?_⟩⟩
    · intro x hx
      exact hinv.hok x hx (by have := (ctx.hcid x hx).2; omega)
    · intro x hx hlt
      exact hinv.hdone x hx (by have := (ctx.hcid x hx).2; omega) hlt
  | succ m ih =>
    intro i u hi hinv
    have hilt : i < u.comp.length := by rw [hinv.hclen]; omega
    obtain ⟨d, hd⟩ : ∃ d, u.comp[i]? = some d := ⟨u.comp[i], List.getElem?_eq_getElem hilt⟩
    rw [List.range'_succ]
    by_cases hval : d.value = true
    · obtain ⟨b, u', h1, h2⟩ := ih (i + 1) u (by omega) (hinv.skip hd hval)
      refine ⟨b, u', ?_, h2⟩
      simp only [resolve, hd, hval, if_true]
      exact h1
    · have hval' : d.value = false := by simpa using hval
      obtain ⟨c0, hc0, hdn⟩ := hinv.hcnodes i d hd
      have hne : d.nodes ≠ [] := hdn ▸ (ctx.hcomp i c0 hc0).1
      obtain ⟨x0, hhead⟩ : ∃ x0, d.nodes.head? = some x0 := by
        cases hl : d.nodes with
        | nil => exact absurd hl hne
        | cons a l => exact ⟨a, rfl⟩
      have hx0 : x0 ∈ d.nodes := List.mem_of_mem_head? hhead
      have hx0lt : x0 < 2 * t0.N := by
        rw [hdn] at hx0
        exact (((ctx.hcomp i c0 hc0).2 x0).1 hx0).1
      have hx0i : cid x0 = i := by
        rw [hdn] at hx0
        exact (((ctx.hcomp i c0 hc0).2 x0).1 hx0).2
      obtain ⟨hck, hklt⟩ := ctx.hcid (x0 ^^^ 1) (xor1_lt hx0lt)
      obtain ⟨nx, hnx, hnxc⟩ := cidOf_some hck
      rw [← hinv.hnodes] at hnx
      have hklt' : cid (x0 ^^^ 1) < u.comp.length := by rw [hinv.hclen]; exact hklt
      obtain ⟨c, hc⟩ : ∃ c, u.comp[cid (x0 ^^^ 1)]? = some c :=
        ⟨u.comp[cid (x0 ^^^ 1)], List.getElem?_eq_getElem hklt'⟩
      by_cases hk : cid (x0 ^^^ 1) = i
      · refine ⟨false, u, ?_, hinv.hnodes, hinv.hN, hinv.hst, hinv.hvlen,
          fun _ => ⟨x0, hx0lt, by omega⟩, by simp⟩
        simp only [resolve, hd, hval, hhead, hnx, hnxc, hc, hk, if_true]
        simp
      · obtain ⟨vals, ha1, -⟩ := assign_spec d.nodes u.values (by
          intro e he
          rw [hdn] at he
          have := (((ctx.hcomp i c0 hc0).2 e).1 he).1
          rw [hinv.hvlen]; omega)
        obtain ⟨b, u', h1, h2⟩ := ih (i + 1) _ (by omega)
          (RInv.select ctx hinv hd hval' hx0 hk hc ha1)
        refine ⟨b, u', ?_, h2⟩
        simp only [resolve, hd, hval, hhead, hnx, hnxc, hc, hk, ha1, if_false]
        exact h1

/-! ## The method `solve` on a ready solver -/

theorem Reach.reach_compl {g : Nat → List Nat} (hskew : ∀ u v, v ∈ g u → (u ^^^ 1) ∈ g (v ^^^ 1))
    {x y : Nat} (h : Reach g x y) : Reach g (y ^^^ 1) (x ^^^ 1) := by
  induction h with
  | refl => exact Relation.ReflTransGen.refl
  | @tail z w _ hstep ih => exact Relation.ReflTransGen.head (hskew z w hstep) ih

theorem SCC.scc_compl {g : Nat → List Nat} (hskew : ∀ u v, v ∈ g u → (u ^^^ 1) ∈ g (v ^^^ 1))
    {x y : Nat} (h : SCC g x y) : SCC g (x ^^^ 1) (y ^^^ 1) :=
  ⟨h.2.reach_compl hskew, h.1.reach_compl hskew⟩

theorem Decomposed.cid_eq {s t : TwoSat} (hd : Decomposed s t) {x : Nat} (hx : x < 2 * s.N) :
    cidOf t x = some (cidN t x) ∧ cidN t x < t.comp.length := by
  obtain ⟨k, hk, hlt⟩ := hd.hcid x hx
  simp [cidN, hk, hlt]

theorem Decomposed.cidN_eq_iff {s t : TwoSat} (hd : Decomposed s t) {x y : Nat}
    (hx : x < 2 * s.N) (hy : y < 2 * s.N) :
    cidN t x = cidN t y ↔ SCC (outsOf s) x y := by
  rw [← hd.hscc x y hx hy, (hd.cid_eq hx).1, (hd.cid_eq hy).1]
  simp

theorem Decomposed.cidN_le {s t : TwoSat} (hd : Decomposed s t) {u v : Nat}
    (h : v ∈ outsOf s u) : cidN t u ≤ cidN t v := by
  obtain ⟨ku, kv, h1, h2, h3⟩ := hd.hedge u v h
  simp [cidN, h1, h2, h3]

theorem Decomposed.resCtx {s t : TwoSat} (hr : Ready s) (hskew : Skew s)
    (hd : Decomposed s t) : ResCtx t (cidN t) where
  hlen := by rw [hd.hlen, hr.hlen, hd.hN]
  hcid := fun x hx => hd.cid_eq (hd.hN ▸ hx)
  hcomp := by
    intro k c hk
    obtain ⟨-, h2, -, h4⟩ := hd.hcomp k c hk
    refine ⟨h2, fun x => ?_⟩
    rw [h4, hd.hN]
    constructor
    · rintro ⟨hx, hc⟩; exact ⟨hx, by simp [cidN, hc]⟩
    · rintro ⟨hx, hc⟩; exact ⟨hx, by rw [(hd.cid_eq hx).1, hc]⟩
  hbar := by
    intro x y hx hy hxy
    rw [hd.hN] at hx hy
    rw [hd.cidN_eq_iff (xor1_lt hx) (xor1_lt hy)]
    exact ((hd.cidN_eq_iff hx hy).1 hxy).scc_compl hskew

theorem Decomposed.rinv {s t : TwoSat} (hr : Ready s) (hd : Decomposed s t) :
    RInv t (cidN t) 0 t where
  hnodes := rfl
  hN := rfl
  hst := rfl
  hvlen := by rw [hd.hvalues, hr.hvalues, hd.hN]
  hclen := rfl
  hcnodes := fun k c hk => ⟨c, hk, rfl⟩
  hflag := by
    intro y _ c hc
    have := (hd.hcomp _ c hc).1
    simp [this]
  hok := fun x _ h => absurd h (Nat.not_lt_zero _)
  hdone := fun x _ h => absurd h (Nat.not_lt_zero _)

/-- On a ready solver with contrapositive edges `solve` returns. It answers
`false` exactly when some node lies in the component of its complement, and
on `true` the earlier component of every complementary pair has its literals
made false. -/
theorem solve_spec (s : TwoSat) (hr : Ready s) (hskew : Skew s) :
    ∃ t b s', decompose s = some t ∧ Decomposed s t ∧ solve s = some (b, s') ∧
      s'.nodes = t.nodes ∧ s'.N = s.N ∧ s'.values.length = s.N ∧
      (b = false ↔ ∃ x, x < 2 * s.N ∧ cidN t x = cidN t (x ^^^ 1)) ∧
      (b = true → ∀ x, x < 2 * s.N → cidN t x < cidN t (x ^^^ 1) →
        s'.values[x / 2]? = some (if x % 2 = 0 then 1 else 0)) := by
  obtain ⟨t, hdec, hd⟩ := decompose_spec s hr
  obtain ⟨b, s', h1, h2, h3, -, h5, h6, h7⟩ :=
    resolve_spec (hd.resCtx hr hskew) t.comp.length 0 t (by simp) (hd.rinv hr)
  rw [hd.hN] at h3 h5 h6 h7
  refine ⟨t, b, s', hdec, hd, ?_, h2, h3, h5, ?_, fun hb => (h7 hb).2⟩
  · simp only [solve, hdec, Option.bind]
    rw [List.range_eq_range']
    exact h1
  · constructor
    · exact h6
    · rintro ⟨x, hx, hxc⟩
      cases b with
      | false => rfl
      | true => exact absurd hxc ((h7 rfl).1 x hx)

/-- After a successful `solve` the literal of a node is true exactly when the
component of its complement was created first. -/
theorem litHolds_iff {s t s' : TwoSat}
    (hne : ∀ x, x < 2 * s.N → cidN t x ≠ cidN t (x ^^^ 1))
    (hdone : ∀ x, x < 2 * s.N → cidN t x < cidN t (x ^^^ 1) →
      s'.values[x / 2]? = some (if x % 2 = 0 then 1 else 0))
    {x : Nat} (hx : x < 2 * s.N) :
    litHolds s'.values x ↔ cidN t (x ^^^ 1) < cidN t x := by
  unfold litHolds
  rcases Nat.lt_trichotomy (cidN t x) (cidN t (x ^^^ 1)) with h | h | h
  · rw [hdone x hx h]
    constructor
    · intro he
      have := Option.some.inj he
      split at this <;> omega
    · intro h'; omega
  · exact absurd h (hne x hx)
  · have := hdone (x ^^^ 1) (xor1_lt hx) (by rw [xor1_xor1]; exact h)
    rw [xor1_half, xor1_mod] at this
    rw [this]
    constructor
    · intro _; exact h
    · intro _
      congr 1
      split <;> omega

/-! ## The construction calls keep the construction invariant -/

theorem getElem?_some_of_lt {α : Type} {l : List α} {i : Nat} (h : i < l.length) :
    ∃ a, l[i]? = some a := ⟨l[i], List.getElem?_eq_getElem h⟩

/-- Effect of `nodes[u].outs.push_back(v)`. -/
theorem push_outs_spec (s : TwoSat) (u v : Nat) (hu : u < s.nodes.length) :
    ∃ nodes', push_outs s.nodes u v = some nodes' ∧ nodes'.length = s.nodes.length ∧
      ∀ s' : TwoSat, s'.nodes = nodes' →
        (∀ x, outsOf s' x = outsOf s x ++ if x = u then [v] else []) ∧
        insOf s' = insOf s ∧ (∀ x, visited s' x ↔ visited s x) ∧ cidOf s' = cidOf s := by
  obtain ⟨n, hn⟩ := getElem?_some_of_lt hu
  refine ⟨s.nodes.set u { n with outs := n.outs ++ [v] }, by simp [push_outs, hn], by simp, ?_⟩
  intro s' hs'
  refine ⟨?_, ?_, ?_, ?_⟩
  · intro x
    simp only [outsOf, hs', List.getElem?_set]
    by_cases hx : u = x
    · subst hx; simp [hu, hn]
    · simp [hx, Ne.symm hx]
  · funext x
    simp only [insOf, hs', List.getElem?_set]
    by_cases hx : u = x
    · subst hx; simp [hu, hn]
    · simp [hx]
  · intro x
    simp only [visited, hs', List.getElem?_set]
    by_cases hx : u = x
    · subst hx; simp [hu, hn]
    · simp [hx]
  · funext x
    simp only [cidOf, hs', List.getElem?_set]
    by_cases hx : u = x
    · subst hx; simp [hu, hn]
    · simp [hx]

/-- Effect of `nodes[u].ins.push_back(v)`. -/
theorem push_ins_spec (s : TwoSat) (u v : Nat) (hu : u < s.nodes.length) :
    ∃ nodes', push_ins s.nodes u v = some nodes' ∧ nodes'.length = s.nodes.length ∧
      ∀ s' : TwoSat, s'.nodes = nodes' →
        (∀ x, insOf s' x = insOf s x ++ if x = u then [v] else []) ∧
        outsOf s' = outsOf s ∧ (∀ x, visited s' x ↔ visited s x) ∧ cidOf s' = cidOf s := by
  obtain ⟨n, hn⟩ := getElem?_some_of_lt hu
  refine ⟨s.nodes.set u { n with ins := n.ins ++ [v] }, by simp [push_ins, hn], by simp, ?_⟩
  intro s' hs'
  refine ⟨?_, ?_, ?_, ?_⟩
  · intro x
    simp only [insOf, hs', List.getElem?_set]
    by_cases hx : u = x
    · subst hx; simp [hu, hn]
    · simp [hx, Ne.symm hx]
  · funext x
    simp only [outsOf, hs', List.getElem?_set]
    by_cases hx : u = x
    · subst hx; simp [hu, hn]
    · simp [hx]
  · intro x
    simp only [visited, hs', List.getElem?_set]
    by_cases hx : u = x
    · subst hx; simp [hu, hn]
    · simp [hx]
  · funext x
    simp only [cidOf, hs', List.getElem?_set]
    by_cases hx : u = x
    · subst hx; simp [hu, hn]
    · simp [hx]

/-- Effect of `add_clause` when the four nodes it touches exist: the two
implication edges are appended, in the order of the four statements, and
nothing else changes. -/
theorem add_clause_spec (s : TwoSat) (a_index : Nat) (a_value : Bool) (b_index : Nat)
    (b_value : Bool) (ha : lit a_index a_value < s.nodes.length)
    (ha' : lit a_index a_value ^^^ 1 < s.nodes.length)
    (hb : lit b_index b_value < s.nodes.length)
    (hb' : lit b_index b_value ^^^ 1 < s.nodes.length) :
    ∃ s', add_clause s a_index a_value b_index b_value = some s' ∧
      s'.N = s.N ∧ s'.values = s.values ∧ s'.comp = s.comp ∧ s'.st = s.st ∧
      s'.nodes.length = s.nodes.length ∧
      (∀ x, outsOf s' x = outsOf s x ++
        (if x = lit a_index a_value ^^^ 1 then [lit b_index b_value] else []) ++
        (if x = lit b_index b_value ^^^ 1 then [lit a_index a_value] else [])) ∧
      (∀ x, insOf s' x = insOf s x ++
        (if x = lit b_index b_value then [lit a_index a_value ^^^ 1] else []) ++
        (if x = lit a_index a_value then [lit b_index b_value ^^^ 1] else [])) ∧
      (∀ x, visited s' x ↔ visited s x) ∧ cidOf s' = cidOf s := by
  obtain ⟨n1, h1, l1, p1⟩ := push_outs_spec s (lit a_index a_value ^^^ 1) (lit b_index b_value) ha'
  obtain ⟨q1, q2, q3, q4⟩ := p1 { s with nodes := n1 } rfl
  obtain ⟨n2, h2, l2, p2⟩ := push_ins_spec { s with nodes := n1 } (lit b_index b_value)
    (lit a_index a_value ^^^ 1) (by show _ < n1.length; rw [l1]; exact hb)
  obtain ⟨r1, r2, r3, r4⟩ := p2 { s with nodes := n2 } rfl
  obtain ⟨n3, h3, l3, p3⟩ := push_outs_spec { s with nodes := n2 }
    (lit b_index b_value ^^^ 1) (lit a_index a_value)
    (by show _ < n2.length; rw [l2]; show _ < n1.length; rw [l1]; exact hb')
  obtain ⟨t1, t2, t3, t4⟩ := p3 { s with nodes := n3 } rfl
  obtain ⟨n4, h4, l4, p4⟩ := push_ins_spec { s with nodes := n3 } (lit a_index a_value)
    (lit b_index b_value ^^^ 1)
    (by
      show _ < n3.length; rw [l3]; show _ < n2.length; rw [l2]
      show _ < n1.length; rw [l1]; exact ha)
  obtain ⟨u1, u2, u3, u4⟩ := p4 { s with nodes := n4 } rfl
  have e1 : push_outs s.nodes (lit a_index a_value ^^^ 1) (lit b_index b_value) = some n1 := h1
  have e2 : push_ins n1 (lit b_index b_value) (lit a_index a_value ^^^ 1) = some n2 := h2
  have e3 : push_outs n2 (lit b_index b_value ^^^ 1) (lit a_index a_value) = some n3 := h3
  have e4 : push_ins n3 (lit a_index a_value) (lit b_index b_value ^^^ 1) = some n4 := h4
  refine ⟨{ s with nodes := n4 }, ?_, rfl, rfl, rfl, rfl, ?_, ?_, ?_, ?_, ?_⟩
  · unfold add_clause
    simp only [lit] at e1 e2 e3 e4
    simp only [e1, e2, e3, e4, Option.bind]
  · show n4.length = s.nodes.length
    rw [l4]; show n3.length = _; rw [l3]; show n2.length = _; rw [l2]; show n1.length = _
    rw [l1]
  · intro x
    rw [u2, t1 x, r2, q1 x]
  · intro x
    rw [u1 x, t2, r1 x, q2]
  · intro x
    rw [u3 x, t3 x, r3 x, q3 x]
  · rw [u4, t4, r4, q4]

theorem lit_lt {i N : Nat} (b : Bool) (h : i < N) : lit i b < 2 * N := by
  unfold lit; cases b <;> simp <;> omega

theorem create_outs (n : Nat) : outsOf (create n) = fun _ => [] := by
  funext x
  simp only [outsOf, create, List.getElem?_replicate]
  by_cases h : x < 2 * n <;> simp [h, Node.new]

theorem create_ins (n : Nat) : insOf (create n) = fun _ => [] := by
  funext x
  simp only [insOf, create, List.getElem?_replicate]
  by_cases h : x < 2 * n <;> simp [h, Node.new]

theorem Built.of_create (n : Nat) : Built [] (create n) where
  hlen := by simp [Kactl.create]
  hvalues := by simp [Kactl.create]
  hvis := by
    rintro x ⟨m, hm, hv⟩
    simp only [Kactl.create, List.getElem?_replicate] at hm
    split at hm
    · cases hm; exact hv rfl
    · cases hm
  hcomp := rfl
  hst := rfl
  hagree := by
    intro u v
    rw [create_outs, create_ins]
    simp
  hrange := by simp
  hedge := by
    intro u v
    rw [create_outs]
    simp

theorem add_var_views (s : TwoSat) :
    outsOf (add_var s).2 = outsOf s ∧ insOf (add_var s).2 = insOf s ∧
    (∀ x, visited (add_var s).2 x ↔ visited s x) := by
  have key : ∀ x : Nat, (add_var s).2.nodes[x]? = s.nodes[x]? ∨
      (s.nodes[x]? = none ∧ (add_var s).2.nodes[x]? = some Node.new) ∨
      (s.nodes[x]? = none ∧ (add_var s).2.nodes[x]? = none) := by
    intro x
    simp only [add_var]
    rcases Nat.lt_or_ge x s.nodes.length with h | h
    · left
      rw [List.append_assoc, List.getElem?_append_left h]
    · right
      rw [List.append_assoc, List.getElem?_append_right h, List.getElem?_eq_none h]
      rcases Nat.lt_or_ge (x - s.nodes.length) 2 with h2 | h2
      · left
        refine ⟨rfl, ?_⟩
        have : x - s.nodes.length = 0 ∨ x - s.nodes.length = 1 := by omega
        rcases this with h3 | h3 <;> rw [h3] <;> rfl
      · right
        exact ⟨rfl, List.getElem?_eq_none (by simpa using h2)⟩
  refine ⟨?_, ?_, ?_⟩
  · funext x
    simp only [outsOf]
    rcases key x with h | ⟨h1, h2⟩ | ⟨h1, h2⟩
    · rw [h]
    · rw [h1, h2]; rfl
    · rw [h1, h2]
  · funext x
    simp only [insOf]
    rcases key x with h | ⟨h1, h2⟩ | ⟨h1, h2⟩
    · rw [h]
    · rw [h1, h2]; rfl
    · rw [h1, h2]
  · intro x
    simp only [visited]
    rcases key x with h | ⟨h1, h2⟩ | ⟨h1, h2⟩
    · rw [h]
    · rw [h1, h2]; simp [Node.new]
    · rw [h1, h2]

theorem Built.of_add_var {cs : List Clause} {s : TwoSat} (h : Built cs s) :
    Built cs (add_var s).2 := by
  obtain ⟨v1, v2, v3⟩ := add_var_views s
  exact
    { hlen := by simp [Kactl.add_var, h.hlen]; omega
      hvalues := by simp [Kactl.add_var, h.hvalues]
      hvis := fun x hx => h.hvis x ((v3 x).1 hx)
      hcomp := h.hcomp
      hst := h.hst
      hagree := by rw [v1, v2]; exact h.hagree
      hrange := fun c hc => by
        have := h.hrange c hc
        simp only [Kactl.add_var]; omega
      hedge := by rw [v1]; exact h.hedge }

theorem Built.of_add_clause {cs : List Clause} {s : TwoSat} (h : Built cs s)
    {a : Nat} (av : Bool) {b : Nat} (bv : Bool) (ha : a < s.N) (hb : b < s.N) :
    ∃ s', add_clause s a av b bv = some s' ∧ s'.N = s.N ∧ Built (cs ++ [⟨a, av, b, bv⟩]) s' := by
  have la := lit_lt av ha
  have lb := lit_lt bv hb
  obtain ⟨s', h1, h2, h3, h4, h5, h6, h7, h8, h9, -⟩ :=
    add_clause_spec s a av b bv (h.hlen ▸ la) (h.hlen ▸ xor1_lt la) (h.hlen ▸ lb)
      (h.hlen ▸ xor1_lt lb)
  refine ⟨s', h1, h2, ?_⟩
  exact
    { hlen := by rw [h6, h2, h.hlen]
      hvalues := by rw [h3, h2, h.hvalues]
      hvis := fun x hx => h.hvis x ((h9 x).1 hx)
      hcomp := h4.trans h.hcomp
      hst := h5.trans h.hst
      hagree := by
        intro u v
        rw [h7 u, h8 v]
        simp only [List.mem_append, h.hagree u v]
        by_cases e1 : v = lit b bv <;> by_cases e2 : v = lit a av <;>
          by_cases e3 : u = lit a av ^^^ 1 <;> by_cases e4 : u = lit b bv ^^^ 1 <;>
          simp [e1, e2, e3, e4]
      hrange := by
        intro c hc
        rw [h2]
        rcases List.mem_append.1 hc with hc | hc
        · exact h.hrange c hc
        · rw [List.mem_singleton] at hc; subst hc; exact ⟨ha, hb⟩
      hedge := by
        intro u v
        rw [h7 u]
        simp only [List.mem_append, h.hedge u v, List.mem_singleton]
        constructor
        · rintro ((⟨c, hc, he⟩ | h1) | h1)
          · exact ⟨c, Or.inl hc, he⟩
          · split at h1
            · rename_i hu
              simp at h1
              exact ⟨_, Or.inr rfl, Or.inl ⟨hu, h1⟩⟩
            · simp at h1
          · split at h1
            · rename_i hu
              simp at h1
              exact ⟨_, Or.inr rfl, Or.inr ⟨hu, h1⟩⟩
            · simp at h1
        · rintro ⟨c, hc | hc, he⟩
          · exact Or.inl (Or.inl ⟨c, hc, he⟩)
          · subst hc
            rcases he with ⟨hu, hv⟩ | ⟨hu, hv⟩
            · left; right; simp [hu, hv]
            · right; simp [hu, hv] }

theorem at_most_one_loop_spec (val : Bool) :
    ∀ (xs : List Nat) (cur : Nat) (s : TwoSat) (cs : List Clause), Built cs s → cur < s.N →
      (∀ x ∈ xs, x < s.N) →
      ∃ r, at_most_one_loop val xs cur s = some r ∧ r.1 = at_most_one_cur xs cur s.N ∧
        r.1 < r.2.N ∧ r.2.N = s.N + xs.length ∧
        Built (cs ++ at_most_one_loop_clauses val xs cur s.N) r.2 := by
  intro xs
  induction xs with
  | nil =>
    intro cur s cs h hcur _
    exact ⟨(cur, s), rfl, rfl, hcur, rfl, by simpa [at_most_one_loop_clauses] using h⟩
  | cons x xs ih =>
    intro cur s cs h hcur hxs
    have hx : x < s.N := hxs x (List.mem_cons_self _ _)
    have hN1 : (add_var s).2.N = s.N + 1 := rfl
    obtain ⟨s2, e2, n2, b2⟩ :=
      (h.of_add_var).of_add_clause (!val) (!val) (a := cur) (b := x) (by omega) (by omega)
    obtain ⟨s3, e3, n3, b3⟩ :=
      b2.of_add_clause (!val) val (a := cur) (b := s.N) (by omega) (by omega)
    obtain ⟨s4, e4, n4, b4⟩ :=
      b3.of_add_clause (!val) val (a := x) (b := s.N) (by omega) (by omega)
    have hN4 : s4.N = s.N + 1 := by omega
    obtain ⟨r, e5, c5, l5, n5, b5⟩ := ih s.N s4 _ b4 (by omega)
      (fun y hy => by have := hxs y (List.mem_cons_of_mem _ hy); omega)
    refine ⟨r, ?_, ?_, l5, ?_, ?_⟩
    · have e2' : add_clause (add_var s).2 cur (!val) x (!val) = some s2 := e2
      have e3' : add_clause s2 cur (!val) (add_var s).1 val = some s3 := e3
      have e4' : add_clause s3 x (!val) (add_var s).1 val = some s4 := e4
      simp only [at_most_one_loop, e2', e3', e4', Option.bind]
      exact e5
    · rw [c5, hN4]; rfl
    · rw [n5, hN4, List.length_cons]; omega
    · rw [hN4] at b5
      simpa [at_most_one_loop_clauses] using b5

theorem at_most_one_spec {cs : List Clause} {s : TwoSat} (h : Built cs s) (li : List Nat)
    (val : Bool) (hli : ∀ x ∈ li, x < s.N) :
    ∃ s', at_most_one s li val = some s' ∧ s'.N = s.N + (li.length - 2) ∧
      Built (cs ++ at_most_one_clauses s.N li val) s' := by
  match li, hli with
  | [], _ => exact ⟨s, rfl, rfl, by simpa [at_most_one_clauses] using h⟩
  | [_], _ => exact ⟨s, rfl, rfl, by simpa [at_most_one_clauses] using h⟩
  | l0 :: l1 :: rest, hli =>
    have h0 : l0 < s.N := hli l0 (by simp)
    have h1 : l1 < s.N := hli l1 (by simp)
    obtain ⟨r, e1, c1, lt1, n1, b1⟩ := at_most_one_loop_spec val rest l0 s cs h h0
      (fun x hx => hli x (by simp [hx]))
    obtain ⟨s', e2, n2, b2⟩ := b1.of_add_clause (!val) (!val) (a := r.1) (b := l1) lt1 (by omega)
    refine ⟨s', ?_, ?_, ?_⟩
    · simp only [at_most_one, e1, Option.bind]
      exact e2
    · rw [n2, n1]; simp
    · rw [c1] at b2
      simpa [at_most_one_clauses] using b2

theorem Op.apply_spec {cs : List Clause} {s : TwoSat} (h : Built cs s) (op : Op)
    (hr : op.inRange s.N = true) :
    ∃ s', op.apply s = some s' ∧ s'.N = op.newN s.N ∧ Built (cs ++ op.clauses s.N) s' := by
  cases op with
  | add_var => exact ⟨(Kactl.add_var s).2, rfl, rfl, by simpa [Op.clauses] using h.of_add_var⟩
  | add_clause a av b bv =>
    simp only [Op.inRange, Bool.and_eq_true, decide_eq_true_eq] at hr
    exact h.of_add_clause av bv hr.1 hr.2
  | set_value i v =>
    simp only [Op.inRange, decide_eq_true_eq] at hr
    exact h.of_add_clause v v hr hr
  | at_most_one li val =>
    simp only [Op.inRange, List.all_eq_true, decide_eq_true_eq] at hr
    exact at_most_one_spec h li val hr

/-- A sequence of construction calls with indices in range runs through and
keeps the construction invariant, for the clauses it submits. -/
theorem run_spec : ∀ (ops : List Op) (s : TwoSat) (cs : List Clause), Built cs s →
    opsInRange s.N ops = true →
    ∃ s', run ops s = some s' ∧ s'.N = finalN s.N ops ∧
      Built (cs ++ submitted s.N ops) s' := by
  intro ops
  induction ops with
  | nil =>
    intro s cs h _
    exact ⟨s, rfl, rfl, by simpa [submitted] using h⟩
  | cons op ops ih =>
    intro s cs h hr
    simp only [opsInRange, Bool.and_eq_true] at hr
    obtain ⟨s1, e1, n1, b1⟩ := Op.apply_spec h op hr.1
    obtain ⟨s', e2, n2, b2⟩ := ih s1 _ b1 (n1 ▸ hr.2)
    refine ⟨s', ?_, ?_, ?_⟩
    · simp only [run, loopM, e1]
      exact e2
    · rw [n2, n1]; rfl
    · simp only [submitted]
      rw [← List.append_assoc, ← n1]
      exact b2

theorem build_spec (n : Nat) (ops : List Op) (h : opsInRange n ops = true) :
    ∃ s, build n ops = some s ∧ s.N = finalN n ops ∧ Built (submitted n ops) s := by
  obtain ⟨s, e, hn, b⟩ := run_spec ops (create n) [] (Built.of_create n) h
  exact ⟨s, e, hn, by simpa using b⟩

theorem Built.out_lt {cs : List Clause} {s : TwoSat} (h : Built cs s) {u v : Nat}
    (huv : v ∈ outsOf s u) : u < 2 * s.N ∧ v < 2 * s.N := by
  obtain ⟨c, hc, he⟩ := (h.hedge u v).1 huv
  obtain ⟨ha, hb⟩ := h.hrange c hc
  rcases he with ⟨rfl, rfl⟩ | ⟨rfl, rfl⟩
  · exact ⟨xor1_lt (lit_lt _ ha), lit_lt _ hb⟩
  · exact ⟨xor1_lt (lit_lt _ hb), lit_lt _ ha⟩

theorem Built.ready {cs : List Clause} {s : TwoSat} (h : Built cs s) : Ready s where
  hlen := h.hlen
  hvalues := h.hvalues
  hvis := h.hvis
  hcomp := h.hcomp
  hst := h.hst
  hout := fun x y hy => by rw [h.hlen]; exact (h.out_lt hy).2
  hin := fun x y hy => by rw [h.hlen]; exact (h.out_lt ((h.hagree y x).1 hy)).1
  hagree := h.hagree

theorem Built.skew {cs : List Clause} {s : TwoSat} (h : Built cs s) : Skew s := by
  intro u v huv
  obtain ⟨c, hc, he⟩ := (h.hedge u v).1 huv
  refine (h.hedge _ _).2 ⟨c, hc, ?_⟩
  rcases he with ⟨rfl, rfl⟩ | ⟨rfl, rfl⟩
  · right; rw [xor1_xor1]; exact ⟨rfl, rfl⟩
  · left; rw [xor1_xor1]; exact ⟨rfl, rfl⟩

/-! ## Soundness and completeness of `solve` -/

theorem lit_half (i : Nat) (b : Bool) : lit i b / 2 = i := by
  have : b.toNat ≤ 1 := Bool.toNat_le b
  unfold lit; omega

theorem lit_mod (i : Nat) (b : Bool) : lit i b % 2 = b.toNat := by
  have : b.toNat ≤ 1 := Bool.toNat_le b
  unfold lit; omega

theorem litHolds_lit (values : List Nat) (i : Nat) (b : Bool) :
    litHolds values (lit i b) ↔ values[i]? = some b.toNat := by
  unfold litHolds; rw [lit_half, lit_mod]

theorem litF_lit (f : Nat → Bool) (i : Nat) (b : Bool) : LitF f (lit i b) ↔ f i = b := by
  unfold LitF; rw [lit_half, lit_mod]
  cases b <;> cases f i <;> simp

theorem litF_xor (f : Nat → Bool) (x : Nat) : LitF f (x ^^^ 1) ↔ ¬ LitF f x := by
  unfold LitF; rw [xor1_half, xor1_mod]
  have : x % 2 = 0 ∨ x % 2 = 1 := by omega
  rcases this with h | h <;> cases f (x / 2) <;> simp [h]

/-- An assignment satisfying a clause respects both of its implication
edges. -/
theorem Clause.sat_edge {f : Nat → Bool} {c : Clause} (h : c.sat f) {u v : Nat}
    (he : c.edge u v) (hu : LitF f u) : LitF f v := by
  rcases he with ⟨rfl, rfl⟩ | ⟨rfl, rfl⟩
  · rw [litF_xor, litF_lit] at hu
    rw [litF_lit]
    rcases h with h | h
    · exact absurd h hu
    · exact h
  · rw [litF_xor, litF_lit] at hu
    rw [litF_lit]
    rcases h with h | h
    · exact h
    · exact absurd h hu

theorem Built.sat_reach {cs : List Clause} {s : TwoSat} (h : Built cs s) {f : Nat → Bool}
    (hf : ∀ c ∈ cs, c.sat f) {x y : Nat} (hr : Reach (outsOf s) x y) (hx : LitF f x) :
    LitF f y := by
  induction hr with
  | refl => exact hx
  | tail _ hstep ih =>
    obtain ⟨c, hc, he⟩ := (h.hedge _ _).1 hstep
    exact Clause.sat_edge (hf c hc) he ih

/-- A vector of values under which all clauses hold gives a satisfying
assignment. -/
theorem sat_of_holds {cs : List Clause} {values : List Nat}
    (h : ∀ c ∈ cs, c.holds values) :
    ∀ c ∈ cs, c.sat (fun i => decide (values[i]? = some 1)) := by
  intro c hc
  rcases h c hc with h1 | h1
  · left
    show decide (values[c.a_index]? = some 1) = c.a_value
    rw [h1]
    cases c.a_value <;> simp
  · right
    show decide (values[c.b_index]? = some 1) = c.b_value
    rw [h1]
    cases c.b_value <;> simp

/-- Soundness, completeness and termination of `solve` on a solver built from
the clauses `cs`. -/
theorem Built.solve_correct {cs : List Clause} {s : TwoSat} (h : Built cs s) :
    ∃ b s', solve s = some (b, s') ∧ s'.N = s.N ∧ s'.values.length = s.N ∧
      (b = true → ∀ c ∈ cs, c.holds s'.values) ∧
      (b = true ↔ ∃ f : Nat → Bool, ∀ c ∈ cs, c.sat f) := by
  obtain ⟨t, b, s', -, hd, hs, -, hN, hvl, hfalse, htrue⟩ := solve_spec s h.ready h.skew
  have hsound : b = true → ∀ c ∈ cs, c.holds s'.values := by
    intro hb c hc
    have hne : ∀ x, x < 2 * s.N → cidN t x ≠ cidN t (x ^^^ 1) := by
      intro x hx hxe
      have := hfalse.2 ⟨x, hx, hxe⟩
      rw [hb] at this; cases this
    obtain ⟨ha, hb'⟩ := h.hrange c hc
    have la := lit_lt c.a_value ha
    have lb := lit_lt c.b_value hb'
    have e1 : lit c.b_index c.b_value ∈ outsOf s (lit c.a_index c.a_value ^^^ 1) :=
      (h.hedge _ _).2 ⟨c, hc, Or.inl ⟨rfl, rfl⟩⟩
    have e2 : lit c.a_index c.a_value ∈ outsOf s (lit c.b_index c.b_value ^^^ 1) :=
      (h.hedge _ _).2 ⟨c, hc, Or.inr ⟨rfl, rfl⟩⟩
    have i1 := hd.cidN_le e1
    have i2 := hd.cidN_le e2
    have ka := litHolds_iff hne (htrue hb) la
    have kb := litHolds_iff hne (htrue hb) lb
    rw [litHolds_lit] at ka kb
    unfold Clause.holds
    rw [ka, kb]
    have := hne _ la
    omega
  refine ⟨b, s', hs, hN, hvl, hsound, ?_⟩
  constructor
  · intro hb
    exact ⟨_, sat_of_holds (hsound hb)⟩
  · rintro ⟨f, hf⟩
    by_contra hb
    have hb' : b = false := by simpa using hb
    obtain ⟨x, hx, hxe⟩ := hfalse.1 hb'
    have hscc := (hd.cidN_eq_iff hx (xor1_lt hx)).1 hxe
    by_cases hl : LitF f x
    · exact (litF_xor f x).1 (h.sat_reach hf hscc.1 hl) hl
    · exact hl (h.sat_reach hf hscc.2 ((litF_xor f x).2 hl))

/-- On a solver built with indices in range `solve` returns; a true answer
comes with values under which the submitted clauses hold, and the answer is
true exactly for satisfiable clause lists. -/
theorem build_solve (n : Nat) (ops : List Op) (h : opsInRange n ops = true) :
    ∃ s b s', build n ops = some s ∧ solve s = some (b, s') ∧
      (b = true → ∀ c ∈ submitted n ops, c.holds s'.values) ∧
      (b = true ↔ ∃ f : Nat → Bool, ∀ c ∈ submitted n ops, c.sat f) := by
  obtain ⟨s, hb, -, hB⟩ := build_spec n ops h
  obtain ⟨b, s', hs, -, -, hsound, hiff⟩ := hB.solve_correct
  exact ⟨s, b, s', hb, hs, hsound, hiff⟩

/-! ## The contract of the solver -/

/-- C1 (soundness of the assignment). For every solver built by `TwoSat(n)`
and construction calls whose variable indices were below `N` when submitted,
`solve()` returns, and if it returns true then every submitted clause
`(a_index, a_value, b_index, b_value)` has `values[a_index] == a_value` or
`values[b_index] == b_value`. -/
theorem solve_sound (n : Nat) (ops : List Op) (h : opsInRange n ops = true) :
    ∃ s b s', build n ops = some s ∧ solve s = some (b, s') ∧
      (b = true → ∀ c ∈ submitted n ops, c.holds s'.values) := by
  obtain ⟨s, b, s', hb, hs, hsound, -⟩ := build_solve n ops h
  exact ⟨s, b, s', hb, hs, hsound⟩

/-- Instance of C1: `N = 2` with the clauses `x0 ∨ x1` and `¬x0 ∨ x1`; `solve()`
returns true, `values[1] == 1`, and both clauses hold. -/
theorem solve_sound_witness :
    opsInRange 2 [.add_clause 0 true 1 true, .add_clause 0 false 1 true] = true ∧
    ((build 2 [.add_clause 0 true 1 true, .add_clause 0 false 1 true]).bind solve).map
        (fun r => (r.1, r.2.values[1]?)) = some (true, some 1) ∧
    ∃ s b s', build 2 [.add_clause 0 true 1 true, .add_clause 0 false 1 true] = some s ∧
      solve s = some (b, s') ∧
      (b = true → ∀ c ∈ submitted 2 [.add_clause 0 true 1 true, .add_clause 0 false 1 true],
        c.holds s'.values) :=
  ⟨by decide, by decide, solve_sound 2 _ (by decide)⟩

/-- C2 (decision correctness). For every freshly built solver with indices in
range, `solve()` returns, and it returns true if and only if some assignment
of the variables satisfies every submitted clause. -/
theorem solve_decides (n : Nat) (ops : List Op) (h : opsInRange n ops = true) :
    ∃ s b s', build n ops = some s ∧ solve s = some (b, s') ∧
      (b = true ↔ ∃ f : Nat → Bool, ∀ c ∈ submitted n ops, c.sat f) := by
  obtain ⟨s, b, s', hb, hs, -, hiff⟩ := build_solve n ops h
  exact ⟨s, b, s', hb, hs, hiff⟩

/-- Instance of C2: `N = 1` with `set_value(0, true)` and `set_value(0, false)`;
`solve()` returns false. -/
theorem solve_decides_witness :
    opsInRange 1 [.set_value 0 true, .set_value 0 false] = true ∧
    ((build 1 [.set_value 0 true, .set_value 0 false]).bind solve).map (fun r => r.1) =
      some false ∧
    ∃ s b s', build 1 [.set_value 0 true, .set_value 0 false] = some s ∧
      solve s = some (b, s') ∧
      (b = true ↔ ∃ f : Nat → Bool,
        ∀ c ∈ submitted 1 [.set_value 0 true, .set_value 0 false], c.sat f) :=
  ⟨by decide, by decide, solve_decides 1 _ (by decide)⟩

theorem opsInRange_append (n : Nat) (ops1 ops2 : List Op) :
    opsInRange n (ops1 ++ ops2) = true ↔
      opsInRange n ops1 = true ∧ opsInRange (finalN n ops1) ops2 = true := by
  induction ops1 generalizing n with
  | nil => simp [opsInRange, finalN]
  | cons op ops ih =>
    rw [List.cons_append, opsInRange, opsInRange, finalN, Bool.and_eq_true, Bool.and_eq_true,
      ih, and_assoc]

theorem submitted_append (n : Nat) (ops1 ops2 : List Op) :
    submitted n (ops1 ++ ops2) = submitted n ops1 ++ submitted (finalN n ops1) ops2 := by
  induction ops1 generalizing n with
  | nil => simp [submitted, finalN]
  | cons op ops ih =>
    rw [List.cons_append, submitted, submitted, finalN, ih, List.append_assoc]

theorem finalN_append (n : Nat) (ops1 ops2 : List Op) :
    finalN n (ops1 ++ ops2) = finalN (finalN n ops1) ops2 := by
  induction ops1 generalizing n with
  | nil => simp [finalN]
  | cons op ops ih => rw [List.cons_append, finalN, finalN, ih]

theorem atMostOnePos_iff_pairwise (P : Nat → Prop) (li : List Nat) :
    AtMostOnePos P li ↔ li.Pairwise (fun a b => ¬ (P a ∧ P b)) := by
  rw [List.pairwise_iff_getElem]
  constructor
  · intro h i j hi hj hij
    exact h i j _ _ (Nat.ne_of_lt hij) (List.getElem?_eq_getElem hi)
      (List.getElem?_eq_getElem hj)
  · intro h i j x y hij hx hy
    obtain ⟨hi, rfl⟩ := List.getElem?_eq_some_iff.1 hx
    obtain ⟨hj, rfl⟩ := List.getElem?_eq_some_iff.1 hy
    rcases Nat.lt_or_gt_of_ne hij with hlt | hlt
    · exact h i j hi hj hlt
    · intro hp
      exact h j i hj hi hlt ⟨hp.2, hp.1⟩

theorem toNat_ne_not (val : Bool) : val.toNat ≠ (!val).toNat := by
  cases val <;> simp

/-- A vector under which the clauses of the loop of `at_most_one` hold has at
most one of `cur, li[2], li[3], ...` at `val`, and the final `cur` is at `val`
as soon as one of them is. -/
theorem at_most_one_loop_sound (values : List Nat) (val : Bool) :
    ∀ (xs : List Nat) (cur N : Nat),
      (∀ c ∈ at_most_one_loop_clauses val xs cur N, c.holds values) →
      (cur :: xs).Pairwise (fun a b =>
        ¬ (values[a]? = some val.toNat ∧ values[b]? = some val.toNat)) ∧
      ((∃ z ∈ cur :: xs, values[z]? = some val.toNat) →
        values[at_most_one_cur xs cur N]? = some val.toNat) := by
  intro xs
  induction xs with
  | nil =>
    intro cur N _
    refine ⟨by simp, ?_⟩
    rintro ⟨z, hz, hp⟩
    simp only [List.mem_singleton] at hz
    subst hz
    exact hp
  | cons x xs ih =>
    intro cur N h
    have hne := toNat_ne_not val
    have c1 := h ⟨cur, !val, x, !val⟩ (by simp [at_most_one_loop_clauses])
    have c2 := h ⟨cur, !val, N, val⟩ (by simp [at_most_one_loop_clauses])
    have c3 := h ⟨x, !val, N, val⟩ (by simp [at_most_one_loop_clauses])
    simp only [Clause.holds] at c1 c2 c3
    obtain ⟨ih1, ih2⟩ := ih N (N + 1) (fun c hc => h c (by
      simp only [at_most_one_loop_clauses, List.mem_cons]
      exact Or.inr (Or.inr (Or.inr hc))))
    rw [List.pairwise_cons] at ih1
    have hcurN : values[cur]? = some val.toNat → values[N]? = some val.toNat := by
      intro hp
      rcases c2 with h1 | h1
      · rw [hp] at h1; exact absurd (Option.some.inj h1) hne
      · exact h1
    have hxN : values[x]? = some val.toNat → values[N]? = some val.toNat := by
      intro hp
      rcases c3 with h1 | h1
      · rw [hp] at h1; exact absurd (Option.some.inj h1) hne
      · exact h1
    refine ⟨?_, ?_⟩
    · rw [List.pairwise_cons, List.pairwise_cons]
      refine ⟨?_, ?_, ih1.2⟩
      · intro y hy
        rcases List.mem_cons.1 hy with rfl | hy
        · rintro ⟨hp, hq⟩
          rcases c1 with h1 | h1
          · rw [hp] at h1; exact hne (Option.some.inj h1)
          · rw [hq] at h1; exact hne (Option.some.inj h1)
        · rintro ⟨hp, hq⟩
          exact ih1.1 y hy ⟨hcurN hp, hq⟩
      · intro y hy
        rintro ⟨hp, hq⟩
        exact ih1.1 y hy ⟨hxN hp, hq⟩
    · rintro ⟨z, hz, hp⟩
      show values[at_most_one_cur xs N (N + 1)]? = some val.toNat
      apply ih2
      simp only [List.mem_cons] at hz
      rcases hz with rfl | rfl | hz
      · exact ⟨N, List.mem_cons_self _ _, hcurN hp⟩
      · exact ⟨N, List.mem_cons_self _ _, hxN hp⟩
      · exact ⟨z, List.mem_cons_of_mem _ hz, hp⟩

/-- A vector under which the clauses of `at_most_one(li, val)` hold has no two
positions of `li` at `val`. -/
theorem at_most_one_clauses_sound (values : List Nat) (val : Bool) (N : Nat) (li : List Nat)
    (h : ∀ c ∈ at_most_one_clauses N li val, c.holds values) :
    AtMostOnePos (fun x => values[x]? = some val.toNat) li := by
  rw [atMostOnePos_iff_pairwise]
  match li, h with
  | [], _ => simp
  | [_], _ => simp
  | l0 :: l1 :: rest, h =>
    have hne := toNat_ne_not val
    obtain ⟨h1, h2⟩ := at_most_one_loop_sound values val rest l0 N (fun c hc => h c (by
      simp only [at_most_one_clauses, List.mem_append]
      exact Or.inl hc))
    have c1 := h ⟨at_most_one_cur rest l0 N, !val, l1, !val⟩ (by simp [at_most_one_clauses])
    simp only [Clause.holds] at c1
    have hl1 : ∀ z ∈ l0 :: rest, ¬ (values[z]? = some val.toNat ∧
        values[l1]? = some val.toNat) := by
      rintro z hz ⟨hp, hq⟩
      have hf := h2 ⟨z, hz, hp⟩
      rcases c1 with h3 | h3
      · rw [hf] at h3; exact hne (Option.some.inj h3)
      · rw [hq] at h3; exact hne (Option.some.inj h3)
    rw [List.pairwise_cons] at h1
    rw [List.pairwise_cons, List.pairwise_cons]
    refine ⟨?_, ?_, h1.2⟩
    · intro y hy
      rcases List.mem_cons.1 hy with rfl | hy
      · exact hl1 l0 (List.mem_cons_self _ _)
      · exact h1.1 y hy
    · intro y hy hpq
      exact hl1 y (List.mem_cons_of_mem _ hy) ⟨hpq.2, hpq.1⟩

/-- C3 (`at_most_one` enforces the constraint). If `at_most_one(li, val)` was
called among other constraints with indices in range and `solve()` returns
true, then no two distinct positions `i != j` of `li` have
`values[li[i]] == val` and `values[li[j]] == val`. -/
theorem at_most_one_enforced (n : Nat) (ops1 : List Op) (li : List Nat) (val : Bool)
    (ops2 : List Op) (h : opsInRange n (ops1 ++ Op.at_most_one li val :: ops2) = true) :
    ∃ s b s', build n (ops1 ++ Op.at_most_one li val :: ops2) = some s ∧
      solve s = some (b, s') ∧
      (b = true → AtMostOnePos (fun x => s'.values[x]? = some val.toNat) li) := by
  obtain ⟨s, b, s', hb, hs, hsound, -⟩ := build_solve n _ h
  refine ⟨s, b, s', hb, hs, fun hbt => ?_⟩
  apply at_most_one_clauses_sound s'.values val (finalN n ops1) li
  intro c hc
  apply hsound hbt
  rw [submitted_append]
  simp only [submitted, Op.clauses, List.mem_append]
  exact Or.inr (Or.inl hc)

/-- Instance of C3: `at_most_one([0,1,2], true)` with `set_value(0, true)`;
`solve()` returns true with `values[1] == 0` and `values[2] == 0`. -/
theorem at_most_one_enforced_witness :
    opsInRange 3 ([] ++ Op.at_most_one [0, 1, 2] true :: [Op.set_value 0 true]) = true ∧
    ((build 3 ([] ++ Op.at_most_one [0, 1, 2] true :: [Op.set_value 0 true])).bind solve).map
        (fun r => (r.1, r.2.values[0]?, r.2.values[1]?, r.2.values[2]?)) =
      some (true, some 1, some 0, some 0) ∧
    ∃ s b s', build 3 ([] ++ Op.at_most_one [0, 1, 2] true :: [Op.set_value 0 true]) = some s ∧
      solve s = some (b, s') ∧
      (b = true → AtMostOnePos (fun x => s'.values[x]? = some true.toNat) [0, 1, 2]) :=
  ⟨by decide, by decide, at_most_one_enforced 3 [] [0, 1, 2] true [Op.set_value 0 true]
    (by decide)⟩

theorem eq_not_of_ne {b val : Bool} (h : b ≠ val) : b = !val := by
  cases b <;> cases val <;> simp at h ⊢

theorem at_most_one_loop_extend (val : Bool) :
    ∀ (xs : List Nat) (cur N : Nat) (f : Nat → Bool), cur < N → (∀ x ∈ xs, x < N) →
      (cur :: xs).Pairwise (fun a b => ¬ (f a = val ∧ f b = val)) →
      (∀ i, i < N → at_most_one_extend val xs cur N f i = f i) ∧
      (∀ c ∈ at_most_one_loop_clauses val xs cur N,
        c.sat (at_most_one_extend val xs cur N f)) ∧
      (at_most_one_extend val xs cur N f (at_most_one_cur xs cur N) = val ↔
        ∃ z ∈ cur :: xs, f z = val) := by
  intro xs
  induction xs with
  | nil =>
    intro cur N f _ _ _
    refine ⟨fun _ _ => rfl, by simp [at_most_one_loop_clauses], ?_⟩
    simp [at_most_one_extend, at_most_one_cur]
  | cons x xs ih =>
    intro cur N f hcur hxs hpw
    have hx : x < N := hxs x (List.mem_cons_self _ _)
    rw [List.pairwise_cons, List.pairwise_cons] at hpw
    obtain ⟨hp1, hp2, hp3⟩ := hpw
    -- the assignment after the first iteration
    obtain ⟨f1, hf1⟩ : ∃ f1 : Nat → Bool, f1 =
        fun i => if i = N then (if f cur = val ∨ f x = val then val else !val) else f i :=
      ⟨_, rfl⟩
    have hf1lt : ∀ i, i < N → f1 i = f i := by
      intro i hi
      rw [hf1]
      simp [Nat.ne_of_lt hi]
    have hf1N : f1 N = val ↔ (f cur = val ∨ f x = val) := by
      rw [hf1]
      simp only [if_true]
      split
      · simp [*]
      · rename_i hcon
        simp only [hcon, iff_false]
        cases val <;> simp
    have hpw1 : (N :: xs).Pairwise (fun a b => ¬ (f1 a = val ∧ f1 b = val)) := by
      rw [List.pairwise_cons]
      refine ⟨?_, ?_⟩
      · rintro y hy ⟨hN, hyv⟩
        have hylt : y < N := hxs y (List.mem_cons_of_mem _ hy)
        rw [hf1lt y hylt] at hyv
        rcases hf1N.1 hN with h | h
        · exact hp1 y (List.mem_cons_of_mem _ hy) ⟨h, hyv⟩
        · exact hp2 y hy ⟨h, hyv⟩
      · refine List.Pairwise.imp_of_mem ?_ hp3
        intro a b ha hb hab
        rw [hf1lt a (hxs a (List.mem_cons_of_mem _ ha)),
          hf1lt b (hxs b (List.mem_cons_of_mem _ hb))]
        exact hab
    obtain ⟨g1, g2, g3⟩ := ih N (N + 1) f1 (Nat.lt_succ_self N)
      (fun y hy => Nat.lt_succ_of_lt (hxs y (List.mem_cons_of_mem _ hy))) hpw1
    have hext : at_most_one_extend val (x :: xs) cur N f =
        at_most_one_extend val xs N (N + 1) f1 := by
      rw [hf1]; rfl
    rw [hext]
    have hg : ∀ i, i < N → at_most_one_extend val xs N (N + 1) f1 i = f i := by
      intro i hi
      rw [g1 i (Nat.lt_succ_of_lt hi), hf1lt i hi]
    have hgN : at_most_one_extend val xs N (N + 1) f1 N = f1 N := g1 N (Nat.lt_succ_self N)
    refine ⟨hg, ?_, ?_⟩
    · intro c hc
      simp only [at_most_one_loop_clauses, List.mem_cons] at hc
      rcases hc with rfl | rfl | rfl | hc
      · show _ = (!val) ∨ _ = (!val)
        rw [hg cur hcur, hg x hx]
        by_cases h1 : f cur = val
        · right
          exact eq_not_of_ne (fun h2 => hp1 x (List.mem_cons_self _ _) ⟨h1, h2⟩)
        · left; exact eq_not_of_ne h1
      · show _ = (!val) ∨ _ = val
        rw [hg cur hcur, hgN]
        by_cases h1 : f cur = val
        · right; exact hf1N.2 (Or.inl h1)
        · left; exact eq_not_of_ne h1
      · show _ = (!val) ∨ _ = val
        rw [hg x hx, hgN]
        by_cases h1 : f x = val
        · right; exact hf1N.2 (Or.inr h1)
        · left; exact eq_not_of_ne h1
      · exact g2 c hc
    · show at_most_one_extend val xs N (N + 1) f1 (at_most_one_cur xs N (N + 1)) = val ↔ _
      rw [g3]
      constructor
      · rintro ⟨z, hz, hzv⟩
        rcases List.mem_cons.1 hz with rfl | hz
        · rcases hf1N.1 hzv with h | h
          · exact ⟨cur, by simp, h⟩
          · exact ⟨x, by simp, h⟩
        · rw [hf1lt z (hxs z (List.mem_cons_of_mem _ hz))] at hzv
          exact ⟨z, by simp [hz], hzv⟩
      · rintro ⟨z, hz, hzv⟩
        simp only [List.mem_cons] at hz
        rcases hz with rfl | rfl | hz
        · exact ⟨N, List.mem_cons_self _ _, hf1N.2 (Or.inl hzv)⟩
        · exact ⟨N, List.mem_cons_self _ _, hf1N.2 (Or.inr hzv)⟩
        · refine ⟨z, List.mem_cons_of_mem _ hz, ?_⟩
          rw [hf1lt z (hxs z (List.mem_cons_of_mem _ hz))]
          exact hzv

/-- An assignment of `N` variables with at most one position of `li` at `val`
extends to the auxiliary variables so that the clauses of
`at_most_one(li, val)` are satisfied. -/
theorem at_most_one_clauses_extend (val : Bool) (N : Nat) (li : List Nat) (f : Nat → Bool)
    (hli : ∀ x ∈ li, x < N) (hamo : AtMostOnePos (fun x => f x = val) li) :
    ∃ f' : Nat → Bool, (∀ i, i < N → f' i = f i) ∧
      ∀ c ∈ at_most_one_clauses N li val, c.sat f' := by
  rw [atMostOnePos_iff_pairwise] at hamo
  match li, hli, hamo with
  | [], _, _ => exact ⟨f, fun _ _ => rfl, by simp [at_most_one_clauses]⟩
  | [_], _, _ => exact ⟨f, fun _ _ => rfl, by simp [at_most_one_clauses]⟩
  | l0 :: l1 :: rest, hli, hamo =>
    rw [List.pairwise_cons, List.pairwise_cons] at hamo
    obtain ⟨hp1, hp2, hp3⟩ := hamo
    have h0 : l0 < N := hli l0 (by simp)
    have h1 : l1 < N := hli l1 (by simp)
    obtain ⟨g1, g2, g3⟩ := at_most_one_loop_extend val rest l0 N f h0
      (fun x hx => hli x (by simp [hx]))
      (by
        rw [List.pairwise_cons]
        exact ⟨fun y hy => hp1 y (List.mem_cons_of_mem _ hy), hp3⟩)
    refine ⟨at_most_one_extend val rest l0 N f, g1, ?_⟩
    intro c hc
    simp only [at_most_one_clauses, List.mem_append, List.mem_singleton] at hc
    rcases hc with hc | rfl
    · exact g2 c hc
    · show _ = (!val) ∨ _ = (!val)
      by_cases hfin : at_most_one_extend val rest l0 N f (at_most_one_cur rest l0 N) = val
      · right
        rw [g1 l1 h1]
        apply eq_not_of_ne
        intro hl1
        obtain ⟨z, hz, hzv⟩ := g3.1 hfin
        rcases List.mem_cons.1 hz with rfl | hz
        · exact hp1 l1 (List.mem_cons_self _ _) ⟨hzv, hl1⟩
        · exact hp2 z hz ⟨hl1, hzv⟩
      · left; exact eq_not_of_ne hfin

/-- C4 (`at_most_one` constrains nothing more). An assignment of the
variables existing before the call in which at most one position of `li` holds
`val` extends, by values for the auxiliary variables, to an assignment
satisfying every clause added by `at_most_one(li, val)`; if it satisfied the
clauses submitted before, the extension satisfies all clauses and `solve()`
returns true after the call. -/
theorem at_most_one_conservative (n : Nat) (ops : List Op) (li : List Nat) (val : Bool)
    (f : Nat → Bool) (h : opsInRange n (ops ++ [Op.at_most_one li val]) = true)
    (hamo : AtMostOnePos (fun x => f x = val) li) :
    ∃ f' : Nat → Bool, (∀ i, i < finalN n ops → f' i = f i) ∧
      (∀ c ∈ at_most_one_clauses (finalN n ops) li val, c.sat f') ∧
      ((∀ c ∈ submitted n ops, c.sat f) →
        (∀ c ∈ submitted n (ops ++ [Op.at_most_one li val]), c.sat f') ∧
        ∃ s s', build n (ops ++ [Op.at_most_one li val]) = some s ∧
          solve s = some (true, s')) := by
  have hr := (opsInRange_append n ops _).1 h
  have hli : ∀ x ∈ li, x < finalN n ops := by
    have := hr.2
    simp only [opsInRange, Op.inRange, Bool.and_true, List.all_eq_true,
      decide_eq_true_eq] at this
    exact this
  obtain ⟨f', hf1, hf2⟩ := at_most_one_clauses_extend val (finalN n ops) li f hli hamo
  refine ⟨f', hf1, hf2, fun hf => ?_⟩
  obtain ⟨s0, -, hN0, hB0⟩ := build_spec n ops hr.1
  have hall : ∀ c ∈ submitted n (ops ++ [Op.at_most_one li val]), c.sat f' := by
    intro c hc
    rw [submitted_append] at hc
    simp only [submitted, Op.clauses, List.append_nil, List.mem_append] at hc
    rcases hc with hc | hc
    · obtain ⟨ha, hb⟩ := hB0.hrange c hc
      rw [hN0] at ha hb
      have := hf c hc
      unfold Clause.sat at this ⊢
      rw [hf1 _ ha, hf1 _ hb]
      exact this
    · exact hf2 c hc
  refine ⟨hall, ?_⟩
  obtain ⟨s, b, s', hb, hs, -, hiff⟩ := build_solve n _ h
  have hbt : b = true := hiff.2 ⟨f', hall⟩
  subst hbt
  exact ⟨s, s', hb, hs⟩

/-- Instance of C4: on `TwoSat(3)` with `set_value(1, true)`, the assignment
with only variable 1 true and the call `at_most_one([0,1,2], true)`. -/
theorem at_most_one_conservative_witness :
    opsInRange 3 ([Op.set_value 1 true] ++ [Op.at_most_one [0, 1, 2] true]) = true ∧
    AtMostOnePos (fun x => (fun i => decide (i = 1)) x = true) [0, 1, 2] ∧
    ∃ f' : Nat → Bool, (∀ i, i < finalN 3 [Op.set_value 1 true] → f' i = decide (i = 1)) ∧
      (∀ c ∈ at_most_one_clauses (finalN 3 [Op.set_value 1 true]) [0, 1, 2] true, c.sat f') ∧
      ((∀ c ∈ submitted 3 [Op.set_value 1 true], c.sat (fun i => decide (i = 1))) →
        (∀ c ∈ submitted 3 ([Op.set_value 1 true] ++ [Op.at_most_one [0, 1, 2] true]),
          c.sat f') ∧
        ∃ s s', build 3 ([Op.set_value 1 true] ++ [Op.at_most_one [0, 1, 2] true]) = some s ∧
          solve s = some (true, s')) :=
  ⟨by decide, (atMostOnePos_iff_pairwise _ _).2 (by decide),
    at_most_one_conservative 3 [Op.set_value 1 true] [0, 1, 2] true (fun i => decide (i = 1))
      (by decide) ((atMostOnePos_iff_pairwise _ _).2 (by decide))⟩

/-- C5 (`set_value` forces the value). `set_value(i, v)` is the call
`add_clause(i, v, i, v)`; if it was called among other constraints with
indices in range and `solve()` returns true, then `values[i] == v`. -/
theorem set_value_forces (n : Nat) (ops1 : List Op) (i : Nat) (v : Bool) (ops2 : List Op)
    (h : opsInRange n (ops1 ++ Op.set_value i v :: ops2) = true) :
    (∀ t : TwoSat, set_value t i v = add_clause t i v i v) ∧
    ∃ s b s', build n (ops1 ++ Op.set_value i v :: ops2) = some s ∧
      solve s = some (b, s') ∧ (b = true → s'.values[i]? = some v.toNat) := by
  refine ⟨fun _ => rfl, ?_⟩
  obtain ⟨s, b, s', hb, hs, hsound, -⟩ := build_solve n _ h
  refine ⟨s, b, s', hb, hs, fun hbt => ?_⟩
  have hc : (⟨i, v, i, v⟩ : Clause) ∈ submitted n (ops1 ++ Op.set_value i v :: ops2) := by
    rw [submitted_append]
    simp [submitted, Op.clauses]
  rcases hsound hbt _ hc with h1 | h1 <;> exact h1

/-- Instance of C5: `set_value(2, true)` on `TwoSat(3)` after the clause
`x0 ∨ ¬x2`; `solve()` returns true with `values[2] == 1`. -/
theorem set_value_forces_witness :
    opsInRange 3 ([Op.add_clause 0 true 2 false] ++ Op.set_value 2 true :: []) = true ∧
    ((build 3 ([Op.add_clause 0 true 2 false] ++ Op.set_value 2 true :: [])).bind solve).map
        (fun r => (r.1, r.2.values[2]?)) = some (true, some 1) ∧
    (∀ t : TwoSat, set_value t 2 true = add_clause t 2 true 2 true) ∧
    ∃ s b s', build 3 ([Op.add_clause 0 true 2 false] ++ Op.set_value 2 true :: []) = some s ∧
      solve s = some (b, s') ∧ (b = true → s'.values[2]? = some true.toNat) :=
  ⟨by decide, by decide,
    set_value_forces 3 [Op.add_clause 0 true 2 false] 2 true [] (by decide)⟩

/-- C6 (`at_most_one` on a list of length 0 or 1 is a no-op). The call returns
the state it was given, whatever the state, the element and `val`, so
`solve()` gives the same result as without the call. -/
theorem at_most_one_short (s : TwoSat) (li : List Nat) (val : Bool) (h : li.length ≤ 1) :
    at_most_one s li val = some s ∧ (at_most_one s li val).bind solve = solve s := by
  have key : at_most_one s li val = some s := by
    match li, h with
    | [], _ => rfl
    | [_], _ => rfl
    | _ :: _ :: _, h => simp at h
  exact ⟨key, by rw [key]; rfl⟩

/-- Instance of C6: `at_most_one([5], true)` on the solver `TwoSat(1)`; the
element need not even be a variable. -/
theorem at_most_one_short_witness :
    [5].length ≤ 1 ∧
    at_most_one (create 1) [5] true = some (create 1) ∧
      (at_most_one (create 1) [5] true).bind solve = solve (create 1) :=
  ⟨by decide, at_most_one_short (create 1) [5] true (by decide)⟩

/-- C7 (duplicate clauses are harmless). Submitting a clause that was already
submitted once more, at any later point before solving, does not change the
boolean returned by `solve()`, and when `solve()` returns true the values
satisfy every submitted clause. -/
theorem duplicate_clause_harmless (n : Nat) (ops1 ops2 : List Op) (a : Nat) (av : Bool)
    (b : Nat) (bv : Bool) (h : opsInRange n (ops1 ++ ops2) = true)
    (hc : (⟨a, av, b, bv⟩ : Clause) ∈ submitted n ops1) :
    ∃ s r s' t r' t', build n (ops1 ++ ops2) = some s ∧ solve s = some (r, s') ∧
      build n (ops1 ++ Op.add_clause a av b bv :: ops2) = some t ∧
      solve t = some (r', t') ∧ r' = r ∧
      (r' = true → ∀ c ∈ submitted n (ops1 ++ Op.add_clause a av b bv :: ops2),
        c.holds t'.values) := by
  have hr := (opsInRange_append n ops1 ops2).1 h
  obtain ⟨s1, -, hN1, hB1⟩ := build_spec n ops1 hr.1
  obtain ⟨ha, hb⟩ := hB1.hrange _ hc
  rw [hN1] at ha hb
  have h' : opsInRange n (ops1 ++ Op.add_clause a av b bv :: ops2) = true := by
    rw [opsInRange_append]
    refine ⟨hr.1, ?_⟩
    simp only [opsInRange, Op.inRange, Op.newN, Bool.and_eq_true, decide_eq_true_eq]
    exact ⟨⟨ha, hb⟩, hr.2⟩
  obtain ⟨s, r, s', e1, e2, -, hiff⟩ := build_solve n _ h
  obtain ⟨t, r', t', e3, e4, hsound, hiff'⟩ := build_solve n _ h'
  have hsame : ∀ f : Nat → Bool,
      (∀ c ∈ submitted n (ops1 ++ Op.add_clause a av b bv :: ops2), c.sat f) ↔
      (∀ c ∈ submitted n (ops1 ++ ops2), c.sat f) := by
    intro f
    rw [submitted_append, submitted_append]
    simp only [submitted, Op.clauses, Op.newN, List.mem_append, List.mem_cons,
      List.mem_singleton, List.not_mem_nil, or_false]
    constructor
    · intro hall c hcm
      rcases hcm with hcm | hcm
      · exact hall c (Or.inl hcm)
      · exact hall c (Or.inr (Or.inr hcm))
    · intro hall c hcm
      rcases hcm with hcm | rfl | hcm
      · exact hall c (Or.inl hcm)
      · exact hall _ (Or.inl hc)
      · exact hall c (Or.inr hcm)
  refine ⟨s, r, s', t, r', t', e1, e2, e3, e4, ?_, hsound⟩
  have : (r' = true) ↔ (r = true) := by
    rw [hiff, hiff']
    exact exists_congr hsame
  cases r <;> cases r' <;> simp_all

/-- Instance of C7: the clause `x0 ∨ x1` of `TwoSat(2)` is submitted again
after `set_value(0, false)`. -/
theorem duplicate_clause_harmless_witness :
    opsInRange 2 ([Op.add_clause 0 true 1 true] ++ [Op.set_value 0 false]) = true ∧
    (⟨0, true, 1, true⟩ : Clause) ∈ submitted 2 [Op.add_clause 0 true 1 true] ∧
    ∃ s r s' t r' t',
      build 2 ([Op.add_clause 0 true 1 true] ++ [Op.set_value 0 false]) = some s ∧
      solve s = some (r, s') ∧
      build 2 ([Op.add_clause 0 true 1 true] ++
        Op.add_clause 0 true 1 true :: [Op.set_value 0 false]) = some t ∧
      solve t = some (r', t') ∧ r' = r ∧
      (r' = true → ∀ c ∈ submitted 2 ([Op.add_clause 0 true 1 true] ++
        Op.add_clause 0 true 1 true :: [Op.set_value 0 false]), c.holds t'.values) :=
  ⟨by decide, by decide,
    duplicate_clause_harmless 2 [Op.add_clause 0 true 1 true] [Op.set_value 0 false]
      0 true 1 true (by decide) (by decide)⟩

/-- C8 (effect and frame of `add_clause`). For indices in range, with
`a = 2*a_index + a_value` and `b = 2*b_index + b_value`, the call appends `b`
to the outs of `a^1` and `a` to the outs of `b^1`, `a^1` to the ins of `b` and
`b^1` to the ins of `a`; every list keeps its old contents as a prefix, the
other lists are unchanged, and so are `N`, `values`, the number of nodes, the
flags and the component ids. -/
theorem add_clause_effect (s : TwoSat) (a_index : Nat) (a_value : Bool) (b_index : Nat)
    (b_value : Bool) (hlen : s.nodes.length = 2 * s.N) (ha : a_index < s.N)
    (hb : b_index < s.N) :
    ∃ s', add_clause s a_index a_value b_index b_value = some s' ∧
      s'.N = s.N ∧ s'.values = s.values ∧ s'.comp = s.comp ∧ s'.st = s.st ∧
      s'.nodes.length = s.nodes.length ∧
      (∀ x, outsOf s' x = outsOf s x ++
        (if x = (2 * a_index + a_value.toNat) ^^^ 1 then [2 * b_index + b_value.toNat]
          else []) ++
        (if x = (2 * b_index + b_value.toNat) ^^^ 1 then [2 * a_index + a_value.toNat]
          else [])) ∧
      (∀ x, insOf s' x = insOf s x ++
        (if x = 2 * b_index + b_value.toNat then [(2 * a_index + a_value.toNat) ^^^ 1]
          else []) ++
        (if x = 2 * a_index + a_value.toNat then [(2 * b_index + b_value.toNat) ^^^ 1]
          else [])) ∧
      (∀ x, visited s' x ↔ visited s x) ∧ cidOf s' = cidOf s := by
  have la := lit_lt a_value ha
  have lb := lit_lt b_value hb
  exact add_clause_spec s a_index a_value b_index b_value (hlen ▸ la) (hlen ▸ xor1_lt la)
    (hlen ▸ lb) (hlen ▸ xor1_lt lb)

/-- Instance of C8: `add_clause(0, true, 1, false)` on `TwoSat(2)`. -/
theorem add_clause_effect_witness :
    (create 2).nodes.length = 2 * (create 2).N ∧ 0 < (create 2).N ∧ 1 < (create 2).N ∧
    ∃ s', add_clause (create 2) 0 true 1 false = some s' ∧
      s'.N = (create 2).N ∧ s'.values = (create 2).values ∧ s'.comp = (create 2).comp ∧
      s'.st = (create 2).st ∧ s'.nodes.length = (create 2).nodes.length ∧
      (∀ x, outsOf s' x = outsOf (create 2) x ++
        (if x = (2 * 0 + true.toNat) ^^^ 1 then [2 * 1 + false.toNat] else []) ++
        (if x = (2 * 1 + false.toNat) ^^^ 1 then [2 * 0 + true.toNat] else [])) ∧
      (∀ x, insOf s' x = insOf (create 2) x ++
        (if x = 2 * 1 + false.toNat then [(2 * 0 + true.toNat) ^^^ 1] else []) ++
        (if x = 2 * 0 + true.toNat then [(2 * 1 + false.toNat) ^^^ 1] else [])) ∧
      (∀ x, visited s' x ↔ visited (create 2) x) ∧ cidOf s' = cidOf (create 2) :=
  ⟨by decide, by decide, by decide,
    add_clause_effect (create 2) 0 true 1 false (by decide) (by decide) (by decide)⟩

/-- C9 (variable creation keeps the size invariant). `TwoSat(n)` has `N == n`,
`n` values and `2n` edge-free nodes. After any construction calls with indices
in range `nodes.size() == 2*N` and `values.size() == N` hold, and a further
`add_var()` returns the old `N`, increases `N` by one, appends one value slot
and the two edge-free nodes `2*N` and `2*N+1`, and leaves the existing nodes
as they are, so the two equations hold again. -/
theorem sizes_invariant (n : Nat) (ops : List Op) (h : opsInRange n ops = true) :
    ((create n).N = n ∧ (create n).values.length = n ∧ (create n).nodes.length = 2 * n ∧
      ∀ m ∈ (create n).nodes, m.ins = [] ∧ m.outs = []) ∧
    ∃ s, build n ops = some s ∧ s.nodes.length = 2 * s.N ∧ s.values.length = s.N ∧
      (add_var s).1 = s.N ∧ (add_var s).2.N = s.N + 1 ∧
      (add_var s).2.values.length = s.values.length + 1 ∧
      (add_var s).2.nodes.length = s.nodes.length + 2 ∧
      (add_var s).2.nodes[2 * s.N]? = some Node.new ∧
      (add_var s).2.nodes[2 * s.N + 1]? = some Node.new ∧
      Node.new.ins = [] ∧ Node.new.outs = [] ∧
      (∀ x, x < 2 * s.N → (add_var s).2.nodes[x]? = s.nodes[x]?) ∧
      (add_var s).2.nodes.length = 2 * (add_var s).2.N ∧
      (add_var s).2.values.length = (add_var s).2.N := by
  refine ⟨⟨rfl, by simp [create], by simp [create], ?_⟩, ?_⟩
  · intro m hm
    simp only [create] at hm
    rw [List.eq_of_mem_replicate hm]
    exact ⟨rfl, rfl⟩
  · obtain ⟨s, hb, -, hB⟩ := build_spec n ops h
    have hlen := hB.hlen
    have hval := hB.hvalues
    have hnodes : (add_var s).2.nodes = s.nodes ++ ([Node.new] ++ [Node.new]) := by
      simp [add_var]
    refine ⟨s, hb, hlen, hval, rfl, rfl, by simp [add_var], by simp [add_var], ?_, ?_, rfl,
      rfl, ?_, ?_, ?_⟩
    · rw [hnodes, List.getElem?_append_right (by omega)]
      simp [hlen]
    · rw [hnodes, List.getElem?_append_right (by omega)]
      simp [hlen]
    · intro x hx
      rw [hnodes, List.getElem?_append_left (by omega)]
    · simp [add_var]; omega
    · simp [add_var]; omega

/-- Instance of C9: `add_var()` after a clause was added to `TwoSat(1)`. -/
theorem sizes_invariant_witness :
    opsInRange 1 [Op.set_value 0 true, Op.add_var, Op.add_clause 0 false 1 true] = true ∧
    (build 1 [Op.set_value 0 true, Op.add_var, Op.add_clause 0 false 1 true]).map
        (fun s => (s.N, s.values.length, s.nodes.length, (add_var s).1)) =
      some (2, 2, 4, 2) ∧
    (((create 1).N = 1 ∧ (create 1).values.length = 1 ∧ (create 1).nodes.length = 2 * 1 ∧
      ∀ m ∈ (create 1).nodes, m.ins = [] ∧ m.outs = []) ∧
    ∃ s, build 1 [Op.set_value 0 true, Op.add_var, Op.add_clause 0 false 1 true] = some s ∧
      s.nodes.length = 2 * s.N ∧ s.values.length = s.N ∧
      (add_var s).1 = s.N ∧ (add_var s).2.N = s.N + 1 ∧
      (add_var s).2.values.length = s.values.length + 1 ∧
      (add_var s).2.nodes.length = s.nodes.length + 2 ∧
      (add_var s).2.nodes[2 * s.N]? = some Node.new ∧
      (add_var s).2.nodes[2 * s.N + 1]? = some Node.new ∧
      Node.new.ins = [] ∧ Node.new.outs = [] ∧
      (∀ x, x < 2 * s.N → (add_var s).2.nodes[x]? = s.nodes[x]?) ∧
      (add_var s).2.nodes.length = 2 * (add_var s).2.N ∧
      (add_var s).2.values.length = (add_var s).2.N) :=
  ⟨by decide, by decide, sizes_invariant 1 _ (by decide)⟩

/-- C10 (the SCC decomposition is correct). After the two DFS passes of
`solve()` on a solver built with indices in range, every node `0..2N-1` has a
component id, occurs exactly once in the nodes of that component and in no
other component, and two nodes have the same id if and only if each is
reachable from the other along `outs` edges. The rest of `solve()` is the
resolution loop run on that state. -/
theorem decomposition_correct (n : Nat) (ops : List Op) (h : opsInRange n ops = true) :
    ∃ s t, build n ops = some s ∧ decompose s = some t ∧
      solve s = resolve (List.range t.comp.length) t ∧
      (∀ x, x < 2 * s.N → ∃ k c, cidOf t x = some k ∧ t.comp[k]? = some c ∧
        c.nodes.count x = 1 ∧
        ∀ (j : Nat) (c' : Comp), t.comp[j]? = some c' → x ∈ c'.nodes → j = k) ∧
      (∀ u v, u < 2 * s.N → v < 2 * s.N →
        (cidOf t u = cidOf t v ↔ Reach (outsOf s) u v ∧ Reach (outsOf s) v u)) := by
  obtain ⟨s, hb, -, hB⟩ := build_spec n ops h
  obtain ⟨t, ht, hd⟩ := decompose_spec s hB.ready
  refine ⟨s, t, hb, ht, by simp [solve, ht], ?_, fun u v hu hv => hd.hscc u v hu hv⟩
  intro x hx
  obtain ⟨k, hk, hklt⟩ := hd.hcid x hx
  obtain ⟨c, hc⟩ := getElem?_some_of_lt hklt
  obtain ⟨-, -, hnd, hmem⟩ := hd.hcomp k c hc
  refine ⟨k, c, hk, hc, List.count_eq_one_of_mem hnd ((hmem x).2 ⟨hx, hk⟩), ?_⟩
  intro j c' hc' hxc'
  have := ((hd.hcomp j c' hc').2.2.2 x).1 hxc'
  rw [hk] at this
  exact (Option.some.inj this.2).symm

/-- Instance of C10: `TwoSat(2)` with the clauses `¬x0 ∨ x1` and `¬x1 ∨ x0`;
the passes produce the components `{1, 3}` and `{0, 2}`. -/
theorem decomposition_correct_witness :
    opsInRange 2 [Op.add_clause 0 false 1 true, Op.add_clause 1 false 0 true] = true ∧
    ((build 2 [Op.add_clause 0 false 1 true, Op.add_clause 1 false 0 true]).bind
        decompose).map (fun t => (t.comp.map Comp.nodes, t.nodes.map Node.comp_id)) =
      some ([[1, 3], [0, 2]], [some 1, some 0, some 1, some 0]) ∧
    ∃ s t, build 2 [Op.add_clause 0 false 1 true, Op.add_clause 1 false 0 true] = some s ∧
      decompose s = some t ∧ solve s = resolve (List.range t.comp.length) t ∧
      (∀ x, x < 2 * s.N → ∃ k c, cidOf t x = some k ∧ t.comp[k]? = some c ∧
        c.nodes.count x = 1 ∧
        ∀ (j : Nat) (c' : Comp), t.comp[j]? = some c' → x ∈ c'.nodes → j = k) ∧
      (∀ u v, u < 2 * s.N → v < 2 * s.N →
        (cidOf t u = cidOf t v ↔ Reach (outsOf s) u v ∧ Reach (outsOf s) v u)) :=
  ⟨by decide, by decide, decomposition_correct 2 _ (by decide)⟩

/-! ## Properties of the decomposition and of the resolution loop -/

/-- Everything the later properties need about a solver built with indices in
range: the construction invariant, the decomposed state and the outcome of
`solve`. -/
theorem build_solve_spec (n : Nat) (ops : List Op) (h : opsInRange n ops = true) :
    ∃ s t b s', build n ops = some s ∧ Built (submitted n ops) s ∧
      decompose s = some t ∧ Decomposed s t ∧ solve s = some (b, s') ∧
      s'.nodes = t.nodes ∧ s'.N = s.N ∧ s'.values.length = s.N ∧
      (b = false ↔ ∃ x, x < 2 * s.N ∧ cidN t x = cidN t (x ^^^ 1)) ∧
      (b = true → ∀ x, x < 2 * s.N → cidN t x < cidN t (x ^^^ 1) →
        s'.values[x / 2]? = some (if x % 2 = 0 then 1 else 0)) := by
  obtain ⟨s, hb, -, hB⟩ := build_spec n ops h
  obtain ⟨t, b, s', h1, h2, h3, h4, h5, h6, h7, h8⟩ := solve_spec s hB.ready hB.skew
  exact ⟨s, t, b, s', hb, hB, h1, h2, h3, h4, h5, h6, h7, h8⟩

/-- Two nodes share a component exactly when their complements do. -/
theorem Decomposed.cid_compl {s t : TwoSat} (hd : Decomposed s t) (hskew : Skew s)
    {x y : Nat} (hx : x < 2 * s.N) (hy : y < 2 * s.N) :
    cidOf t x = cidOf t y ↔ cidOf t (x ^^^ 1) = cidOf t (y ^^^ 1) := by
  rw [hd.hscc x y hx hy, hd.hscc _ _ (xor1_lt hx) (xor1_lt hy)]
  constructor
  · intro h; exact h.scc_compl hskew
  · intro h
    have := h.scc_compl hskew
    rwa [xor1_xor1, xor1_xor1] at this

theorem xor1_even (i : Nat) : (2 * i) ^^^ 1 = 2 * i + 1 := by
  rw [xor1_eq]; split <;> omega

theorem xor1_odd (i : Nat) : (2 * i + 1) ^^^ 1 = 2 * i := by
  rw [xor1_eq]; split <;> omega

/-- Some node shares its component with its complement exactly when some
variable has both literal nodes in one component. -/
theorem exists_self_compl_iff {s t : TwoSat} :
    (∃ x, x < 2 * s.N ∧ cidN t x = cidN t (x ^^^ 1)) ↔
      ∃ i, i < s.N ∧ cidN t (2 * i) = cidN t (2 * i + 1) := by
  constructor
  · rintro ⟨x, hx, hc⟩
    refine ⟨x / 2, by omega, ?_⟩
    rcases Nat.mod_two_eq_zero_or_one x with h | h
    · have e : x = 2 * (x / 2) := by omega
      rw [e, xor1_even] at hc
      exact hc
    · have e : x = 2 * (x / 2) + 1 := by omega
      rw [e, xor1_odd] at hc
      exact hc.symm
  · rintro ⟨i, hi, hc⟩
    exact ⟨2 * i, by omega, by rw [xor1_even]; exact hc⟩

/-- C11, as stated, fails: on `TwoSat(1)` with `set_value(0, true)` the graph
has the edge `0 → 1`, and the two passes give `comp_id[0] = 0` and
`comp_id[1] = 1`; the component of the target is created after the component
of the source, not before it. -/
theorem creation_order_counterexample :
    ((build 1 [Op.set_value 0 true]).bind fun s =>
      (decompose s).map fun t => (decide (1 ∈ outsOf s 0), cidOf t 0, cidOf t 1)) =
        some (true, some 0, some 1) ∧
    ¬ ∀ s t, build 1 [Op.set_value 0 true] = some s → decompose s = some t →
        ∀ u v, v ∈ outsOf s u → cidOf t u ≠ cidOf t v → cidN t v < cidN t u := by
  refine ⟨by decide, fun hall => ?_⟩
  have hs : build 1 [Op.set_value 0 true] =
      some ((build 1 [Op.set_value 0 true]).get (by decide)) := by simp
  have ht : decompose ((build 1 [Op.set_value 0 true]).get (by decide)) =
      some ((decompose ((build 1 [Op.set_value 0 true]).get (by decide))).get (by decide)) := by
    simp
  have := hall _ _ hs ht 0 1 (by decide) (by decide)
  revert this
  decide

/-- C11 as amended: the creation order of the components is a topological
order of the condensation of the implication graph. For every edge `u → v`
whose ends lie in different components, the component of `u` is created before
the component of `v` (`comp_id[u] < comp_id[v]`). -/
theorem creation_order_topological (n : Nat) (ops : List Op)
    (h : opsInRange n ops = true) :
    ∃ s t, build n ops = some s ∧ decompose s = some t ∧
      ∀ u v, v ∈ outsOf s u → cidOf t u ≠ cidOf t v →
        ∃ ku kv, cidOf t u = some ku ∧ cidOf t v = some kv ∧ ku < kv := by
  obtain ⟨s, t, -, -, hb, -, ht, hd, -⟩ := build_solve_spec n ops h
  refine ⟨s, t, hb, ht, ?_⟩
  intro u v huv hne
  obtain ⟨ku, kv, h1, h2, h3⟩ := hd.hedge u v huv
  refine ⟨ku, kv, h1, h2, lt_of_le_of_ne h3 ?_⟩
  intro he
  exact hne (by rw [h1, h2, he])

/-- Instance of the amended C11: the chain `x0 → x1 → x2` on `TwoSat(3)`; the
ids grow along the edges `1 → 3 → 5` and `4 → 2 → 0`. -/
theorem creation_order_topological_witness :
    opsInRange 3 [Op.add_clause 0 false 1 true, Op.add_clause 1 false 2 true] = true ∧
    ((build 3 [Op.add_clause 0 false 1 true, Op.add_clause 1 false 2 true]).bind
        decompose).map (fun t => t.nodes.map Node.comp_id) =
      some [some 5, some 2, some 1, some 3, some 0, some 4] ∧
    ∃ s t, build 3 [Op.add_clause 0 false 1 true, Op.add_clause 1 false 2 true] = some s ∧
      decompose s = some t ∧
      ∀ u v, v ∈ outsOf s u → cidOf t u ≠ cidOf t v →
        ∃ ku kv, cidOf t u = some ku ∧ cidOf t v = some kv ∧ ku < kv :=
  ⟨by decide, by decide, creation_order_topological 3 _ (by decide)⟩

/-- C12 (unsatisfiability criterion). `solve()` returns false if and only if
some variable `i < N` has its two literal nodes `2i` and `2i+1` in the same
component, that is, mutually reachable in the implication graph; the test of
the complement of the first node of each unselected component finds every
such variable. -/
theorem unsat_criterion (n : Nat) (ops : List Op) (h : opsInRange n ops = true) :
    ∃ s t b s', build n ops = some s ∧ decompose s = some t ∧ solve s = some (b, s') ∧
      (b = false ↔ ∃ i, i < s.N ∧ cidOf t (2 * i) = cidOf t (2 * i + 1)) ∧
      (∀ i, i < s.N →
        (cidOf t (2 * i) = cidOf t (2 * i + 1) ↔ SCC (outsOf s) (2 * i) (2 * i + 1))) := by
  obtain ⟨s, t, b, s', hb, -, ht, hd, hs, -, -, -, hfalse, -⟩ := build_solve_spec n ops h
  refine ⟨s, t, b, s', hb, ht, hs, ?_, fun i hi => hd.hscc _ _ (by omega) (by omega)⟩
  rw [hfalse, exists_self_compl_iff]
  constructor
  · rintro ⟨i, hi, hc⟩
    refine ⟨i, hi, ?_⟩
    rw [(hd.cid_eq (x := 2 * i) (by omega)).1, (hd.cid_eq (x := 2 * i + 1) (by omega)).1, hc]
  · rintro ⟨i, hi, hc⟩
    refine ⟨i, hi, ?_⟩
    simp only [cidN, hc]

/-- Instance of C12: `set_value(0, true)` and `set_value(0, false)` on
`TwoSat(1)` put the nodes 0 and 1 in one component, and `solve()` returns
false. -/
theorem unsat_criterion_witness :
    opsInRange 1 [Op.set_value 0 true, Op.set_value 0 false] = true ∧
    ((build 1 [Op.set_value 0 true, Op.set_value 0 false]).bind fun s =>
      (decompose s).map fun t => (cidOf t 0, cidOf t 1, (solve s).map Prod.fst)) =
        some (some 0, some 0, some false) ∧
    ∃ s t b s', build 1 [Op.set_value 0 true, Op.set_value 0 false] = some s ∧
      decompose s = some t ∧ solve s = some (b, s') ∧
      (b = false ↔ ∃ i, i < s.N ∧ cidOf t (2 * i) = cidOf t (2 * i + 1)) ∧
      (∀ i, i < s.N →
        (cidOf t (2 * i) = cidOf t (2 * i + 1) ↔ SCC (outsOf s) (2 * i) (2 * i + 1))) :=
  ⟨by decide, by decide, unsat_criterion 1 _ (by decide)⟩

/-- C13 (assignment rule). When `solve()` returns true, for every variable
`i < N` the literal whose component was created earlier is made false:
`values[i] == 1` if and only if `comp_id[2i] < comp_id[2i+1]`, and
`values[i] == 0` if and only if `comp_id[2i+1] < comp_id[2i]`. -/
theorem assignment_rule (n : Nat) (ops : List Op) (h : opsInRange n ops = true) :
    ∃ s t b s', build n ops = some s ∧ decompose s = some t ∧ solve s = some (b, s') ∧
      (b = true → ∀ i, i < s.N →
        ∃ k0 k1, cidOf t (2 * i) = some k0 ∧ cidOf t (2 * i + 1) = some k1 ∧
          (s'.values[i]? = some 1 ↔ k0 < k1) ∧ (s'.values[i]? = some 0 ↔ k1 < k0)) := by
  obtain ⟨s, t, b, s', hb, -, ht, hd, hs, -, -, -, hfalse, htrue⟩ := build_solve_spec n ops h
  refine ⟨s, t, b, s', hb, ht, hs, ?_⟩
  intro hbt i hi
  have e0 := (hd.cid_eq (x := 2 * i) (by omega)).1
  have e1 := (hd.cid_eq (x := 2 * i + 1) (by omega)).1
  refine ⟨cidN t (2 * i), cidN t (2 * i + 1), e0, e1, ?_⟩
  have hne : cidN t (2 * i) ≠ cidN t (2 * i + 1) := by
    intro hc
    have := hfalse.2 ⟨2 * i, by omega, by rw [xor1_even]; exact hc⟩
    rw [hbt] at this
    cases this
  have h0 := htrue hbt (2 * i) (by omega)
  have h1 := htrue hbt (2 * i + 1) (by omega)
  rw [xor1_even] at h0
  rw [xor1_odd] at h1
  have d0 : 2 * i / 2 = i := by omega
  have d1 : (2 * i + 1) / 2 = i := by omega
  have m0 : 2 * i % 2 = 0 := by omega
  have m1 : ¬ (2 * i + 1) % 2 = 0 := by omega
  rw [d0, if_pos m0] at h0
  rw [d1, if_neg m1] at h1
  rcases Nat.lt_or_gt_of_ne hne with hlt | hlt
  · have hv := h0 hlt
    rw [hv]
    constructor
    · constructor
      · intro _; exact hlt
      · intro _; rfl
    · constructor
      · intro hc; cases hc
      · intro hc; omega
  · have hv := h1 hlt
    rw [hv]
    constructor
    · constructor
      · intro hc; cases hc
      · intro hc; omega
    · constructor
      · intro _; exact hlt
      · intro _; rfl

/-- Instance of C13: `TwoSat(2)` with `x0 ∨ x1` and `¬x0 ∨ x1`; the ids are
`2, 1, 0, 3` and the values `0, 1`. -/
theorem assignment_rule_witness :
    opsInRange 2 [Op.add_clause 0 true 1 true, Op.add_clause 0 false 1 true] = true ∧
    ((build 2 [Op.add_clause 0 true 1 true, Op.add_clause 0 false 1 true]).bind solve).map
        (fun r => (r.1, r.2.values, r.2.nodes.map Node.comp_id)) =
      some (true, [0, 1], [some 2, some 1, some 0, some 3]) ∧
    ∃ s t b s', build 2 [Op.add_clause 0 true 1 true, Op.add_clause 0 false 1 true] = some s ∧
      decompose s = some t ∧ solve s = some (b, s') ∧
      (b = true → ∀ i, i < s.N →
        ∃ k0 k1, cidOf t (2 * i) = some k0 ∧ cidOf t (2 * i + 1) = some k1 ∧
          (s'.values[i]? = some 1 ↔ k0 < k1) ∧ (s'.values[i]? = some 0 ↔ k1 < k0)) :=
  ⟨by decide, by decide, assignment_rule 2 _ (by decide)⟩

/-- C16 (components are closed under complement). After the decomposition two
nodes have the same component id if and only if their complements have. Hence
for a component `d` the component `c` of the complement of a node of `d` is
the same for every node of `d`, and its nodes are exactly the complements of
the nodes of `d`. -/
theorem complement_closed (n : Nat) (ops : List Op) (h : opsInRange n ops = true) :
    ∃ s t, build n ops = some s ∧ decompose s = some t ∧
      (∀ x y, x < 2 * s.N → y < 2 * s.N →
        (cidOf t x = cidOf t y ↔ cidOf t (x ^^^ 1) = cidOf t (y ^^^ 1))) ∧
      (∀ (k : Nat) (d : Comp) (x : Nat), t.comp[k]? = some d → x ∈ d.nodes →
        ∃ kc c, cidOf t (x ^^^ 1) = some kc ∧ t.comp[kc]? = some c ∧
          (∀ z ∈ d.nodes, cidOf t (z ^^^ 1) = some kc) ∧
          (∀ y, y ∈ c.nodes ↔ (y ^^^ 1) ∈ d.nodes)) := by
  obtain ⟨s, t, -, -, hb, hB, ht, hd, -⟩ := build_solve_spec n ops h
  refine ⟨s, t, hb, ht, fun x y hx hy => hd.cid_compl hB.skew hx hy, ?_⟩
  intro k d x hk hx
  have hdm := (hd.hcomp k d hk).2.2.2
  obtain ⟨hxlt, hxk⟩ := (hdm x).1 hx
  obtain ⟨kc, hkc, hkclt⟩ := hd.hcid (x ^^^ 1) (xor1_lt hxlt)
  obtain ⟨c, hc⟩ := getElem?_some_of_lt hkclt
  have hcm := (hd.hcomp kc c hc).2.2.2
  refine ⟨kc, c, hkc, hc, ?_, ?_⟩
  · intro z hz
    obtain ⟨hzlt, hzk⟩ := (hdm z).1 hz
    rw [← hkc]
    exact (hd.cid_compl hB.skew hzlt hxlt).1 (by rw [hzk, hxk])
  · intro y
    rw [hcm y, hdm (y ^^^ 1), xor1_lt_iff]
    constructor
    · rintro ⟨hy, hyk⟩
      refine ⟨hy, ?_⟩
      have := (hd.cid_compl hB.skew hy (xor1_lt hxlt)).1 (by rw [hyk, hkc])
      rw [xor1_xor1] at this
      rw [this, hxk]
    · rintro ⟨hy, hyk⟩
      refine ⟨hy, ?_⟩
      have := (hd.cid_compl hB.skew (xor1_lt hy) hxlt).1 (by rw [hyk, hxk])
      rw [xor1_xor1] at this
      rw [this, hkc]

/-- Instance of C16: `TwoSat(2)` with `¬x0 ∨ x1` and `¬x1 ∨ x0`; the components
`{1, 3}` and `{0, 2}` are complements of each other. -/
theorem complement_closed_witness :
    opsInRange 2 [Op.add_clause 0 false 1 true, Op.add_clause 1 false 0 true] = true ∧
    ((build 2 [Op.add_clause 0 false 1 true, Op.add_clause 1 false 0 true]).bind
        decompose).map (fun t => t.comp.map Comp.nodes) = some [[1, 3], [0, 2]] ∧
    ∃ s t, build 2 [Op.add_clause 0 false 1 true, Op.add_clause 1 false 0 true] = some s ∧
      decompose s = some t ∧
      (∀ x y, x < 2 * s.N → y < 2 * s.N →
        (cidOf t x = cidOf t y ↔ cidOf t (x ^^^ 1) = cidOf t (y ^^^ 1))) ∧
      (∀ (k : Nat) (d : Comp) (x : Nat), t.comp[k]? = some d → x ∈ d.nodes →
        ∃ kc c, cidOf t (x ^^^ 1) = some kc ∧ t.comp[kc]? = some c ∧
          (∀ z ∈ d.nodes, cidOf t (z ^^^ 1) = some kc) ∧
          (∀ y, y ∈ c.nodes ↔ (y ^^^ 1) ∈ d.nodes)) :=
  ⟨by decide, by decide, complement_closed 2 _ (by decide)⟩

/-- C18 (component ids are monotone along implications). After the
decomposition every edge `u → v` has `comp_id[u] <= comp_id[v]`: components
are created sources first with respect to the `outs` edges. -/
theorem comp_id_monotone (n : Nat) (ops : List Op) (h : opsInRange n ops = true) :
    ∃ s t, build n ops = some s ∧ decompose s = some t ∧
      ∀ u v, v ∈ outsOf s u →
        ∃ ku kv, cidOf t u = some ku ∧ cidOf t v = some kv ∧ ku ≤ kv := by
  obtain ⟨s, t, -, -, hb, -, ht, hd, -⟩ := build_solve_spec n ops h
  exact ⟨s, t, hb, ht, fun u v huv => hd.hedge u v huv⟩

/-- Instance of C18: the cycle `x0 → x1 → x0` with the further edge `x1 → x2`
on `TwoSat(3)`. -/
theorem comp_id_monotone_witness :
    opsInRange 3 [Op.add_clause 0 false 1 true, Op.add_clause 1 false 0 true,
      Op.add_clause 1 false 2 true] = true ∧
    ∃ s t, build 3 [Op.add_clause 0 false 1 true, Op.add_clause 1 false 0 true,
        Op.add_clause 1 false 2 true] = some s ∧ decompose s = some t ∧
      ∀ u v, v ∈ outsOf s u →
        ∃ ku kv, cidOf t u = some ku ∧ cidOf t v = some kv ∧ ku ≤ kv :=
  ⟨by decide, comp_id_monotone 3 _ (by decide)⟩

/-! ## Invariants of the construction phase, by induction over the calls -/

theorem at_most_one_loop_preserves (P : TwoSat → Prop)
    (hvar : ∀ s, P s → P (add_var s).2)
    (hcl : ∀ s a av b bv s', s.nodes.length = 2 * s.N → a < s.N → b < s.N →
      add_clause s a av b bv = some s' → P s → P s') (val : Bool) :
    ∀ (xs : List Nat) (cur : Nat) (s : TwoSat) (cs : List Clause), Built cs s → cur < s.N →
      (∀ x ∈ xs, x < s.N) → P s →
      ∀ r, at_most_one_loop val xs cur s = some r → P r.2 := by
  intro xs
  induction xs with
  | nil =>
    intro cur s cs _ _ _ hP r hr
    simp only [at_most_one_loop, Option.some.injEq] at hr
    subst hr
    exact hP
  | cons x xs ih =>
    intro cur s cs h hcur hxs hP r hr
    have hx : x < s.N := hxs x (List.mem_cons_self _ _)
    have hN1 : (add_var s).2.N = s.N + 1 := rfl
    have b1 := h.of_add_var
    have p1 := hvar s hP
    obtain ⟨s2, e2, n2, b2⟩ :=
      b1.of_add_clause (!val) (!val) (a := cur) (b := x) (by omega) (by omega)
    have p2 := hcl _ _ _ _ _ _ b1.hlen (by omega) (by omega) e2 p1
    obtain ⟨s3, e3, n3, b3⟩ :=
      b2.of_add_clause (!val) val (a := cur) (b := s.N) (by omega) (by omega)
    have p3 := hcl _ _ _ _ _ _ b2.hlen (by omega) (by omega) e3 p2
    obtain ⟨s4, e4, n4, b4⟩ :=
      b3.of_add_clause (!val) val (a := x) (b := s.N) (by omega) (by omega)
    have p4 := hcl _ _ _ _ _ _ b3.hlen (by omega) (by omega) e4 p3
    have hN4 : s4.N = s.N + 1 := by omega
    have e2' : add_clause (add_var s).2 cur (!val) x (!val) = some s2 := e2
    have e3' : add_clause s2 cur (!val) (add_var s).1 val = some s3 := e3
    have e4' : add_clause s3 x (!val) (add_var s).1 val = some s4 := e4
    simp only [at_most_one_loop, e2', e3', e4', Option.bind] at hr
    exact ih s.N s4 _ b4 (by omega)
      (fun y hy => by have := hxs y (List.mem_cons_of_mem _ hy); omega) p4 r hr

theorem apply_preserves (P : TwoSat → Prop)
    (hvar : ∀ s, P s → P (add_var s).2)
    (hcl : ∀ s a av b bv s', s.nodes.length = 2 * s.N → a < s.N → b < s.N →
      add_clause s a av b bv = some s' → P s → P s')
    {cs : List Clause} {s : TwoSat} (h : Built cs s) (hP : P s) (op : Op)
    (hr : op.inRange s.N = true) : ∀ s', op.apply s = some s' → P s' := by
  intro s' hs'
  cases op with
  | add_var =>
    simp only [Op.apply, Option.some.injEq] at hs'
    subst hs'
    exact hvar s hP
  | add_clause a av b bv =>
    simp only [Op.inRange, Bool.and_eq_true, decide_eq_true_eq] at hr
    exact hcl _ _ _ _ _ _ h.hlen hr.1 hr.2 hs' hP
  | set_value i v =>
    simp only [Op.inRange, decide_eq_true_eq] at hr
    exact hcl _ _ _ _ _ _ h.hlen hr hr hs' hP
  | at_most_one li val =>
    simp only [Op.inRange, List.all_eq_true, decide_eq_true_eq] at hr
    match li, hr, hs' with
    | [], _, hs' =>
      simp only [Op.apply, at_most_one, Option.some.injEq] at hs'
      subst hs'; exact hP
    | [_], _, hs' =>
      simp only [Op.apply, at_most_one, Option.some.injEq] at hs'
      subst hs'; exact hP
    | l0 :: l1 :: rest, hr, hs' =>
      have h0 : l0 < s.N := hr l0 (by simp)
      have h1 : l1 < s.N := hr l1 (by simp)
      obtain ⟨r, e1, -, lt1, n1, b1⟩ := at_most_one_loop_spec val rest l0 s cs h h0
        (fun x hx => hr x (by simp [hx]))
      have p1 := at_most_one_loop_preserves P hvar hcl val rest l0 s cs h h0
        (fun x hx => hr x (by simp [hx])) hP r e1
      simp only [Op.apply, at_most_one, e1, Option.bind] at hs'
      exact hcl _ _ _ _ _ _ b1.hlen lt1 (by omega) hs' p1

/-- A property kept by `add_var` and by every `add_clause` with indices in
range holds after every sequence of construction calls with indices in
range. -/
theorem run_preserves (P : TwoSat → Prop)
    (hvar : ∀ s, P s → P (add_var s).2)
    (hcl : ∀ s a av b bv s', s.nodes.length = 2 * s.N → a < s.N → b < s.N →
      add_clause s a av b bv = some s' → P s → P s') :
    ∀ (ops : List Op) (s : TwoSat) (cs : List Clause), Built cs s → P s →
      opsInRange s.N ops = true → ∀ s', run ops s = some s' → P s' := by
  intro ops
  induction ops with
  | nil =>
    intro s cs _ hP _ s' hs'
    simp only [run, loopM, Option.some.injEq] at hs'
    subst hs'; exact hP
  | cons op ops ih =>
    intro s cs h hP hr s' hs'
    simp only [opsInRange, Bool.and_eq_true] at hr
    obtain ⟨s1, e1, n1, b1⟩ := Op.apply_spec h op hr.1
    have p1 := apply_preserves P hvar hcl h hP op hr.1 s1 e1
    simp only [run, loopM, e1] at hs'
    exact ih s1 _ b1 p1 (n1 ▸ hr.2) s' hs'

theorem xor1_inj {x y : Nat} : x ^^^ 1 = y ^^^ 1 ↔ x = y := by
  constructor
  · intro h
    have := congrArg (fun z => z ^^^ 1) h
    simpa [xor1_xor1] using this
  · intro h; rw [h]

theorem xor1_eq_iff {x y : Nat} : x ^^^ 1 = y ↔ x = y ^^^ 1 := by
  constructor
  · intro h; rw [← h, xor1_xor1]
  · intro h; rw [h, xor1_xor1]

theorem count_ite_singleton (c : Prop) [Decidable c] (B v : Nat) :
    (if c then [B] else []).count v = if c ∧ B = v then 1 else 0 := by
  by_cases hc : c <;> by_cases hb : B = v <;> simp [hc, hb, List.count_cons]

theorem create_mirror (n : Nat) : Mirror (create n) := by
  intro u v
  rw [create_outs]
  simp

theorem create_insMirror (n : Nat) : InsMirror (create n) := by
  intro u v
  rw [create_outs, create_ins]
  simp

theorem add_clause_mirror (s : TwoSat) (a : Nat) (av : Bool) (b : Nat) (bv : Bool)
    (s' : TwoSat) (hlen : s.nodes.length = 2 * s.N) (ha : a < s.N) (hb : b < s.N)
    (hs' : add_clause s a av b bv = some s') (hP : Mirror s) : Mirror s' := by
  have la := lit_lt av ha
  have lb := lit_lt bv hb
  obtain ⟨t, h1, -, -, -, -, -, h7, -⟩ :=
    add_clause_spec s a av b bv (hlen ▸ la) (hlen ▸ xor1_lt la) (hlen ▸ lb)
      (hlen ▸ xor1_lt lb)
  rw [hs'] at h1
  cases h1
  intro u v
  rw [h7 u, h7 (v ^^^ 1)]
  have c1 : (v ^^^ 1 = lit a av ^^^ 1 ∧ lit b bv = u ^^^ 1) ↔
      (u = lit b bv ^^^ 1 ∧ lit a av = v) := by
    rw [xor1_inj, eq_comm (a := lit b bv), xor1_eq_iff, eq_comm (a := v)]
    exact and_comm
  have c2 : (v ^^^ 1 = lit b bv ^^^ 1 ∧ lit a av = u ^^^ 1) ↔
      (u = lit a av ^^^ 1 ∧ lit b bv = v) := by
    rw [xor1_inj, eq_comm (a := lit a av), xor1_eq_iff, eq_comm (a := v)]
    exact and_comm
  simp only [List.count_append, count_ite_singleton, hP u v, c1, c2]
  omega

theorem add_clause_insMirror (s : TwoSat) (a : Nat) (av : Bool) (b : Nat) (bv : Bool)
    (s' : TwoSat) (hlen : s.nodes.length = 2 * s.N) (ha : a < s.N) (hb : b < s.N)
    (hs' : add_clause s a av b bv = some s') (hP : InsMirror s) : InsMirror s' := by
  have la := lit_lt av ha
  have lb := lit_lt bv hb
  obtain ⟨t, h1, -, -, -, -, -, h7, h8, -⟩ :=
    add_clause_spec s a av b bv (hlen ▸ la) (hlen ▸ xor1_lt la) (hlen ▸ lb)
      (hlen ▸ xor1_lt lb)
  rw [hs'] at h1
  cases h1
  intro u v
  rw [h7 u, h8 v]
  have c1 : (v = lit b bv ∧ lit a av ^^^ 1 = u) ↔ (u = lit a av ^^^ 1 ∧ lit b bv = v) := by
    rw [eq_comm (a := v), eq_comm (a := u)]
    exact and_comm
  have c2 : (v = lit a av ∧ lit b bv ^^^ 1 = u) ↔ (u = lit b bv ^^^ 1 ∧ lit a av = v) := by
    rw [eq_comm (a := v), eq_comm (a := u)]
    exact and_comm
  simp only [List.count_append, count_ite_singleton, hP u v, c1, c2]

theorem build_mirror (n : Nat) (ops : List Op) (h : opsInRange n ops = true) :
    ∃ s, build n ops = some s ∧ Mirror s ∧ InsMirror s := by
  obtain ⟨s, hb, -, -⟩ := build_spec n ops h
  refine ⟨s, hb, ?_, ?_⟩
  · refine run_preserves Mirror ?_ add_clause_mirror ops (create n) [] (Built.of_create n)
      (create_mirror n) h s hb
    intro t ht u v
    rw [(add_var_views t).1]
    exact ht u v
  · refine run_preserves InsMirror ?_ add_clause_insMirror ops (create n) []
      (Built.of_create n) (create_insMirror n) h s hb
    intro t ht u v
    rw [(add_var_views t).1, (add_var_views t).2.1]
    exact ht u v

/-- C14 (contrapositive-pair invariant). In every state reached from
`TwoSat(n)` by construction calls with indices in range, the number of
occurrences of `v` in the outs of `u` equals the number of occurrences of
`u^1` in the outs of `v^1`; so the edge `u → v` exists if and only if the edge
`v^1 → u^1` exists. -/
theorem contrapositive_pairs (n : Nat) (ops : List Op) (h : opsInRange n ops = true) :
    ∃ s, build n ops = some s ∧
      (∀ u v, (outsOf s u).count v = (outsOf s (v ^^^ 1)).count (u ^^^ 1)) ∧
      (∀ u v, v ∈ outsOf s u ↔ (u ^^^ 1) ∈ outsOf s (v ^^^ 1)) := by
  obtain ⟨s, hb, hm, -⟩ := build_mirror n ops h
  refine ⟨s, hb, hm, fun u v => ?_⟩
  rw [← List.count_pos_iff, ← List.count_pos_iff, hm u v]

/-- Instance of C14: `TwoSat(2)` with `set_value(0, true)`, which stores the
edge `0 → 1` twice, and the clause `x0 ∨ ¬x1`. -/
theorem contrapositive_pairs_witness :
    opsInRange 2 [Op.set_value 0 true, Op.add_clause 0 true 1 false] = true ∧
    (build 2 [Op.set_value 0 true, Op.add_clause 0 true 1 false]).map
        (fun s => s.nodes.map Node.outs) = some [[1, 1, 2], [], [], [1]] ∧
    ∃ s, build 2 [Op.set_value 0 true, Op.add_clause 0 true 1 false] = some s ∧
      (∀ u v, (outsOf s u).count v = (outsOf s (v ^^^ 1)).count (u ^^^ 1)) ∧
      (∀ u v, v ∈ outsOf s u ↔ (u ^^^ 1) ∈ outsOf s (v ^^^ 1)) :=
  ⟨by decide, by decide, contrapositive_pairs 2 _ (by decide)⟩

/-- C15 (forward and reverse adjacency agree). In every state reached from
`TwoSat(n)` by construction calls with indices in range, the number of
occurrences of `v` in `nodes[u].outs` equals the number of occurrences of `u`
in `nodes[v].ins`; the ins lists are the reverse of the graph of the outs
lists. -/
theorem ins_mirror_outs (n : Nat) (ops : List Op) (h : opsInRange n ops = true) :
    ∃ s, build n ops = some s ∧
      (∀ u v, (outsOf s u).count v = (insOf s v).count u) ∧
      (∀ u v, v ∈ outsOf s u ↔ u ∈ insOf s v) := by
  obtain ⟨s, hb, -, hm⟩ := build_mirror n ops h
  refine ⟨s, hb, hm, fun u v => ?_⟩
  rw [← List.count_pos_iff, ← List.count_pos_iff, hm u v]

/-- Instance of C15: the same solver as for C14. -/
theorem ins_mirror_outs_witness :
    opsInRange 2 [Op.set_value 0 true, Op.add_clause 0 true 1 false] = true ∧
    (build 2 [Op.set_value 0 true, Op.add_clause 0 true 1 false]).map
        (fun s => (s.nodes.map Node.outs, s.nodes.map Node.ins)) =
      some ([[1, 1, 2], [], [], [1]], [[], [0, 0, 3], [0], []]) ∧
    ∃ s, build 2 [Op.set_value 0 true, Op.add_clause 0 true 1 false] = some s ∧
      (∀ u v, (outsOf s u).count v = (insOf s v).count u) ∧
      (∀ u v, v ∈ outsOf s u ↔ u ∈ insOf s v) :=
  ⟨by decide, by decide, ins_mirror_outs 2 _ (by decide)⟩

/-! ## Safety and termination -/

/-- Pass 1 on a ready solver runs to completion and leaves every node on the
stack exactly once, with the finish-order property. -/
theorem pass1_spec (s : TwoSat) (h : Ready s) :
    ∃ s1, pass1 s = some s1 ∧ Ext1 s1.st s s1 ∧ s1.st.Nodup ∧
      (∀ x, x ∈ s1.st ↔ x < 2 * s.N) ∧ WStack (outsOf s) s1.st := by
  obtain ⟨s1, L0, hp1, hext1, hall1, hinv1, -⟩ :=
    loop1_spec (dfs1_spec (outsOf s) (s.nodes.length + 1)) (List.range (2 * s.N)) s
      (fun e he => by rw [h.hlen]; exact List.mem_range.1 he) rfl h.hout (by
        have := unvis_le s; omega)
      ⟨by simp [h.hst], by simp [h.hst], by
        rw [h.hst]; intro x hx; simp at hx⟩
  have hst1 : s1.st = L0 := by rw [hext1.hst, h.hst]; simp
  have hvis1 : ∀ x, visited s1 x ↔ x ∈ L0 := by
    intro x
    rw [hext1.hvis]
    constructor
    · rintro (hx | hx)
      · exact absurd hx (h.hvis x)
      · exact hx
    · exact Or.inr
  refine ⟨s1, hp1, hst1 ▸ hext1, hst1 ▸ hext1.hnodup, ?_, hinv1.2.2⟩
  intro x
  rw [hst1]
  constructor
  · intro hx
    have := visited_lt ((hvis1 x).2 hx)
    rwa [hext1.hlen, h.hlen] at this
  · intro hx
    exact (hvis1 x).1 (hall1 x (List.mem_range.2 hx))

theorem decompose_eq (s : TwoSat) :
    decompose s = (pass1 s).bind fun s1 =>
      (loopM reset_vis (List.range (2 * s1.N)) s1).bind fun s2 =>
        pass2 (s2.nodes.length + 1) (s2.st.length + 1) s2 := rfl

theorem Built.in_lt {cs : List Clause} {s : TwoSat} (h : Built cs s) {u v : Nat}
    (huv : v ∈ insOf s u) : u < 2 * s.N ∧ v < 2 * s.N := by
  have := h.out_lt ((h.hagree v u).1 huv)
  exact ⟨this.2, this.1⟩

/-- C19 (`solve()` is index-safe under the caller precondition). If every
variable index passed to the construction calls was below `N` at the time of
the call, then every edge end stored in `ins`/`outs` is below
`2N = nodes.size()`, and `solve()` runs without an out-of-range access (the
model returns `none` on any such access): every component created in pass 2
is non-empty, every node has a component id below `comp.size()` before the
resolution loop, and every write `values[e/2]` has `e/2 < N = values.size()`. -/
theorem index_safe (n : Nat) (ops : List Op) (h : opsInRange n ops = true) :
    ∃ s t b s', build n ops = some s ∧ s.nodes.length = 2 * s.N ∧
      (∀ u v, v ∈ outsOf s u → u < 2 * s.N ∧ v < 2 * s.N) ∧
      (∀ u v, v ∈ insOf s u → u < 2 * s.N ∧ v < 2 * s.N) ∧
      decompose s = some t ∧ solve s = some (b, s') ∧
      t.nodes.length = 2 * s.N ∧ t.values.length = s.N ∧
      (∀ (k : Nat) (c : Comp), t.comp[k]? = some c →
        c.nodes ≠ [] ∧ ∀ e ∈ c.nodes, e < 2 * s.N ∧ e / 2 < s.N) ∧
      (∀ x, x < 2 * s.N → ∃ k, cidOf t x = some k ∧ k < t.comp.length) := by
  obtain ⟨s, t, b, s', hb, hB, ht, hd, hs, -⟩ := build_solve_spec n ops h
  refine ⟨s, t, b, s', hb, hB.hlen, fun u v huv => hB.out_lt huv,
    fun u v huv => hB.in_lt huv, ht, hs, by rw [hd.hlen, hB.hlen],
    by rw [hd.hvalues, hB.hvalues], ?_, hd.hcid⟩
  intro k c hk
  obtain ⟨-, h2, -, h4⟩ := hd.hcomp k c hk
  refine ⟨h2, fun e he => ?_⟩
  have := ((h4 e).1 he).1
  exact ⟨this, by omega⟩

/-- Instance of C19: `at_most_one([0,1,2])` with `set_value(1, true)` on
`TwoSat(3)`; `solve()` returns. -/
theorem index_safe_witness :
    opsInRange 3 [Op.at_most_one [0, 1, 2] true, Op.set_value 1 true] = true ∧
    ((build 3 [Op.at_most_one [0, 1, 2] true, Op.set_value 1 true]).bind solve).map
        (fun r => (r.1, r.2.values)) = some (true, [0, 1, 0, 0]) ∧
    ∃ s t b s', build 3 [Op.at_most_one [0, 1, 2] true, Op.set_value 1 true] = some s ∧
      s.nodes.length = 2 * s.N ∧
      (∀ u v, v ∈ outsOf s u → u < 2 * s.N ∧ v < 2 * s.N) ∧
      (∀ u v, v ∈ insOf s u → u < 2 * s.N ∧ v < 2 * s.N) ∧
      decompose s = some t ∧ solve s = some (b, s') ∧
      t.nodes.length = 2 * s.N ∧ t.values.length = s.N ∧
      (∀ (k : Nat) (c : Comp), t.comp[k]? = some c →
        c.nodes ≠ [] ∧ ∀ e ∈ c.nodes, e < 2 * s.N ∧ e / 2 < s.N) ∧
      (∀ x, x < 2 * s.N → ∃ k, cidOf t x = some k ∧ k < t.comp.length) :=
  ⟨by decide, by decide, index_safe 3 _ (by decide)⟩

theorem loopM_mono {α σ : Type} {f g : α → σ → Option σ}
    (h : ∀ x s r, f x s = some r → g x s = some r) :
    ∀ (xs : List α) (s r : σ), loopM f xs s = some r → loopM g xs s = some r := by
  intro xs
  induction xs with
  | nil => intro s r hr; exact hr
  | cons x xs ih =>
    intro s r hr
    simp only [loopM] at hr ⊢
    cases hf : f x s with
    | none => rw [hf] at hr; cases hr
    | some t =>
      rw [hf] at hr
      rw [h x s t hf]
      exact ih t r hr

/-- A larger budget does not change what `dfs1` returns. -/
theorem dfs1_mono : ∀ (fuel v : Nat) (s r : TwoSat),
    dfs1 fuel v s = some r → dfs1 (fuel + 1) v s = some r := by
  intro fuel
  induction fuel with
  | zero => intro v s r h; simp [dfs1] at h
  | succ fuel ih =>
    intro v s r h
    rw [dfs1] at h ⊢
    cases hn : s.nodes[v]? with
    | none => rw [hn] at h; cases h
    | some m =>
      rw [hn] at h
      simp only at h ⊢
      by_cases hv : m.vis ≠ 0
      · rw [if_pos hv] at h ⊢; exact h
      · rw [if_neg hv] at h ⊢
        cases hl : loopM (dfs1 fuel) m.outs
            { s with nodes := s.nodes.set v { m with vis := 1 } } with
        | none => rw [hl] at h; cases h
        | some t =>
          rw [hl] at h
          rw [loopM_mono ih _ _ _ hl]
          exact h

theorem visit2_mono {f g : Nat → TwoSat → Option TwoSat}
    (h : ∀ e t r, f e t = some r → g e t = some r) :
    ∀ e t r, visit2 f e t = some r → visit2 g e t = some r := by
  intro e t r hr
  unfold visit2 at hr ⊢
  cases hn : t.nodes[e]? with
  | none => rw [hn] at hr; cases hr
  | some m =>
    rw [hn] at hr
    simp only at hr ⊢
    by_cases hv : m.vis = 0
    · rw [if_pos hv] at hr ⊢; exact h e t r hr
    · rw [if_neg hv] at hr ⊢; exact hr

/-- A larger budget does not change what `dfs2` returns. -/
theorem dfs2_mono : ∀ (fuel v : Nat) (s r : TwoSat),
    dfs2 fuel v s = some r → dfs2 (fuel + 1) v s = some r := by
  intro fuel
  induction fuel with
  | zero => intro v s r h; simp [dfs2] at h
  | succ fuel ih =>
    intro v s r h
    rw [dfs2] at h ⊢
    cases hn : s.nodes[v]? with
    | none => rw [hn] at h; simp at h
    | some m =>
      cases hc : s.comp.getLast? with
      | none => rw [hn, hc] at h; simp at h
      | some c =>
        rw [hn, hc] at h
        simp only at h ⊢
        exact loopM_mono (visit2_mono ih) _ _ _ h

/-- A call of `dfs1` on an unmarked node marks it before it descends: the
nested calls run on a state with one unmarked node less. -/
theorem dfs1_descend (fuel v : Nat) (u : TwoSat) (m : Node) (hm : u.nodes[v]? = some m)
    (h0 : m.vis = 0) :
    unvis { u with nodes := u.nodes.set v { m with vis := 1 } } + 1 = unvis u ∧
    dfs1 (fuel + 1) v u =
      (loopM (dfs1 fuel) m.outs { u with nodes := u.nodes.set v { m with vis := 1 } }).map
        (fun r => { r with st := r.st ++ [v] }) := by
  refine ⟨(mark_props u v m hm h0 _ { m with vis := 1 } rfl rfl rfl rfl).2.2.2.2.1, ?_⟩
  rw [dfs1, hm]
  simp only [h0, ne_eq, not_true_eq_false, if_false]
  cases loopM (dfs1 fuel) m.outs { u with nodes := u.nodes.set v { m with vis := 1 } } <;> rfl

/-- A call of `dfs2` marks its node before it descends, and it descends only
into unmarked nodes. -/
theorem dfs2_descend (fuel v : Nat) (u : TwoSat) (m : Node) (c : Comp)
    (hm : u.nodes[v]? = some m) (h0 : m.vis = 0) (hc : u.comp.getLast? = some c) :
    unvis { u with
        nodes := u.nodes.set v { m with vis := 1, comp_id := some (u.comp.length - 1) }
        comp := u.comp.dropLast ++ [{ c with nodes := c.nodes ++ [v] }] } + 1 = unvis u ∧
    dfs2 (fuel + 1) v u =
      loopM (visit2 (dfs2 fuel)) m.ins
        { u with
          nodes := u.nodes.set v { m with vis := 1, comp_id := some (u.comp.length - 1) }
          comp := u.comp.dropLast ++ [{ c with nodes := c.nodes ++ [v] }] } := by
  refine ⟨(mark_props u v m hm h0 _ { m with vis := 1, comp_id := some (u.comp.length - 1) }
    rfl rfl rfl rfl).2.2.2.2.1, ?_⟩
  rw [dfs2, hm, hc]

theorem visit2_marked (f : Nat → TwoSat → Option TwoSat) (e : Nat) (t : TwoSat) (m : Node)
    (hm : t.nodes[e]? = some m) (hv : m.vis ≠ 0) : visit2 f e t = some t := by
  simp [visit2, hm, hv]

/-- C20 (termination). On every graph built through the API with indices in
range, cycles, self-loops and duplicate edges included, `solve()` returns with
the recursion budget `nodes.size() + 1`. Every descent of `dfs1` and of `dfs2`
first marks an unmarked node, so the number of unmarked nodes strictly
decreases along the recursion, and a larger budget does not change the
result. Each node is pushed on `st` exactly once in pass 1 and placed in
exactly one component, once, in pass 2. -/
theorem solve_terminates (n : Nat) (ops : List Op) (h : opsInRange n ops = true) :
    ∃ s s1 t b s', build n ops = some s ∧ pass1 s = some s1 ∧ decompose s = some t ∧
      solve s = some (b, s') ∧
      s1.st.Perm (List.range (2 * s.N)) ∧
      (∀ x, x < 2 * s.N → s1.st.count x = 1) ∧
      (∀ x, x < 2 * s.N → ∃ k c, t.comp[k]? = some c ∧ c.nodes.count x = 1 ∧
        ∀ (j : Nat) (c' : Comp), t.comp[j]? = some c' → j ≠ k → c'.nodes.count x = 0) ∧
      (∀ (fuel v : Nat) (u : TwoSat) (m : Node), u.nodes[v]? = some m → m.vis = 0 →
        unvis { u with nodes := u.nodes.set v { m with vis := 1 } } + 1 = unvis u ∧
        dfs1 (fuel + 1) v u =
          (loopM (dfs1 fuel) m.outs
            { u with nodes := u.nodes.set v { m with vis := 1 } }).map
            (fun r => { r with st := r.st ++ [v] })) ∧
      (∀ (fuel v : Nat) (u : TwoSat) (m : Node) (c : Comp), u.nodes[v]? = some m →
        m.vis = 0 → u.comp.getLast? = some c →
        unvis { u with
            nodes := u.nodes.set v { m with vis := 1, comp_id := some (u.comp.length - 1) }
            comp := u.comp.dropLast ++ [{ c with nodes := c.nodes ++ [v] }] } + 1 =
          unvis u ∧
        dfs2 (fuel + 1) v u =
          loopM (visit2 (dfs2 fuel)) m.ins
            { u with
              nodes := u.nodes.set v
                { m with vis := 1, comp_id := some (u.comp.length - 1) }
              comp := u.comp.dropLast ++ [{ c with nodes := c.nodes ++ [v] }] }) ∧
      (∀ (f : Nat → TwoSat → Option TwoSat) (e : Nat) (u : TwoSat) (m : Node),
        u.nodes[e]? = some m → m.vis ≠ 0 → visit2 f e u = some u) ∧
      (∀ (fuel v : Nat) (u r : TwoSat), dfs1 fuel v u = some r →
        dfs1 (fuel + 1) v u = some r) ∧
      (∀ (fuel v : Nat) (u r : TwoSat), dfs2 fuel v u = some r →
        dfs2 (fuel + 1) v u = some r) := by
  obtain ⟨s, t, b, s', hb, hB, ht, hd, hs, -⟩ := build_solve_spec n ops h
  obtain ⟨s1, hp1, -, hnd, hmem, -⟩ := pass1_spec s hB.ready
  refine ⟨s, s1, t, b, s', hb, hp1, ht, hs, ?_, ?_, ?_, dfs1_descend, dfs2_descend,
    visit2_marked, dfs1_mono, dfs2_mono⟩
  · refine (List.perm_ext_iff_of_nodup hnd (List.nodup_range _)).2 (fun x => ?_)
    rw [hmem, List.mem_range]
  · intro x hx
    exact List.count_eq_one_of_mem hnd ((hmem x).2 hx)
  · intro x hx
    obtain ⟨k, hk, hklt⟩ := hd.hcid x hx
    obtain ⟨c, hc⟩ := getElem?_some_of_lt hklt
    obtain ⟨-, -, hcnd, hcm⟩ := hd.hcomp k c hc
    refine ⟨k, c, hc, List.count_eq_one_of_mem hcnd ((hcm x).2 ⟨hx, hk⟩), ?_⟩
    intro j c' hc' hjk
    apply List.count_eq_zero_of_not_mem
    intro hxc
    have := ((hd.hcomp j c' hc').2.2.2 x).1 hxc
    rw [hk] at this
    exact hjk (Option.some.inj this.2).symm

/-- Instance of C20: `TwoSat(2)` with the self-loops of `x0 ∨ ¬x0`, the clause
`¬x0 ∨ x1` submitted twice and `¬x1 ∨ x0`, which closes two cycles; pass 1
leaves the stack `2, 0, 3, 1` and `solve()` returns true. -/
theorem solve_terminates_witness :
    opsInRange 2 [Op.add_clause 0 true 0 false, Op.add_clause 0 false 1 true,
      Op.add_clause 0 false 1 true, Op.add_clause 1 false 0 true] = true ∧
    (build 2 [Op.add_clause 0 true 0 false, Op.add_clause 0 false 1 true,
      Op.add_clause 0 false 1 true, Op.add_clause 1 false 0 true]).map
        (fun s => s.nodes.map Node.outs) = some [[0, 2], [1, 3, 3], [0, 0], [1]] ∧
    ((build 2 [Op.add_clause 0 true 0 false, Op.add_clause 0 false 1 true,
      Op.add_clause 0 false 1 true, Op.add_clause 1 false 0 true]).bind pass1).map
        (fun s => s.st) = some [2, 0, 3, 1] ∧
    ((build 2 [Op.add_clause 0 true 0 false, Op.add_clause 0 false 1 true,
      Op.add_clause 0 false 1 true, Op.add_clause 1 false 0 true]).bind solve).map
        (fun r => r.1) = some true ∧
    ∃ s s1 t b s', build 2 [Op.add_clause 0 true 0 false, Op.add_clause 0 false 1 true,
      Op.add_clause 0 false 1 true, Op.add_clause 1 false 0 true] = some s ∧
      pass1 s = some s1 ∧ decompose s = some t ∧
      solve s = some (b, s') ∧
      s1.st.Perm (List.range (2 * s.N)) ∧
      (∀ x, x < 2 * s.N → s1.st.count x = 1) ∧
      (∀ x, x < 2 * s.N → ∃ k c, t.comp[k]? = some c ∧ c.nodes.count x = 1 ∧
        ∀ (j : Nat) (c' : Comp), t.comp[j]? = some c' → j ≠ k → c'.nodes.count x = 0) ∧
      (∀ (fuel v : Nat) (u : TwoSat) (m : Node), u.nodes[v]? = some m → m.vis = 0 →
        unvis { u with nodes := u.nodes.set v { m with vis := 1 } } + 1 = unvis u ∧
        dfs1 (fuel + 1) v u =
          (loopM (dfs1 fuel) m.outs
            { u with nodes := u.nodes.set v { m with vis := 1 } }).map
            (fun r => { r with st := r.st ++ [v] })) ∧
      (∀ (fuel v : Nat) (u : TwoSat) (m : Node) (c : Comp), u.nodes[v]? = some m →
        m.vis = 0 → u.comp.getLast? = some c →
        unvis { u with
            nodes := u.nodes.set v { m with vis := 1, comp_id := some (u.comp.length - 1) }
            comp := u.comp.dropLast ++ [{ c with nodes := c.nodes ++ [v] }] } + 1 =
          unvis u ∧
        dfs2 (fuel + 1) v u =
          loopM (visit2 (dfs2 fuel)) m.ins
            { u with
              nodes := u.nodes.set v
                { m with vis := 1, comp_id := some (u.comp.length - 1) }
              comp := u.comp.dropLast ++ [{ c with nodes := c.nodes ++ [v] }] }) ∧
      (∀ (f : Nat → TwoSat → Option TwoSat) (e : Nat) (u : TwoSat) (m : Node),
        u.nodes[e]? = some m → m.vis ≠ 0 → visit2 f e u = some u) ∧
      (∀ (fuel v : Nat) (u r : TwoSat), dfs1 fuel v u = some r →
        dfs1 (fuel + 1) v u = some r) ∧
      (∀ (fuel v : Nat) (u r : TwoSat), dfs2 fuel v u = some r →
        dfs2 (fuel + 1) v u = some r) :=
  ⟨by decide, by decide, by decide, by decide, solve_terminates 2 _ (by decide)⟩

/-! ## Finish times of pass 1 -/

theorem loopM_erase {α σ ρ : Type} (π : σ → ρ) {fT : α → σ → Option σ}
    {f : α → ρ → Option ρ} (h : ∀ x s, (fT x s).map π = f x (π s)) :
    ∀ (xs : List α) (s : σ), (loopM fT xs s).map π = loopM f xs (π s) := by
  intro xs
  induction xs with
  | nil => intro s; rfl
  | cons x xs ih =>
    intro s
    simp only [loopM]
    have hx := h x s
    cases hf : fT x s with
    | none => rw [hf] at hx; simp only [Option.map_none'] at hx; rw [← hx]; rfl
    | some t =>
      rw [hf] at hx
      simp only [Option.map_some'] at hx
      rw [← hx]
      exact ih t

/-- Dropping the clock and the finish records from `dfs1T` gives `dfs1`. -/
theorem dfs1T_erase : ∀ (fuel v : Nat) (σ : TwoSat × Nat × List (Nat × Nat)),
    (dfs1T fuel v σ).map Prod.fst = dfs1 fuel v σ.1 := by
  intro fuel
  induction fuel with
  | zero => intro v σ; rfl
  | succ fuel ih =>
    intro v σ
    rw [dfs1T, dfs1]
    cases hn : σ.1.nodes[v]? with
    | none => rfl
    | some m =>
      simp only
      by_cases hv : m.vis ≠ 0
      · rw [if_pos hv, if_pos hv]; rfl
      · rw [if_neg hv, if_neg hv]
        have hl := loopM_erase Prod.fst (ih) m.outs
          ({ σ.1 with nodes := σ.1.nodes.set v { m with vis := 1 } }, σ.2.1 + 1, σ.2.2)
        simp only at hl
        rw [← hl]
        cases loopM (dfs1T fuel) m.outs
            ({ σ.1 with nodes := σ.1.nodes.set v { m with vis := 1 } }, σ.2.1 + 1, σ.2.2) <;>
          rfl

theorem pass1T_erase (s : TwoSat) : (pass1T s).map Prod.fst = pass1 s :=
  loopM_erase Prod.fst (dfs1T_erase (s.nodes.length + 1)) _ (s, 0, [])

theorem TimedExt.timed_refl (σ : TwoSat × Nat × List (Nat × Nat)) : TimedExt σ σ :=
  ⟨le_rfl, [], by simp, by simp, by simp, List.Pairwise.nil⟩

theorem TimedExt.timed_trans {σ τ υ : TwoSat × Nat × List (Nat × Nat)}
    (h1 : TimedExt σ τ) (h2 : TimedExt τ υ) : TimedExt σ υ := by
  obtain ⟨c1, n1, f1, s1, b1, p1⟩ := h1
  obtain ⟨c2, n2, f2, s2, b2, p2⟩ := h2
  refine ⟨le_trans c1 c2, n1 ++ n2, by rw [f2, f1, List.append_assoc],
    by rw [s2, s1, List.map_append, List.append_assoc], ?_, ?_⟩
  · intro p hp
    rcases List.mem_append.1 hp with hp | hp
    · have := b1 p hp; omega
    · have := b2 p hp; omega
  · rw [List.pairwise_append]
    refine ⟨p1, p2, ?_⟩
    intro p hp q hq
    have := b1 p hp
    have := b2 q hq
    omega

theorem loopT_ext {f : Nat → TwoSat × Nat × List (Nat × Nat) →
      Option (TwoSat × Nat × List (Nat × Nat))}
    (hf : ∀ v σ τ, f v σ = some τ → TimedExt σ τ) :
    ∀ (xs : List Nat) (σ τ : TwoSat × Nat × List (Nat × Nat)),
      loopM f xs σ = some τ → TimedExt σ τ := by
  intro xs
  induction xs with
  | nil =>
    intro σ τ h
    simp only [loopM, Option.some.injEq] at h
    subst h
    exact TimedExt.timed_refl σ
  | cons x xs ih =>
    intro σ τ h
    simp only [loopM] at h
    cases hx : f x σ with
    | none => rw [hx] at h; cases h
    | some υ =>
      rw [hx] at h
      exact (hf x σ υ hx).timed_trans (ih υ τ h)

/-- Every run of `dfs1T` appends finish records with strictly increasing
times, in the order in which it pushes the nodes on `st`. -/
theorem dfs1T_ext : ∀ (fuel v : Nat) (σ τ : TwoSat × Nat × List (Nat × Nat)),
    dfs1T fuel v σ = some τ → TimedExt σ τ := by
  intro fuel
  induction fuel with
  | zero => intro v σ τ h; simp [dfs1T] at h
  | succ fuel ih =>
    intro v σ τ h
    rw [dfs1T] at h
    cases hn : σ.1.nodes[v]? with
    | none => rw [hn] at h; cases h
    | some m =>
      rw [hn] at h
      simp only at h
      by_cases hv : m.vis ≠ 0
      · rw [if_pos hv] at h
        cases h
        exact TimedExt.timed_refl σ
      · rw [if_neg hv] at h
        cases hl : loopM (dfs1T fuel) m.outs
            ({ σ.1 with nodes := σ.1.nodes.set v { m with vis := 1 } }, σ.2.1 + 1, σ.2.2) with
        | none => rw [hl] at h; cases h
        | some υ =>
          rw [hl] at h
          simp only [Option.some.injEq] at h
          subst h
          obtain ⟨c1, n1, f1, s1, b1, p1⟩ := loopT_ext ih _ _ _ hl
          simp only at c1 f1 s1 b1
          refine ⟨by simp only; omega, n1 ++ [(v, υ.2.1)], ?_, ?_, ?_, ?_⟩
          · simp only; rw [f1, List.append_assoc]
          · simp only; rw [s1, List.map_append, List.append_assoc]; rfl
          · intro p hp
            simp only
            rcases List.mem_append.1 hp with hp | hp
            · have := b1 p hp; omega
            · rw [List.mem_singleton] at hp; subst hp; simp only; omega
          · rw [List.pairwise_append]
            refine ⟨p1, List.pairwise_singleton _ _, ?_⟩
            intro p hp q hq
            rw [List.mem_singleton] at hq
            subst hq
            exact (b1 p hp).2

/-- C17, as stated, fails: on `TwoSat(1)` pass 1 finishes node 0 at time 1 and
node 1 at time 3 and leaves the stack `0, 1`; read from bottom to top the
finish times increase, they do not decrease. -/
theorem stack_order_counterexample :
    ((build 1 []).bind pass1T).map (fun σ => (σ.1.st, σ.2.2)) =
      some ([0, 1], [(0, 1), (1, 3)]) ∧
    ¬ ∀ σ, (build 1 []).bind pass1T = some σ → σ.1.st = σ.2.2.map Prod.fst →
        ∀ (i j : Nat) (p q : Nat × Nat), i < j → σ.2.2[i]? = some p → σ.2.2[j]? = some q →
          q.2 < p.2 := by
  refine ⟨by decide, fun hall => ?_⟩
  have hs : (build 1 []).bind pass1T = some (((build 1 []).bind pass1T).get (by decide)) := by
    simp
  have := hall _ hs (by decide) 0 1 (0, 1) (1, 3) (by decide) (by decide) (by decide)
  revert this
  decide

/-- C17 as amended: after pass 1 the stack `st` read from bottom to top lists
the nodes in order of increasing `dfs1` finish time (so from top to bottom in
order of decreasing finish time). The finish times are those of the clocked
run `pass1T`, which computes the same state as pass 1. -/
theorem stack_finish_order (n : Nat) (ops : List Op) (h : opsInRange n ops = true) :
    ∃ s s1 c log, build n ops = some s ∧ pass1 s = some s1 ∧
      pass1T s = some (s1, c, log) ∧ s1.st = log.map Prod.fst ∧
      ∀ (i j : Nat) (p q : Nat × Nat), i < j → log[i]? = some p → log[j]? = some q →
        p.2 < q.2 := by
  obtain ⟨s, hb, -, hB⟩ := build_spec n ops h
  obtain ⟨s1, hp1, -⟩ := pass1_spec s hB.ready
  have he := pass1T_erase s
  rw [hp1] at he
  cases hT : pass1T s with
  | none => rw [hT] at he; cases he
  | some σ =>
    rw [hT] at he
    simp only [Option.map_some', Option.some.injEq] at he
    obtain ⟨-, new, f1, st1, -, pw⟩ :=
      loopT_ext (dfs1T_ext (s.nodes.length + 1)) _ _ _ hT
    simp only [List.nil_append] at f1
    rw [hB.hst, List.nil_append, ← f1, he] at st1
    refine ⟨s, s1, σ.2.1, σ.2.2, hb, hp1, by rw [← he]; exact hT, st1, ?_⟩
    rw [← f1] at pw
    rw [List.pairwise_iff_getElem] at pw
    intro i j p q hij hp hq
    obtain ⟨hi, rfl⟩ := List.getElem?_eq_some_iff.1 hp
    obtain ⟨hj, rfl⟩ := List.getElem?_eq_some_iff.1 hq
    exact pw i j hi hj hij

/-- Instance of the amended C17: the chain `x0 → x1` on `TwoSat(2)`; the stack
is `0, 3, 1, 2` with the finish times `1, 4, 5, 7`. -/
theorem stack_finish_order_witness :
    opsInRange 2 [Op.add_clause 0 false 1 true] = true ∧
    ((build 2 [Op.add_clause 0 false 1 true]).bind pass1T).map
        (fun σ => (σ.1.st, σ.2.2)) = some ([0, 3, 1, 2], [(0, 1), (3, 4), (1, 5), (2, 7)]) ∧
    ∃ s s1 c log, build 2 [Op.add_clause 0 false 1 true] = some s ∧ pass1 s = some s1 ∧
      pass1T s = some (s1, c, log) ∧ s1.st = log.map Prod.fst ∧
      ∀ (i j : Nat) (p q : Nat × Nat), i < j → log[i]? = some p → log[j]? = some q →
        p.2 < q.2 :=
  ⟨by decide, by decide, stack_finish_order 2 _ (by decide)⟩

end Kactl
